import Mathlib

/-!
# Verification of the Reed-Solomon erasure coding engine

This development shallowly embeds the Reed-Solomon coder of
`internal/reedsolomon/reedsolomon.go` and settles the specification claims
about it.  The galois-field arithmetic, the matrix package and the inversion
tree are not part of the presented source (only `reedsolomon.go` is); they are
modelled from the specification, which fixes the field polynomial `0x11d`,
the Gauss-Jordan inversion algorithm, the Vandermonde primitive and the
inversion-tree contract.
-/

set_option maxHeartbeats 4000000
set_option maxRecDepth 100000

namespace RS

/-! ## GF(2^8) byte arithmetic

Modelled from the spec: `galois.go` is not under `src/`.  The spec fixes
GF(2^8) arithmetic with addition = XOR and multiplication modulo the
polynomial `0x11d`; any table representation agreeing with the field axioms
is acceptable, so we use the standard shift-and-xor (Russian peasant)
computation of the product. -/

/-- One multiplication of a field element (as a byte) by `x`,
reducing by the field polynomial `0x11d` when the degree reaches 8. -/
def xtime (a : Nat) : Nat :=
  let a2 := a <<< 1
  if 256 ≤ a2 then a2 ^^^ 0x11d else a2

/-- Fuel-driven core of the GF(2^8) product: processes one bit of the second
factor per step.  Eight steps suffice for byte arguments. -/
def gmulAux : Nat → Nat → Nat → Nat
  | 0, _, _ => 0
  | fuel + 1, a, b =>
      if b = 0 then 0
      else (if b % 2 = 1 then a else 0) ^^^ gmulAux fuel (xtime a) (b / 2)

/-- GF(2^8) product of two bytes: shift-and-xor multiplication modulo
the field polynomial `0x11d`. -/
def gmul (a b : Nat) : Nat := gmulAux 8 a b

/-- Fuel-driven exponentiation by squaring in GF(2^8). -/
def gpowAux : Nat → Nat → Nat → Nat
  | 0, _, _ => 1
  | fuel + 1, a, n =>
      if n = 0 then 1
      else if n % 2 = 1 then gmul a (gpowAux fuel (gmul a a) (n / 2))
      else gpowAux fuel (gmul a a) (n / 2)

/-- GF(2^8) exponentiation of a byte. -/
def gpow (a n : Nat) : Nat := gpowAux 16 a n

/-- GF(2^8) multiplicative inverse of a byte (`0` maps to `0`),
computed as `a ^ 254`; this realises the spec's `invTable`. -/
def ginv (a : Nat) : Nat := gpow a 254

theorem xtime_lt_aux : ∀ a, a < 256 → xtime a < 256 := by decide

theorem xtime_lt {a : Nat} (h : a < 256) : xtime a < 256 := xtime_lt_aux a h

theorem xor_lt_256 {a b : Nat} (ha : a < 256) (hb : b < 256) : a ^^^ b < 256 := by
  have h : (2 : Nat) ^ 8 = 256 := by norm_num
  exact h ▸ Nat.xor_lt_two_pow (h.symm ▸ ha) (h.symm ▸ hb)

theorem gmulAux_lt {fuel a b : Nat} (ha : a < 256) : gmulAux fuel a b < 256 := by
  induction fuel generalizing a b with
  | zero => simp [gmulAux]
  | succ fuel ih =>
    simp only [gmulAux]
    split
    · omega
    · refine xor_lt_256 ?_ (ih (xtime_lt ha))
      split
      · exact ha
      · omega

theorem gmul_lt {a b : Nat} (ha : a < 256) : gmul a b < 256 := gmulAux_lt ha

theorem gpowAux_lt {fuel a n : Nat} (ha : a < 256) : gpowAux fuel a n < 256 := by
  induction fuel generalizing a n with
  | zero => simp [gpowAux]
  | succ fuel ih =>
    simp only [gpowAux]
    split
    · omega
    · split
      · exact gmul_lt ha
      · exact ih (gmul_lt ha)

theorem gpow_lt {a n : Nat} (ha : a < 256) : gpow a n < 256 := gpowAux_lt ha

theorem ginv_lt {a : Nat} (ha : a < 256) : ginv a < 256 := gpow_lt ha

/-- Every nonzero byte times its `ginv` gives `1` (checked exhaustively). -/
theorem gmul_ginv : ∀ a, a < 256 → a ≠ 0 → gmul a (ginv a) = 1 := by decide

/-! ## The polynomial model of the byte arithmetic

Bytes are binary polynomials over `ZMod 2`; `gmul` is multiplication modulo
the field polynomial.  This section establishes that correspondence, from
which the ring axioms for the byte operations follow. -/

open Polynomial

/-- Binary polynomials over the two-element field. -/
abbrev P2 := Polynomial (ZMod 2)

/-- The bits of a natural number, as a binary polynomial. -/
noncomputable def toPoly (n : Nat) : P2 :=
  if h : n = 0 then 0
  else C ((n % 2 : Nat) : ZMod 2) + X * toPoly (n / 2)
termination_by n
decreasing_by exact Nat.div_lt_self (Nat.pos_of_ne_zero h) one_lt_two

/-- The field polynomial `0x11d`, as a binary polynomial. -/
noncomputable def fieldPoly : P2 := X ^ 8 + (X ^ 4 + X ^ 3 + X ^ 2 + 1)

theorem fieldPoly_monic : fieldPoly.Monic := by
  apply monic_X_pow_add
  calc degree (X ^ 4 + X ^ 3 + X ^ 2 + 1 : P2)
      ≤ _ := degree_add_le _ _
    _ < (8 : ℕ) := by
        refine max_lt (lt_of_le_of_lt (degree_add_le _ _) (max_lt
          (lt_of_le_of_lt (degree_add_le _ _) (max_lt ?_ ?_)) ?_)) ?_
        · exact lt_of_le_of_lt (degree_X_pow_le 4) (by decide)
        · exact lt_of_le_of_lt (degree_X_pow_le 3) (by decide)
        · exact lt_of_le_of_lt (degree_X_pow_le 2) (by decide)
        · exact lt_of_le_of_lt degree_one_le (by decide)

theorem fieldPoly_degree : fieldPoly.degree = 8 := by
  rw [fieldPoly, degree_add_eq_left_of_degree_lt]
  · exact degree_X_pow 8
  · rw [degree_X_pow]
    refine lt_of_le_of_lt (degree_add_le _ _) (max_lt
      (lt_of_le_of_lt (degree_add_le _ _) (max_lt
        (lt_of_le_of_lt (degree_add_le _ _) (max_lt ?_ ?_)) ?_)) ?_)
    · exact lt_of_le_of_lt (degree_X_pow_le 4) (by decide)
    · exact lt_of_le_of_lt (degree_X_pow_le 3) (by decide)
    · exact lt_of_le_of_lt (degree_X_pow_le 2) (by decide)
    · exact lt_of_le_of_lt degree_one_le (by decide)

theorem toPoly_zero : toPoly 0 = 0 := by simp [toPoly]

theorem toPoly_of_ne {n : Nat} (h : n ≠ 0) :
    toPoly n = C ((n % 2 : Nat) : ZMod 2) + X * toPoly (n / 2) := by
  rw [toPoly]
  simp [h]

theorem toPoly_coeff_zero (n : Nat) :
    (toPoly n).coeff 0 = ((n % 2 : Nat) : ZMod 2) := by
  by_cases h : n = 0
  · simp [h, toPoly_zero]
  · rw [toPoly_of_ne h, coeff_add, coeff_C_zero, mul_coeff_zero, coeff_X_zero,
      zero_mul, add_zero]

theorem toPoly_coeff_succ (n i : Nat) :
    (toPoly n).coeff (i + 1) = (toPoly (n / 2)).coeff i := by
  by_cases h : n = 0
  · simp [h, toPoly_zero]
  · rw [toPoly_of_ne h, coeff_add, coeff_C, if_neg (Nat.succ_ne_zero i),
      coeff_X_mul, zero_add]

theorem toPoly_eq_zero {n : Nat} (h : toPoly n = 0) : n = 0 := by
  induction n using Nat.strong_induction_on with
  | _ n ih =>
    by_cases hn : n = 0
    · exact hn
    · exfalso
      have h0 : ((n % 2 : Nat) : ZMod 2) = 0 := by
        have := toPoly_coeff_zero n
        rw [h] at this
        simpa using this.symm
      have hmod : n % 2 = 0 := by
        rcases Nat.mod_two_eq_zero_or_one n with h2 | h2
        · exact h2
        · rw [h2] at h0
          simp at h0
      have hdiv : toPoly (n / 2) = 0 := by
        ext i
        have := toPoly_coeff_succ n i
        rw [h] at this
        simpa using this.symm
      have := ih (n / 2) (Nat.div_lt_self (Nat.pos_of_ne_zero hn) one_lt_two) hdiv
      omega

theorem toPoly_inj : ∀ {m n : Nat}, toPoly m = toPoly n → m = n := by
  intro m
  induction m using Nat.strong_induction_on with
  | _ m ih =>
    intro n h
    by_cases hm : m = 0
    · subst hm
      exact (toPoly_eq_zero (h.symm.trans toPoly_zero)).symm
    · have hmod : m % 2 = n % 2 := by
        have h0 := congrArg (fun p => Polynomial.coeff p 0) h
        simp only [toPoly_coeff_zero] at h0
        rcases Nat.mod_two_eq_zero_or_one m with h2 | h2 <;>
          rcases Nat.mod_two_eq_zero_or_one n with h3 | h3 <;>
            rw [h2, h3] at h0 <;> simp_all
      have hdiv : toPoly (m / 2) = toPoly (n / 2) := by
        ext i
        have := congrArg (fun p => Polynomial.coeff p (i + 1)) h
        simpa [toPoly_coeff_succ] using this
      have := ih (m / 2) (Nat.div_lt_self (Nat.pos_of_ne_zero hm) one_lt_two) hdiv
      omega

theorem toPoly_degree_lt : ∀ (k : Nat) {n : Nat}, n < 2 ^ k →
    (toPoly n).degree < (k : WithBot ℕ) := by
  intro k
  induction k with
  | zero =>
    intro n hn
    interval_cases n
    rw [toPoly_zero, degree_zero]
    exact WithBot.bot_lt_coe 0
  | succ k ih =>
    intro n hn
    by_cases h : n = 0
    · rw [h, toPoly_zero, degree_zero]
      exact WithBot.bot_lt_coe _
    · rw [toPoly_of_ne h]
      have hdiv : n / 2 < 2 ^ k := by
        have := Nat.pow_succ 2 k
        omega
      have ihd := ih hdiv
      refine lt_of_le_of_lt (degree_add_le _ _) (max_lt ?_ ?_)
      · exact lt_of_le_of_lt degree_C_le (by exact_mod_cast Nat.succ_pos k)
      · rw [degree_mul, degree_X]
        have h1 : (1 : WithBot ℕ) + degree (toPoly (n / 2)) < 1 + (k : WithBot ℕ) :=
          WithBot.add_lt_add_left (by simp) ihd
        refine h1.trans_le (le_of_eq ?_)
        push_cast
        ring

theorem toPoly_degree_lt_eight {n : Nat} (h : n < 256) :
    (toPoly n).degree < fieldPoly.degree := by
  rw [fieldPoly_degree]
  exact toPoly_degree_lt 8 h

theorem toPoly_mod_self {n : Nat} (h : n < 256) :
    toPoly n %ₘ fieldPoly = toPoly n :=
  (modByMonic_eq_self_iff fieldPoly_monic).mpr (toPoly_degree_lt_eight h)

/-- Multiplying a residue first does not change the residue of a product. -/
theorem mod_mul_mod_left (p q : P2) :
    (p %ₘ fieldPoly * q) %ₘ fieldPoly = (p * q) %ₘ fieldPoly := by
  refine modByMonic_eq_of_dvd_sub fieldPoly_monic ?_
  have h := modByMonic_add_div p fieldPoly_monic
  refine ⟨-(p /ₘ fieldPoly) * q, ?_⟩
  linear_combination q * h

theorem mod_mul_mod_right (p q : P2) :
    (p * (q %ₘ fieldPoly)) %ₘ fieldPoly = (p * q) %ₘ fieldPoly := by
  rw [mul_comm p _, mul_comm p q]
  exact mod_mul_mod_left q p

theorem p2_add_self (p : P2) : p + p = 0 := by
  have h2 : (2 : P2) = 0 := by
    calc (2 : P2) = ((2 : ℕ) : P2) := by norm_cast
      _ = C ((2 : ℕ) : ZMod 2) := (Polynomial.C_eq_natCast 2).symm
      _ = C 0 := by rw [ZMod.natCast_self 2]
      _ = 0 := Polynomial.C_0
  calc p + p = 2 * p := by ring
    _ = 0 := by rw [h2, zero_mul]

theorem xor_mod_two_cast (m n : Nat) :
    (((m ^^^ n) % 2 : Nat) : ZMod 2) =
      ((m % 2 : Nat) : ZMod 2) + ((n % 2 : Nat) : ZMod 2) := by
  have hiff := Nat.xor_mod_two_eq_one (a := m) (b := n)
  rcases Nat.mod_two_eq_zero_or_one m with h1 | h1 <;>
    rcases Nat.mod_two_eq_zero_or_one n with h2 | h2 <;>
      rcases Nat.mod_two_eq_zero_or_one (m ^^^ n) with h3 | h3 <;>
        rw [h1, h2, h3] at hiff ⊢ <;>
          first
            | decide
            | (exfalso; simp at hiff)

/-- XOR of naturals corresponds to addition of binary polynomials. -/
theorem toPoly_xor : ∀ (m n : Nat), toPoly (m ^^^ n) = toPoly m + toPoly n := by
  intro m
  induction m using Nat.strong_induction_on with
  | _ m ih =>
    intro n
    by_cases hm : m = 0
    · simp [hm, toPoly_zero]
    · by_cases hx : m ^^^ n = 0
      · have hmn : m = n := Nat.xor_eq_zero.mp hx
        rw [hx, toPoly_zero, hmn, p2_add_self]
      · rw [toPoly_of_ne hx, toPoly_of_ne hm, Nat.xor_div_two,
          ih (m / 2) (Nat.div_lt_self (Nat.pos_of_ne_zero hm) one_lt_two),
          xor_mod_two_cast]
        by_cases hn : n = 0
        · simp [hn, toPoly_zero]
        · rw [toPoly_of_ne hn, map_add]
          ring

theorem toPoly_one : toPoly 1 = 1 := by
  rw [toPoly_of_ne one_ne_zero]
  norm_num [toPoly_zero]

theorem toPoly_mul_two (a : Nat) : toPoly (a * 2) = X * toPoly a := by
  by_cases h : a = 0
  · simp [h, toPoly_zero]
  · rw [toPoly_of_ne (by omega)]
    have h1 : a * 2 % 2 = 0 := by omega
    have h2 : a * 2 / 2 = a := by omega
    rw [h1, h2]
    simp

theorem toPoly_fieldPoly : toPoly 0x11d = fieldPoly := by
  have h1 : toPoly 1 = 1 := toPoly_one
  rw [fieldPoly]
  norm_num [toPoly_of_ne, toPoly_zero]
  ring

theorem toPoly_xtime {a : Nat} (ha : a < 256) :
    toPoly (xtime a) = (X * toPoly a) %ₘ fieldPoly := by
  have hx := xtime_lt_aux a ha
  simp only [xtime, Nat.shiftLeft_eq, pow_one] at hx ⊢
  by_cases h : 256 ≤ a * 2
  · rw [if_pos h] at hx ⊢
    have hrepr : toPoly (a * 2 ^^^ 0x11d) = X * toPoly a + fieldPoly := by
      rw [toPoly_xor, toPoly_mul_two, toPoly_fieldPoly]
    rw [hrepr]
    refine ((div_modByMonic_unique 1 (X * toPoly a + fieldPoly)
      fieldPoly_monic ⟨?_, ?_⟩).2).symm
    · linear_combination p2_add_self fieldPoly
    · rw [← hrepr]
      exact toPoly_degree_lt_eight hx
  · rw [if_neg h] at hx ⊢
    rw [← toPoly_mul_two]
    exact (toPoly_mod_self (by omega)).symm

theorem toPoly_gmulAux : ∀ (fuel : Nat) {a b : Nat}, a < 256 → b < 2 ^ fuel →
    toPoly (gmulAux fuel a b) = (toPoly a * toPoly b) %ₘ fieldPoly := by
  intro fuel
  induction fuel with
  | zero =>
    intro a b ha hb
    interval_cases b
    simp [gmulAux, toPoly_zero, zero_modByMonic]
  | succ fuel ih =>
    intro a b ha hb
    by_cases hb0 : b = 0
    · simp [gmulAux, hb0, toPoly_zero, zero_modByMonic]
    · simp only [gmulAux, if_neg hb0]
      rw [toPoly_xor]
      have hdiv : b / 2 < 2 ^ fuel := by
        have := Nat.pow_succ 2 fuel
        omega
      rw [ih (xtime_lt ha) hdiv, toPoly_xtime ha, mod_mul_mod_left,
        toPoly_of_ne hb0, mul_add, add_modByMonic,
        (by ring : X * toPoly a * toPoly (b / 2) = toPoly a * (X * toPoly (b / 2)))]
      congr 1
      rcases Nat.mod_two_eq_zero_or_one b with h2 | h2
      · rw [h2]
        norm_num [toPoly_zero, zero_modByMonic]
      · rw [h2]
        norm_num [toPoly_mod_self ha]

theorem gmul_poly {a b : Nat} (ha : a < 256) (hb : b < 256) :
    toPoly (gmul a b) = (toPoly a * toPoly b) %ₘ fieldPoly :=
  toPoly_gmulAux 8 ha (by omega)

theorem gmul_comm {a b : Nat} (ha : a < 256) (hb : b < 256) :
    gmul a b = gmul b a := by
  apply toPoly_inj
  rw [gmul_poly ha hb, gmul_poly hb ha, mul_comm]

theorem gmul_assoc {a b c : Nat} (ha : a < 256) (hb : b < 256) (hc : c < 256) :
    gmul (gmul a b) c = gmul a (gmul b c) := by
  apply toPoly_inj
  rw [gmul_poly (gmul_lt ha) hc, gmul_poly ha hb, mod_mul_mod_left,
    gmul_poly ha (gmul_lt hb), gmul_poly hb hc, mod_mul_mod_right, mul_assoc]

theorem gmul_zero (a : Nat) : gmul a 0 = 0 := by simp [gmul, gmulAux]

theorem zero_gmul {b : Nat} (hb : b < 256) : gmul 0 b = 0 := by
  apply toPoly_eq_zero
  rw [gmul_poly (by omega) hb, toPoly_zero, zero_mul, zero_modByMonic]

theorem gmul_one {a : Nat} (ha : a < 256) : gmul a 1 = a := by
  apply toPoly_inj
  rw [gmul_poly ha (by omega), toPoly_one, mul_one, toPoly_mod_self ha]

theorem one_gmul {b : Nat} (hb : b < 256) : gmul 1 b = b := by
  rw [gmul_comm (by omega) hb]
  exact gmul_one hb

theorem gmul_xor_left {a b c : Nat} (ha : a < 256) (hb : b < 256) (hc : c < 256) :
    gmul a (b ^^^ c) = gmul a b ^^^ gmul a c := by
  apply toPoly_inj
  rw [gmul_poly ha (xor_lt_256 hb hc), toPoly_xor, toPoly_xor,
    gmul_poly ha hb, gmul_poly ha hc, mul_add, add_modByMonic]

theorem gmul_xor_right {a b c : Nat} (ha : a < 256) (hb : b < 256) (hc : c < 256) :
    gmul (a ^^^ b) c = gmul a c ^^^ gmul b c := by
  rw [gmul_comm (xor_lt_256 ha hb) hc, gmul_xor_left hc ha hb,
    gmul_comm hc ha, gmul_comm hc hb]

/-! ## The field of bytes

A byte together with the XOR addition and the `gmul` multiplication.
The ring laws follow from the polynomial correspondence above and the
multiplicative inverses were checked exhaustively. -/

/-- A GF(2^8) field element: a byte. -/
abbrev GF := {n : Nat // n < 256}

/-- Build a field element from a byte value. -/
def gf (n : Nat) : GF := ⟨n % 256, Nat.mod_lt n (by decide)⟩

instance instZeroGF : Zero GF := ⟨⟨0, by decide⟩⟩

instance instOneGF : One GF := ⟨⟨1, by decide⟩⟩

instance instAddGF : Add GF := ⟨fun a b => ⟨a.1 ^^^ b.1, xor_lt_256 a.2 b.2⟩⟩

instance instMulGF : Mul GF := ⟨fun a b => ⟨gmul a.1 b.1, gmul_lt a.2⟩⟩

instance instNegGF : Neg GF := ⟨fun a => a⟩

instance instInvGF : Inv GF := ⟨fun a => ⟨ginv a.1, ginv_lt a.2⟩⟩

instance instCommRingGF : CommRing GF where
  add := (· + ·)
  add_assoc a b c := Subtype.ext (Nat.xor_assoc a.1 b.1 c.1)
  zero := 0
  zero_add a := Subtype.ext (Nat.zero_xor a.1)
  add_zero a := Subtype.ext (Nat.xor_zero a.1)
  add_comm a b := Subtype.ext (Nat.xor_comm a.1 b.1)
  nsmul := nsmulRec
  zsmul := zsmulRec
  neg := (- ·)
  neg_add_cancel a := Subtype.ext (Nat.xor_self a.1)
  mul := (· * ·)
  mul_assoc a b c := Subtype.ext (gmul_assoc a.2 b.2 c.2)
  one := 1
  one_mul a := Subtype.ext (one_gmul a.2)
  mul_one a := Subtype.ext (gmul_one a.2)
  mul_comm a b := Subtype.ext (gmul_comm a.2 b.2)
  left_distrib a b c := Subtype.ext (gmul_xor_left a.2 b.2 c.2)
  right_distrib a b c := Subtype.ext (gmul_xor_right a.2 b.2 c.2)
  zero_mul a := Subtype.ext (zero_gmul a.2)
  mul_zero a := Subtype.ext (gmul_zero a.1)

theorem ginv_zero : ginv 0 = 0 := by decide

theorem GF.add_val (a b : GF) : (a + b).1 = a.1 ^^^ b.1 := rfl

theorem GF.mul_val (a b : GF) : (a * b).1 = gmul a.1 b.1 := rfl

theorem GF.zero_val : (0 : GF).1 = 0 := rfl

theorem GF.one_val : (1 : GF).1 = 1 := rfl

section InvLemmas

attribute [local irreducible] ginv

theorem GF.inv_val (a : GF) : (a⁻¹).1 = ginv a.1 := rfl

theorem GF.mul_inv_cancel_lemma (a : GF) (ha : a ≠ 0) : a * a⁻¹ = 1 := by
  apply Subtype.ext
  rw [GF.mul_val, GF.inv_val, GF.one_val]
  exact gmul_ginv a.1 a.2 (fun h => ha (Subtype.ext h))

theorem GF.inv_zero_lemma : (0 : GF)⁻¹ = 0 := by
  apply Subtype.ext
  rw [GF.inv_val, GF.zero_val]
  exact ginv_zero

instance instFieldGF : Field GF where
  inv := (·⁻¹)
  exists_pair_ne := ⟨⟨0, by decide⟩, ⟨1, by decide⟩, by
    intro h
    exact absurd (congrArg Subtype.val h) (by decide)⟩
  mul_inv_cancel := GF.mul_inv_cancel_lemma
  inv_zero := GF.inv_zero_lemma
  nnqsmul := _
  nnqsmul_def := fun _ _ => rfl
  qsmul := _
  qsmul_def := fun _ _ => rfl

end InvLemmas

/-! ## Errors

One constructor per distinct error value of the engine.  `shardCapacity` is
the anonymous error created inside SplitMulti; it is a different Go error
value from `ErrInvalidInput`.  `shape` and `singular` are the validation and
singularity conditions of the matrix package. -/

deriving instance DecidableEq for Except

inductive Err where
  | invShardNum
  | maxShardNum
  | tooFewShards
  | shardNoData
  | shardSize
  | shortData
  | reconstructRequired
  | invalidInput
  | singular
  | shape
  | shardCapacity
  | treeBound
  deriving DecidableEq, Repr

/-! ## The matrix package

Modelled from the spec: `matrix.go` is not under `src/`.  A matrix is a
dense row-major list of rows of GF(2^8) bytes.  `Invert` is the Gauss-Jordan
elimination the spec describes: per column, pivot selection (taking the
diagonal entry when non-zero, else searching below, else failing singular),
scaling the pivot row by the pivot's inverse, and clearing the column in
every other row by XOR-subtracting a multiple of the pivot row. -/

/-- A dense row-major matrix of field elements. -/
abbrev gmatrix := List (List GF)

/-- Entry access with zero default, matching row-major indexing. -/
def mget (m : gmatrix) (i j : Nat) : GF := (m.getD i []).getD j 0

/-- An all-zero matrix; fails shape validation on empty dimensions. -/
def newMatrix (rows cols : Nat) : Except Err gmatrix :=
  if rows = 0 ∨ cols = 0 then .error .shape
  else .ok (List.replicate rows (List.replicate cols 0))

/-- The identity matrix. -/
def identityMatrix (n : Nat) : gmatrix :=
  (List.range n).map fun i => (List.range n).map fun j => if i = j then 1 else 0

/-- Modelled from the spec: the exponentiation primitive of `galois.go`,
with galExp(a, 0) = 1. -/
def galExp (a : GF) (n : Nat) : GF := a ^ n

/-- Modelled from the spec: vandermonde(rows, cols)[i][j] = galExp(i, j). -/
def vandermonde (rows cols : Nat) : Except Err gmatrix :=
  if rows = 0 ∨ cols = 0 then .error .shape
  else .ok ((List.range rows).map fun i =>
    (List.range cols).map fun j => galExp (gf i) j)

/-- Rows rmin..rmax (exclusive), columns cmin..cmax (exclusive). -/
def SubMatrix (m : gmatrix) (rmin cmin rmax cmax : Nat) : gmatrix :=
  ((m.drop rmin).take (rmax - rmin)).map fun row => (row.drop cmin).take (cmax - cmin)

/-- XOR-sum of a list of field elements (the GF(2^8) sum). -/
def xorSum (l : List GF) : GF := l.foldr (· + ·) 0

/-- Matrix product entry: the dot product of a row with column c of b. -/
def dotCol (row : List GF) (b : gmatrix) (c : Nat) : GF :=
  xorSum (List.zipWith (fun x brow => x * List.getD brow c 0) row b)

/-- Matrix multiplication, validating the inner dimensions. -/
def Multiply (a b : gmatrix) : Except Err gmatrix :=
  if a.all (fun row => row.length = b.length) then
    .ok (a.map fun row => (List.range ((b.headD []).length)).map fun c => dotCol row b c)
  else .error .shape

/-- Horizontal concatenation. -/
def Augment (a b : gmatrix) : gmatrix := List.zipWith (· ++ ·) a b

/-- Swap two rows. -/
def swapRows (m : gmatrix) (i j : Nat) : gmatrix :=
  let ri := m.getD i []
  let rj := m.getD j []
  (m.set i rj).set j ri

/-- Scale row i by v. -/
def scaleRow (m : gmatrix) (i : Nat) (v : GF) : gmatrix :=
  m.set i ((m.getD i []).map fun x => v * x)

/-- XOR f times row src into row dst. -/
def addMulRow (m : gmatrix) (dst src : Nat) (f : GF) : gmatrix :=
  m.set dst (List.zipWith (fun x y => x + f * y) (m.getD dst []) (m.getD src []))

/-- Pivot choice for column c: the diagonal entry when non-zero, else the
first row below with a non-zero entry in column c. -/
def findPivot (m : gmatrix) (n c : Nat) : Option Nat :=
  if mget m c c ≠ 0 then some c
  else (List.range' (c + 1) (n - (c + 1))).find? fun r => mget m r c ≠ 0

/-- One Gauss-Jordan column step on the augmented working matrix. -/
def elimStep (n : Nat) (m : gmatrix) (c : Nat) : Except Err gmatrix :=
  match findPivot m n c with
  | none => .error .singular
  | some p =>
      let m1 := swapRows m c p
      let m2 := scaleRow m1 c (mget m1 c c)⁻¹
      .ok ((List.range n).foldl (fun acc r =>
        if r = c then acc
        else if mget acc r c = 0 then acc
        else addMulRow acc r c (mget acc r c)) m2)

/-- Gauss-Jordan elimination over all n columns. -/
def gaussJordan (n : Nat) (m : gmatrix) : Except Err gmatrix :=
  (List.range n).foldlM (elimStep n) m

/-- Matrix inversion by Gauss-Jordan elimination of the augmented matrix. -/
def Invert (m : gmatrix) : Except Err gmatrix :=
  let n := m.length
  if n = 0 ∨ ¬ (m.all fun row => row.length = n) then .error .shape
  else do
    let red ← gaussJordan n (Augment m (identityMatrix n))
    .ok (SubMatrix red 0 n n (2 * n))

/-- Well-formedness: r rows, every row of length c. -/
def WF (m : gmatrix) (r c : Nat) : Prop :=
  m.length = r ∧ ∀ row ∈ m, row.length = c

/-- The Mathlib view of a list matrix. -/
def toMat (m : gmatrix) (r c : Nat) : Matrix (Fin r) (Fin c) GF :=
  Matrix.of fun i j => mget m i.1 j.1

/-! ### List utilities -/

theorem getD_of_lt {α : Type} (l : List α) (d : α) {n : Nat} (h : n < l.length) :
    l.getD n d = l[n] := by
  simp [List.getD_eq_getElem?_getD, List.getElem?_eq_getElem h]

theorem getD_of_ge {α : Type} (l : List α) (d : α) {n : Nat} (h : l.length ≤ n) :
    l.getD n d = d := by
  simp [List.getD_eq_getElem?_getD, List.getElem?_eq_none h]

theorem zipWith_eq_map_range {α β γ : Type} (f : α → β → γ) (d1 : α) (d2 : β)
    {l1 : List α} {l2 : List β} {k : Nat} (h1 : l1.length = k) (h2 : l2.length = k) :
    List.zipWith f l1 l2 = (List.range k).map fun i => f (l1.getD i d1) (l2.getD i d2) := by
  apply List.ext_getElem
  · simp [List.length_zipWith, h1, h2]
  · intro i hi1 hi2
    have hik : i < k := by simpa [List.length_zipWith, h1, h2] using hi1
    rw [List.getElem_zipWith, List.getElem_map, List.getElem_range,
      getD_of_lt _ _ (by omega), getD_of_lt _ _ (by omega)]

theorem xorSum_nil : xorSum [] = 0 := rfl

theorem xorSum_cons (a : GF) (l : List GF) : xorSum (a :: l) = a + xorSum l := rfl

theorem xorSum_foldr_init (l : List GF) (x : GF) :
    l.foldr (· + ·) x = xorSum l + x := by
  induction l with
  | nil => simp [xorSum]
  | cons a l ih => simp only [List.foldr_cons, ih, xorSum_cons, add_assoc]

theorem xorSum_append (l1 l2 : List GF) :
    xorSum (l1 ++ l2) = xorSum l1 + xorSum l2 := by
  simp only [xorSum, List.foldr_append]
  rw [xorSum_foldr_init]
  rfl

theorem xorSum_range (f : Nat → GF) :
    ∀ n : Nat, xorSum ((List.range n).map f) = ∑ i ∈ Finset.range n, f i := by
  intro n
  induction n with
  | zero => simp [xorSum_nil]
  | succ n ih =>
    rw [List.range_succ, List.map_append, xorSum_append, ih,
      Finset.sum_range_succ]
    simp [xorSum_cons, xorSum_nil]

theorem xorSum_univ (n : Nat) (f : Nat → GF) :
    xorSum ((List.range n).map f) = ∑ i : Fin n, f i.1 := by
  rw [xorSum_range, Fin.sum_univ_eq_sum_range]

/-! ### Well-formedness and entry lemmas -/

theorem WF.rows {m : gmatrix} {r c : Nat} (h : WF m r c) : m.length = r := h.1

theorem WF.row_len {m : gmatrix} {r c : Nat} (h : WF m r c) {i : Nat} (hi : i < r) :
    (m.getD i []).length = c := by
  have hlt : i < m.length := by rw [h.1]; exact hi
  rw [getD_of_lt _ _ hlt]
  exact h.2 _ (List.getElem_mem hlt)

theorem WF_identityMatrix (n : Nat) : WF (identityMatrix n) n n := by
  constructor
  · simp [identityMatrix]
  · intro row hrow
    simp only [identityMatrix, List.mem_map] at hrow
    obtain ⟨i, _, rfl⟩ := hrow
    simp

theorem mget_of_map_range {α : Type} (l : List α) (n : Nat) (g : α → Nat → GF)
    {i j : Nat} (hi : i < l.length) (hj : j < n) :
    mget (l.map fun x => (List.range n).map (g x)) i j = g l[i] j := by
  rw [mget, getD_of_lt (l.map fun x => (List.range n).map (g x)) [] (by simpa using hi),
    List.getElem_map, getD_of_lt _ _ (by simpa using hj),
    List.getElem_map, List.getElem_range]

theorem mget_of_range_map (r n : Nat) (g : Nat → Nat → GF) {i j : Nat}
    (hi : i < r) (hj : j < n) :
    mget ((List.range r).map fun x => (List.range n).map (g x)) i j = g i j := by
  rw [mget_of_map_range _ _ _ (by simpa using hi) hj, List.getElem_range]

theorem mget_identityMatrix {n i j : Nat} (hi : i < n) (hj : j < n) :
    mget (identityMatrix n) i j = if i = j then 1 else 0 := by
  rw [identityMatrix]
  exact mget_of_range_map n n (fun i j => if i = j then 1 else 0) hi hj

theorem toMat_identityMatrix (n : Nat) : toMat (identityMatrix n) n n = 1 := by
  apply Matrix.ext
  intro i j
  rw [toMat, Matrix.of_apply, mget_identityMatrix i.2 j.2, Matrix.one_apply]
  simp [Fin.ext_iff]

theorem toMat_apply (m : gmatrix) (r c : Nat) (i : Fin r) (j : Fin c) :
    toMat m r c i j = mget m i.1 j.1 := rfl

/-! ### Multiply and vandermonde -/

theorem Multiply_ok {a b : gmatrix} {r k c : Nat} (hk : 0 < k)
    (ha : WF a r k) (hb : WF b k c) :
    ∃ m, Multiply a b = .ok m ∧ WF m r c ∧
      toMat m r c = toMat a r k * toMat b k c := by
  have hall : a.all (fun row => row.length = b.length) = true := by
    rw [List.all_eq_true]
    intro row hrow
    simp [ha.2 row hrow, hb.1]
  have hhead : (b.headD []).length = c := by
    rcases b with _ | ⟨row, rest⟩
    · exact absurd hb.1 (by simp; omega)
    · exact hb.2 row (by simp)
  refine ⟨_, by rw [Multiply, if_pos (by simpa using hall)], ⟨?_, ?_⟩, ?_⟩
  · simp [ha.1]
  · intro row hrow
    simp only [List.mem_map] at hrow
    obtain ⟨row0, _, rfl⟩ := hrow
    simp only [List.length_map, List.length_range]
    exact hhead
  · apply Matrix.ext
    intro i j
    rw [toMat_apply, Matrix.mul_apply]
    have hia : i.1 < a.length := by rw [ha.1]; exact i.2
    rw [mget_of_map_range a _ (fun row c => dotCol row b c) hia
      (by rw [hhead]; exact j.2)]
    rw [dotCol, zipWith_eq_map_range _ 0 [] (k := k)
      (ha.2 _ (List.getElem_mem hia)) hb.1]
    rw [xorSum_univ]
    refine Finset.sum_congr rfl fun t _ => ?_
    rw [toMat_apply, toMat_apply, mget, mget, getD_of_lt a [] hia]

theorem vandermonde_ok {r c : Nat} (hr : 0 < r) (hc : 0 < c) :
    ∃ m, vandermonde r c = .ok m ∧ WF m r c ∧
      toMat m r c = Matrix.of fun i j => galExp (gf i.1) j.1 := by
  refine ⟨_, by rw [vandermonde, if_neg (by omega)], ⟨by simp, ?_⟩, ?_⟩
  · intro row hrow
    simp only [List.mem_map] at hrow
    obtain ⟨i, _, rfl⟩ := hrow
    simp
  · apply Matrix.ext
    intro i j
    rw [toMat_apply, Matrix.of_apply]
    exact mget_of_range_map r c (fun i j => galExp (gf i) j) i.2 j.2

/-! ### Row operations, entrywise -/

theorem mget_set (m : gmatrix) (i : Nat) (row : List GF) {r : Nat} (k : Nat)
    (hr : r < m.length) :
    mget (m.set i row) r k = if i = r then row.getD k 0 else mget m r k := by
  rw [mget, getD_of_lt (m.set i row) [] (by simpa using hr), List.getElem_set]
  split
  · rfl
  · rw [mget, getD_of_lt m [] hr]

theorem getD_map_mul (v : GF) (l : List GF) (k : Nat) :
    (l.map fun x => v * x).getD k 0 = v * l.getD k 0 := by
  by_cases h : k < l.length
  · rw [getD_of_lt _ _ (by simpa using h), getD_of_lt _ _ h, List.getElem_map]
  · rw [getD_of_ge _ _ (by simpa using not_lt.mp h), getD_of_ge _ _ (not_lt.mp h),
      mul_zero]

theorem getD_zipWith_addmul (f : GF) (l1 l2 : List GF) (k : Nat)
    (hlen : l1.length = l2.length) :
    (List.zipWith (fun x y => x + f * y) l1 l2).getD k 0 =
      l1.getD k 0 + f * l2.getD k 0 := by
  by_cases h : k < l1.length
  · rw [getD_of_lt _ _ (by simp [List.length_zipWith, hlen]; omega),
      getD_of_lt _ _ h, getD_of_lt _ _ (by omega), List.getElem_zipWith]
  · rw [getD_of_ge _ _ (by simp [List.length_zipWith]; omega),
      getD_of_ge _ _ (not_lt.mp h), getD_of_ge _ _ (by omega), mul_zero, add_zero]

theorem mget_swapRows (m : gmatrix) (i j : Nat) {r : Nat} (k : Nat)
    (hr : r < m.length) :
    mget (swapRows m i j) r k =
      mget m (if r = j then i else if r = i then j else r) k := by
  rw [swapRows]
  rw [mget_set _ _ _ k (by simpa using hr)]
  by_cases h1 : r = j
  · rw [if_pos h1.symm, if_pos h1]
    rfl
  · rw [if_neg (fun h => h1 h.symm), if_neg h1,
      mget_set _ _ _ k hr]
    by_cases h2 : r = i
    · rw [if_pos h2.symm, if_pos h2]
      rfl
    · rw [if_neg (fun h => h2 h.symm), if_neg h2]

theorem mget_scaleRow (m : gmatrix) (i : Nat) (v : GF) {r : Nat} (k : Nat)
    (hr : r < m.length) :
    mget (scaleRow m i v) r k = if r = i then v * mget m r k else mget m r k := by
  rw [scaleRow, mget_set _ _ _ k hr]
  by_cases h : r = i
  · rw [if_pos h.symm, if_pos h, getD_map_mul, h]
    rfl
  · rw [if_neg (fun hh => h hh.symm), if_neg h]

theorem mget_addMulRow (m : gmatrix) (dst src : Nat) (f : GF) {r : Nat} (k : Nat)
    (hr : r < m.length)
    (hlen : (m.getD dst []).length = (m.getD src []).length) :
    mget (addMulRow m dst src f) r k =
      if r = dst then mget m dst k + f * mget m src k else mget m r k := by
  rw [addMulRow, mget_set _ _ _ k hr]
  by_cases h : r = dst
  · rw [if_pos h.symm, if_pos h, getD_zipWith_addmul _ _ _ _ hlen]
    rfl
  · rw [if_neg (fun hh => h hh.symm), if_neg h]

/-! ### Row operations preserve well-formedness -/

theorem WF_set {m : gmatrix} {n c : Nat} (h : WF m n c) (i : Nat) {row : List GF}
    (hrow : row.length = c) : WF (m.set i row) n c := by
  refine ⟨by simpa using h.1, ?_⟩
  intro r hrmem
  rcases List.mem_or_eq_of_mem_set hrmem with hmem | rfl
  · exact h.2 r hmem
  · exact hrow

theorem getD_row_len {m : gmatrix} {n c : Nat} (h : WF m n c) (i : Nat) :
    (m.getD i []).length = c ∨ (m.getD i []) = [] := by
  by_cases hi : i < n
  · exact Or.inl (h.row_len hi)
  · right
    rw [getD_of_ge]
    rw [h.1]
    omega

theorem WF_swapRows {m : gmatrix} {n c : Nat} (h : WF m n c) {i j : Nat}
    (hi : i < n) (hj : j < n) : WF (swapRows m i j) n c := by
  rw [swapRows]
  exact WF_set (WF_set h i (h.row_len hj)) j (h.row_len hi)

theorem WF_scaleRow {m : gmatrix} {n c : Nat} (h : WF m n c) {i : Nat}
    (hi : i < n) (v : GF) : WF (scaleRow m i v) n c := by
  rw [scaleRow]
  exact WF_set h i (by rw [List.length_map]; exact h.row_len hi)

theorem WF_addMulRow {m : gmatrix} {n c : Nat} (h : WF m n c) {dst src : Nat}
    (hdst : dst < n) (hsrc : src < n) (f : GF) : WF (addMulRow m dst src f) n c := by
  rw [addMulRow]
  refine WF_set h dst ?_
  rw [List.length_zipWith, h.row_len hdst, h.row_len hsrc]
  exact min_self c

/-! ### Row operations as elementary-matrix products -/

/-- The n-column block of a working matrix starting at column off. -/
def subCols (w : gmatrix) (n off : Nat) : Matrix (Fin n) (Fin n) GF :=
  Matrix.of fun i j => mget w i.1 (off + j.1)

theorem subCols_apply (w : gmatrix) (n off : Nat) (i j : Fin n) :
    subCols w n off i j = mget w i.1 (off + j.1) := rfl

theorem subCols_swapRows {w : gmatrix} {n c2 : Nat} (hW : WF w n c2) {i j : Nat}
    (hi : i < n) (hj : j < n) (off : Nat) :
    subCols (swapRows w i j) n off =
      (Equiv.swap (⟨i, hi⟩ : Fin n) ⟨j, hj⟩).toPEquiv.toMatrix * subCols w n off := by
  rw [PEquiv.toPEquiv_mul_matrix]
  apply Matrix.ext
  intro r k
  rw [Matrix.submatrix_apply, id_eq, subCols_apply, subCols_apply,
    mget_swapRows w i j _ (by rw [hW.1]; exact r.2)]
  congr 1
  rw [Equiv.swap_apply_def]
  by_cases hrj : r.1 = j
  · rw [if_pos hrj]
    by_cases hri : r.1 = i
    · rw [if_pos (Fin.ext hri : r = ⟨i, hi⟩)]
      simp only [Fin.val]
      omega
    · rw [if_neg (fun hh : r = ⟨i, hi⟩ => hri (congrArg Fin.val hh)),
        if_pos (Fin.ext hrj : r = ⟨j, hj⟩)]
  · rw [if_neg hrj]
    by_cases hri : r.1 = i
    · rw [if_pos hri, if_pos (Fin.ext hri : r = ⟨i, hi⟩)]
    · rw [if_neg hri, if_neg (fun hh : r = ⟨i, hi⟩ => hri (congrArg Fin.val hh)),
        if_neg (fun hh : r = ⟨j, hj⟩ => hrj (congrArg Fin.val hh))]

theorem subCols_scaleRow {w : gmatrix} {n c2 : Nat} (hW : WF w n c2) {i : Nat}
    (hi : i < n) (v : GF) (off : Nat) :
    subCols (scaleRow w i v) n off =
      Matrix.diagonal (fun r : Fin n => if r = ⟨i, hi⟩ then v else 1) *
        subCols w n off := by
  apply Matrix.ext
  intro r k
  rw [Matrix.diagonal_mul, subCols_apply, subCols_apply,
    mget_scaleRow w i v _ (by rw [hW.1]; exact r.2)]
  by_cases h : r = (⟨i, hi⟩ : Fin n)
  · have : r.1 = i := by rw [h]
    simp [h, this]
  · have : r.1 ≠ i := fun hh => h (Fin.ext hh)
    simp [h, this]

theorem subCols_addMulRow {w : gmatrix} {n c2 : Nat} (hW : WF w n c2)
    {dst src : Nat} (hdst : dst < n) (hsrc : src < n) (hne : dst ≠ src)
    (f : GF) (off : Nat) :
    subCols (addMulRow w dst src f) n off =
      Matrix.transvection (⟨dst, hdst⟩ : Fin n) ⟨src, hsrc⟩ f * subCols w n off := by
  apply Matrix.ext
  intro r k
  rw [subCols_apply,
    mget_addMulRow w dst src f _ (by rw [hW.1]; exact r.2)
      (by rw [hW.row_len hdst, hW.row_len hsrc])]
  by_cases h : r = (⟨dst, hdst⟩ : Fin n)
  · have hv : r.1 = dst := by rw [h]
    rw [if_pos hv, h, Matrix.transvection_mul_apply_same, subCols_apply, subCols_apply]
  · have hv : r.1 ≠ dst := fun hh => h (Fin.ext hh)
    rw [if_neg hv, Matrix.transvection_mul_apply_of_ne _ _ _ _ h, subCols_apply]

theorem isUnit_swapPerm {n : Nat} (fi fj : Fin n) :
    IsUnit ((Equiv.swap fi fj).toPEquiv.toMatrix : Matrix (Fin n) (Fin n) GF) := by
  have h : (Equiv.swap fi fj).toPEquiv.toMatrix * (Equiv.swap fi fj).toPEquiv.toMatrix
      = (1 : Matrix (Fin n) (Fin n) GF) := by
    rw [PEquiv.toPEquiv_mul_matrix]
    apply Matrix.ext
    intro r k
    rw [Matrix.submatrix_apply, id_eq, PEquiv.equiv_toPEquiv_toMatrix,
      Equiv.swap_apply_self]
  exact ⟨⟨_, _, h, h⟩, rfl⟩

theorem isUnit_scaleDiag {n : Nat} (fi : Fin n) {v : GF} (hv : v ≠ 0) :
    IsUnit (Matrix.diagonal (fun r : Fin n => if r = fi then v else 1)) := by
  rw [Matrix.isUnit_iff_isUnit_det, Matrix.det_diagonal]
  rw [isUnit_iff_ne_zero]
  rw [Finset.prod_ne_zero_iff]
  intro r _
  split
  · exact hv
  · exact one_ne_zero

theorem isUnit_transvectionMat {n : Nat} {fd fs : Fin n} (h : fd ≠ fs) (f : GF) :
    IsUnit (Matrix.transvection fd fs f) := by
  refine (Matrix.isUnit_iff_isUnit_det _).mpr ?_
  rw [Matrix.det_transvection_of_ne _ _ h]
  exact isUnit_one

/-! ### The Gauss-Jordan invariant -/

theorem GF_add_self (x : GF) : x + x = 0 := Subtype.ext (Nat.xor_self x.1)

theorem findPivot_some {w : gmatrix} {n c p : Nat} (hc : c < n)
    (h : findPivot w n c = some p) : c ≤ p ∧ p < n ∧ mget w p c ≠ 0 := by
  rw [findPivot] at h
  split at h
  · obtain rfl : c = p := Option.some_injective _ h
    refine ⟨le_refl _, hc, by assumption⟩
  · have hmem := List.mem_of_find?_eq_some h
    have hp := List.find?_some h
    rw [List.mem_range'] at hmem
    obtain ⟨t, ht, rfl⟩ := hmem
    refine ⟨by omega, by omega, by simpa using hp⟩

theorem findPivot_none {w : gmatrix} {n c : Nat} (h : findPivot w n c = none) :
    ∀ r, c ≤ r → r < n → mget w r c = 0 := by
  rw [findPivot] at h
  split at h
  · exact absurd h (Option.some_ne_none _)
  · intro r hcr hrn
    rcases eq_or_lt_of_le hcr with rfl | hlt
    · rename_i hcc
      simpa using hcc
    · have := List.find?_eq_none.mp h r (by
        rw [List.mem_range']
        exact ⟨r - (c + 1), by omega, by omega⟩)
      simpa using this

/-- The invariant of Gauss-Jordan elimination after processing columns < c:
the right block times the original matrix equals the left block, the right
block is invertible, and the first c columns of the left block are the
identity columns. -/
structure ElimInv (n : Nat) (A : Matrix (Fin n) (Fin n) GF) (c : Nat)
    (w : gmatrix) : Prop where
  wf : WF w n (2 * n)
  eq : subCols w n n * A = subCols w n 0
  unit : IsUnit (subCols w n n)
  idc : ∀ j : Fin n, j.1 < c → ∀ i : Fin n,
    subCols w n 0 i j = if i = j then 1 else 0

/-- One step of the inner clearing fold of elimStep. -/
def clearStep (n c : Nat) (acc : gmatrix) (r : Nat) : gmatrix :=
  if r = c then acc
  else if mget acc r c = 0 then acc
  else addMulRow acc r c (mget acc r c)

theorem elimStep_eq_fold (n : Nat) (w : gmatrix) (c : Nat) {p : Nat}
    (hp : findPivot w n c = some p) :
    elimStep n w c = .ok ((List.range n).foldl (clearStep n c)
      (scaleRow (swapRows w c p) c (mget (swapRows w c p) c c)⁻¹)) := by
  rw [elimStep, hp]
  rfl

theorem clearStep_WF {n c : Nat} {acc : gmatrix} (hW : WF acc n (2 * n))
    (hc : c < n) (r : Nat) (hr : r < n) : WF (clearStep n c acc r) n (2 * n) := by
  rw [clearStep]
  split
  · exact hW
  · split
    · exact hW
    · exact WF_addMulRow hW hr hc _

theorem clearStep_MInv {n c : Nat} {A : Matrix (Fin n) (Fin n) GF} {acc : gmatrix}
    (hW : WF acc n (2 * n)) (hc : c < n) (r : Nat) (hr : r < n)
    (heq : subCols acc n n * A = subCols acc n 0)
    (hunit : IsUnit (subCols acc n n)) :
    subCols (clearStep n c acc r) n n * A = subCols (clearStep n c acc r) n 0 ∧
      IsUnit (subCols (clearStep n c acc r) n n) := by
  rw [clearStep]
  split
  · exact ⟨heq, hunit⟩
  · split
    · exact ⟨heq, hunit⟩
    · rename_i hrc _
      have hfin : (⟨r, hr⟩ : Fin n) ≠ ⟨c, hc⟩ := fun hh => hrc (congrArg Fin.val hh)
      rw [subCols_addMulRow hW hr hc hrc _ n, subCols_addMulRow hW hr hc hrc _ 0]
      constructor
      · rw [mul_assoc, heq]
      · exact (isUnit_transvectionMat hfin _).mul hunit

/-- Entry-wise closed form of the clearing fold: each row r ≠ c in the
processed list receives one update from the (unchanged) pivot row c. -/
theorem clearFold_mget {n c : Nat} (hc : c < n) :
    ∀ (l : List Nat), l.Nodup → (∀ x ∈ l, x < n) →
    ∀ (acc : gmatrix), WF acc n (2 * n) →
    ∀ r, r < n → ∀ k,
      mget (l.foldl (clearStep n c) acc) r k =
        if r ∈ l ∧ r ≠ c then mget acc r k + mget acc r c * mget acc c k
        else mget acc r k := by
  intro l
  induction l with
  | nil =>
    intro _ _ acc _ r hr k
    simp
  | cons x l ih =>
    intro hnd hlt acc hW r hr k
    have hxn : x < n := hlt x (by simp)
    have hxl : x ∉ l := (List.nodup_cons.mp hnd).1
    rw [List.foldl_cons]
    rw [ih (List.nodup_cons.mp hnd).2 (fun y hy => hlt y (by simp [hy])) _
      (clearStep_WF hW hc x hxn) r hr k]
    have hlen : acc.length = n := hW.1
    by_cases hrx : r = x
    · subst hrx
      have hnotl : ¬(r ∈ l ∧ r ≠ c) := fun hh => hxl hh.1
      rw [if_neg hnotl]
      by_cases hrc : r = c
      · rw [if_neg (fun hh : r ∈ r :: l ∧ r ≠ c => hh.2 hrc)]
        rw [clearStep, if_pos hrc]
      · rw [if_pos ⟨by simp, hrc⟩]
        rw [clearStep, if_neg hrc]
        by_cases hz : mget acc r c = 0
        · rw [if_pos hz, hz, zero_mul, add_zero]
        · rw [if_neg hz,
            mget_addMulRow _ _ _ _ _ (by omega) (by
              rw [hW.row_len hr, hW.row_len hc]),
            if_pos rfl]
    · have hstep : ∀ ρ κ, ρ ≠ x → ρ < n →
          mget (clearStep n c acc x) ρ κ = mget acc ρ κ := by
        intro ρ κ hρ hρn
        rw [clearStep]
        split
        · rfl
        · split
          · rfl
          · rw [mget_addMulRow _ _ _ _ _ (by omega) (by
              rw [hW.row_len hxn, hW.row_len hc]), if_neg hρ]
      have hrowc : ∀ κ, mget (clearStep n c acc x) c κ = mget acc c κ := by
        intro κ
        by_cases hcx : x = c
        · rw [clearStep, if_pos hcx]
        · exact hstep c κ (fun hh => hcx hh.symm) hc
      by_cases hmem : r ∈ l ∧ r ≠ c
      · rw [if_pos hmem, if_pos ⟨List.mem_cons.mpr (Or.inr hmem.1), hmem.2⟩,
          hstep r k hrx hr, hstep r c hrx hr, hrowc k]
      · rw [if_neg hmem,
          if_neg (fun hh => hmem ⟨(List.mem_cons.mp hh.1).resolve_left hrx, hh.2⟩),
          hstep r k hrx hr]

theorem clearFold_WF {n c : Nat} (hc : c < n) :
    ∀ (l : List Nat), (∀ x ∈ l, x < n) →
    ∀ (acc : gmatrix), WF acc n (2 * n) →
      WF (l.foldl (clearStep n c) acc) n (2 * n) := by
  intro l
  induction l with
  | nil => intro _ acc hW; exact hW
  | cons x l ih =>
    intro hlt acc hW
    rw [List.foldl_cons]
    exact ih (fun y hy => hlt y (by simp [hy])) _
      (clearStep_WF hW hc x (hlt x (by simp)))

theorem clearFold_MInv {n c : Nat} {A : Matrix (Fin n) (Fin n) GF} (hc : c < n) :
    ∀ (l : List Nat), (∀ x ∈ l, x < n) →
    ∀ (acc : gmatrix), WF acc n (2 * n) →
      subCols acc n n * A = subCols acc n 0 → IsUnit (subCols acc n n) →
      subCols (l.foldl (clearStep n c) acc) n n * A =
        subCols (l.foldl (clearStep n c) acc) n 0 ∧
      IsUnit (subCols (l.foldl (clearStep n c) acc) n n) := by
  intro l
  induction l with
  | nil => intro _ acc _ heq hunit; exact ⟨heq, hunit⟩
  | cons x l ih =>
    intro hlt acc hW heq hunit
    rw [List.foldl_cons]
    have hx : x < n := hlt x (by simp)
    obtain ⟨heq2, hunit2⟩ := clearStep_MInv hW hc x hx heq hunit
    exact ih (fun y hy => hlt y (by simp [hy])) _
      (clearStep_WF hW hc x hx) heq2 hunit2

theorem subCols_zero_apply (w : gmatrix) (n : Nat) (i j : Fin n) :
    subCols w n 0 i j = mget w i.1 j.1 := by
  rw [subCols_apply, Nat.zero_add]

/-- Processing one column succeeds when a pivot exists, and re-establishes the
invariant with one more identity column. -/
theorem elimStep_inv {n : Nat} {A : Matrix (Fin n) (Fin n) GF} {c : Nat}
    {w : gmatrix} (hc : c < n) (hinv : ElimInv n A c w) {p : Nat}
    (hp : findPivot w n c = some p) :
    ∃ w2, elimStep n w c = .ok w2 ∧ ElimInv n A (c + 1) w2 := by
  obtain ⟨hcp, hpn, hpnz⟩ := findPivot_some hc hp
  have hlen : w.length = n := hinv.wf.1
  have hW1 : WF (swapRows w c p) n (2 * n) := WF_swapRows hinv.wf hc hpn
  have hm1cc : mget (swapRows w c p) c c = mget w p c := by
    rw [mget_swapRows w c p c (by omega)]
    by_cases hcc : c = p
    · rw [if_pos hcc, hcc]
    · rw [if_neg hcc, if_pos rfl]
  have hpivnz : mget (swapRows w c p) c c ≠ 0 := by
    rw [hm1cc]
    exact hpnz
  have hW2 : WF (scaleRow (swapRows w c p) c (mget (swapRows w c p) c c)⁻¹)
      n (2 * n) := WF_scaleRow hW1 hc _
  -- entry facts about the swapped matrix
  have hm1 : ∀ i j : Nat, i < n → j < c →
      mget (swapRows w c p) i j = mget w i j := by
    intro i j hi hj
    rw [mget_swapRows w c p j (by omega)]
    have hidc := hinv.idc
    by_cases hip : i = p
    · rw [if_pos hip]
      have h1 := hidc ⟨j, by omega⟩ hj ⟨c, hc⟩
      have h2 := hidc ⟨j, by omega⟩ hj ⟨i, hi⟩
      rw [subCols_zero_apply] at h1 h2
      rw [h1, h2]
      have hne1 : ¬((⟨c, hc⟩ : Fin n) = ⟨j, by omega⟩) := by
        intro hh
        simp at hh
        omega
      rw [if_neg hne1]
      have hne2 : ¬((⟨i, hi⟩ : Fin n) = ⟨j, by omega⟩) := by
        intro hh
        simp at hh
        omega
      rw [if_neg hne2]
    · rw [if_neg hip]
      by_cases hic : i = c
      · rw [if_pos hic]
        have h1 := hidc ⟨j, by omega⟩ hj ⟨p, hpn⟩
        have h2 := hidc ⟨j, by omega⟩ hj ⟨i, hi⟩
        rw [subCols_zero_apply] at h1 h2
        rw [h1, h2]
        have hne1 : ¬((⟨p, hpn⟩ : Fin n) = ⟨j, by omega⟩) := by
          intro hh
          simp at hh
          omega
        have hne2 : ¬((⟨i, hi⟩ : Fin n) = ⟨j, by omega⟩) := by
          intro hh
          simp at hh
          omega
        rw [if_neg hne1, if_neg hne2]
      · rw [if_neg hic]
  refine ⟨_, elimStep_eq_fold n w c hp, ?_⟩
  set m2 := scaleRow (swapRows w c p) c (mget (swapRows w c p) c c)⁻¹ with hm2def
  have hm2 : ∀ i j : Nat, i < n → j < c →
      mget m2 i j = if i = j then 1 else 0 := by
    intro i j hi hj
    rw [hm2def, mget_scaleRow _ _ _ _ (by rw [hW1.1]; exact hi)]
    by_cases hic : i = c
    · rw [if_pos hic, hm1 i j hi hj]
      have h2 := hinv.idc ⟨j, by omega⟩ hj ⟨i, hi⟩
      rw [subCols_zero_apply] at h2
      rw [h2]
      have hne : ¬((⟨i, hi⟩ : Fin n) = ⟨j, by omega⟩) := by
        intro hh
        simp at hh
        omega
      rw [if_neg hne, mul_zero]
      have hne2 : i ≠ j := by omega
      rw [if_neg hne2]
    · rw [if_neg hic, hm1 i j hi hj]
      have h2 := hinv.idc ⟨j, by omega⟩ hj ⟨i, hi⟩
      rw [subCols_zero_apply] at h2
      rw [h2]
      by_cases hij : i = j
      · rw [if_pos (Fin.ext hij : (⟨i, hi⟩ : Fin n) = ⟨j, by omega⟩), if_pos hij]
      · rw [if_neg (fun hh => hij (congrArg Fin.val hh)), if_neg hij]
  have hm2cc : mget m2 c c = 1 := by
    rw [hm2def, mget_scaleRow _ _ _ _ (by rw [hW1.1]; exact hc), if_pos rfl,
      inv_mul_cancel₀ hpivnz]
  have hm2eq : subCols m2 n n * A = subCols m2 n 0 := by
    rw [hm2def, subCols_scaleRow hW1 hc _ n, subCols_swapRows hinv.wf hc hpn n,
      subCols_scaleRow hW1 hc _ 0, subCols_swapRows hinv.wf hc hpn 0,
      mul_assoc, mul_assoc, hinv.eq]
  have hm2unit : IsUnit (subCols m2 n n) := by
    rw [hm2def, subCols_scaleRow hW1 hc _ n, subCols_swapRows hinv.wf hc hpn n]
    exact (isUnit_scaleDiag ⟨c, hc⟩ (inv_ne_zero hpivnz)).mul
      ((isUnit_swapPerm _ _).mul hinv.unit)
  have hfoldW : WF ((List.range n).foldl (clearStep n c) m2) n (2 * n) :=
    clearFold_WF hc _ (fun x hx => List.mem_range.mp hx) _ hW2
  obtain ⟨hfeq, hfunit⟩ := clearFold_MInv hc (List.range n)
    (fun x hx => List.mem_range.mp hx) m2 hW2 hm2eq hm2unit
  have hentry := clearFold_mget hc (List.range n) (List.nodup_range n)
    (fun x hx => List.mem_range.mp hx) m2 hW2
  refine ⟨hfoldW, hfeq, hfunit, ?_⟩
  intro j hj i
  rw [subCols_zero_apply, hentry i.1 i.2 j.1]
  by_cases hicc : i.1 = c
  · rw [if_neg (fun hh => hh.2 hicc)]
    rcases Nat.lt_succ_iff_lt_or_eq.mp hj with hjc | hjc
    · rw [hm2 i.1 j.1 i.2 hjc]
      have hne : i.1 ≠ j.1 := by omega
      rw [if_neg hne, if_neg (fun hh => hne (congrArg Fin.val hh))]
    · have h1 : i.1 = j.1 := by omega
      rw [hicc, hjc, hm2cc, if_pos (Fin.ext h1)]
  · rw [if_pos ⟨List.mem_range.mpr i.2, hicc⟩]
    rcases Nat.lt_succ_iff_lt_or_eq.mp hj with hjc | hjc
    · rw [hm2 i.1 j.1 i.2 hjc, hm2 c j.1 hc hjc,
        if_neg (show c ≠ j.1 by omega), mul_zero, add_zero]
      by_cases hij : i.1 = j.1
      · rw [if_pos hij, if_pos (Fin.ext hij : i = j)]
      · rw [if_neg hij, if_neg (fun hh => hij (congrArg Fin.val hh))]
    · rw [hjc, hm2cc, mul_one, GF_add_self,
        if_neg (fun hh : i = j => hicc (hjc ▸ congrArg Fin.val hh))]

/-- If no pivot exists in column c the left block is singular, contradicting
invertibility of the original matrix. -/
theorem elimStep_progress {n : Nat} {A : Matrix (Fin n) (Fin n) GF} {c : Nat}
    {w : gmatrix} (hc : c < n) (hinv : ElimInv n A c w) (hA : IsUnit A) :
    ∃ p, findPivot w n c = some p := by
  cases hfp : findPivot w n c with
  | some p => exact ⟨p, rfl⟩
  | none =>
    exfalso
    have hzero := findPivot_none hfp
    have hLunit : IsUnit (subCols w n 0) := by
      rw [← hinv.eq]
      exact hinv.unit.mul hA
    set v : Fin n → GF := fun t =>
      if t.1 = c then 1 else if t.1 < c then subCols w n 0 t ⟨c, hc⟩ else 0 with hv
    have hvc : v ⟨c, hc⟩ = 1 := by simp [hv]
    have hvne : v ≠ 0 := by
      intro hh
      have := congrFun hh ⟨c, hc⟩
      rw [hvc] at this
      exact one_ne_zero this
    have hmul : (subCols w n 0).mulVec v = 0 := by
      funext i
      rw [Pi.zero_apply]
      simp only [Matrix.mulVec, Matrix.dotProduct]
      have hsplit : ∀ t : Fin n, subCols w n 0 i t * v t =
          (if t = ⟨c, hc⟩ then subCols w n 0 i ⟨c, hc⟩ else 0) +
            (if t.1 < c then (if i = t then 1 else 0) * subCols w n 0 t ⟨c, hc⟩
              else 0) := by
        intro t
        by_cases htc : t = ⟨c, hc⟩
        · subst htc
          rw [hvc, mul_one, if_pos rfl, if_neg (by simp), add_zero]
        · have ht1 : t.1 ≠ c := fun hh => htc (Fin.ext hh)
          rw [if_neg htc, zero_add, hv]
          simp only [if_neg ht1]
          by_cases htlt : t.1 < c
          · rw [if_pos htlt, if_pos htlt, hinv.idc t htlt i]
          · rw [if_neg htlt, if_neg htlt, mul_zero]
      rw [Finset.sum_congr rfl (fun t _ => hsplit t), Finset.sum_add_distrib]
      rw [Finset.sum_ite_eq' Finset.univ (⟨c, hc⟩ : Fin n)
        (fun _ => subCols w n 0 i ⟨c, hc⟩), if_pos (Finset.mem_univ _)]
      have hs2 : (∑ t : Fin n, if t.1 < c then
          (if i = t then 1 else 0) * subCols w n 0 t ⟨c, hc⟩ else 0) =
          if i.1 < c then subCols w n 0 i ⟨c, hc⟩ else 0 := by
        rw [Finset.sum_eq_single i]
        · by_cases hic : i.1 < c
          · rw [if_pos hic, if_pos hic, if_pos rfl, one_mul]
          · rw [if_neg hic, if_neg hic]
        · intro b _ hb
          split
          · rw [if_neg (fun hh => hb hh.symm), zero_mul]
          · rfl
        · intro hcontr
          exact absurd (Finset.mem_univ i) hcontr
      rw [hs2]
      by_cases hic : i.1 < c
      · rw [if_pos hic, GF_add_self]
      · rw [if_neg hic, add_zero, subCols_zero_apply]
        exact hzero i.1 (by omega) i.2
    have hdet : (subCols w n 0).det = 0 :=
      (Matrix.exists_mulVec_eq_zero_iff).mp ⟨v, hvne, hmul⟩
    rw [Matrix.isUnit_iff_isUnit_det, hdet] at hLunit
    exact (not_isUnit_zero : ¬IsUnit (0 : GF)) hLunit

theorem elimStep_ok_inv {n : Nat} {A : Matrix (Fin n) (Fin n) GF} {c : Nat}
    {w w1 : gmatrix} (hc : c < n) (hinv : ElimInv n A c w)
    (hok : elimStep n w c = .ok w1) : ElimInv n A (c + 1) w1 := by
  cases hfp : findPivot w n c with
  | none =>
    rw [elimStep, hfp] at hok
    exact absurd hok (by simp)
  | some p =>
    obtain ⟨w2, heq, hinv2⟩ := elimStep_inv hc hinv hfp
    rw [heq] at hok
    obtain rfl : w2 = w1 := by
      simpa using hok
    exact hinv2

theorem gaussJordan_aux {n : Nat} {A : Matrix (Fin n) (Fin n) GF} :
    ∀ (d k : Nat) (w : gmatrix), k + d = n → ElimInv n A k w →
      (∀ w2, (List.range' k d).foldlM (elimStep n) w = .ok w2 →
        ElimInv n A n w2) ∧
      (IsUnit A → ∃ w2, (List.range' k d).foldlM (elimStep n) w = .ok w2) := by
  intro d
  induction d with
  | zero =>
    intro k w hk hinv
    obtain rfl : k = n := by omega
    constructor
    · intro w2 h
      obtain rfl : w = w2 := by simpa [pure, Except.pure] using h
      exact hinv
    · intro _
      exact ⟨w, rfl⟩
  | succ d ih =>
    intro k w hk hinv
    have hkn : k < n := by omega
    rw [List.range'_succ]
    constructor
    · intro w2 h
      rw [List.foldlM_cons] at h
      cases helim : elimStep n w k with
      | error e =>
        rw [helim] at h
        exact absurd (h : (Except.error e : Except Err gmatrix) = Except.ok w2)
          (fun hh => Except.noConfusion hh)
      | ok w1 =>
        rw [helim] at h
        have hbind : (Except.ok w1 >>= fun b =>
            (List.range' (k + 1) d).foldlM (elimStep n) b) =
            (List.range' (k + 1) d).foldlM (elimStep n) w1 := rfl
        rw [hbind] at h
        exact (ih (k + 1) w1 (by omega) (elimStep_ok_inv hkn hinv helim)).1 w2 h
    · intro hA
      obtain ⟨p, hp⟩ := elimStep_progress hkn hinv hA
      obtain ⟨w1, heq, hinv1⟩ := elimStep_inv hkn hinv hp
      obtain ⟨w2, h2⟩ := (ih (k + 1) w1 (by omega) hinv1).2 hA
      refine ⟨w2, ?_⟩
      rw [List.foldlM_cons, heq]
      exact h2

/-! ### Augment, SubMatrix extraction, and the Invert specification -/

theorem getD_append (l1 l2 : List GF) (k : Nat) :
    (l1 ++ l2).getD k 0 =
      if k < l1.length then l1.getD k 0 else l2.getD (k - l1.length) 0 := by
  by_cases h1 : k < l1.length
  · rw [if_pos h1, getD_of_lt _ _ (by simp; omega), getD_of_lt _ _ h1,
      List.getElem_append_left h1]
  · rw [if_neg h1]
    by_cases h2 : k < l1.length + l2.length
    · rw [getD_of_lt _ _ (by simp; omega), getD_of_lt _ _ (by omega),
        List.getElem_append_right (by omega)]
    · rw [getD_of_ge _ _ (by simp; omega), getD_of_ge _ _ (by omega)]

theorem WF_Augment {a b : gmatrix} {n c1 c2 : Nat} (ha : WF a n c1)
    (hb : WF b n c2) : WF (Augment a b) n (c1 + c2) := by
  constructor
  · rw [Augment, List.length_zipWith, ha.1, hb.1, min_self]
  · intro row hrow
    simp only [Augment] at hrow
    obtain ⟨i, hi, rfl⟩ := List.mem_iff_getElem.mp hrow
    rw [List.getElem_zipWith]
    have hia : i < a.length := by
      rw [List.length_zipWith] at hi
      omega
    have hib : i < b.length := by
      rw [List.length_zipWith] at hi
      omega
    rw [List.length_append, ha.2 _ (List.getElem_mem hia),
      hb.2 _ (List.getElem_mem hib)]

theorem rowD_Augment {a b : gmatrix} {n c1 c2 : Nat} (ha : WF a n c1)
    (hb : WF b n c2) {i : Nat} (hi : i < n) :
    (Augment a b).getD i [] = a.getD i [] ++ b.getD i [] := by
  have hlen : i < (Augment a b).length := by
    simp only [Augment, List.length_zipWith, ha.1, hb.1, min_self]
    exact hi
  rw [getD_of_lt _ _ hlen]
  simp only [Augment, List.getElem_zipWith]
  rw [getD_of_lt _ _ (by rw [ha.1]; exact hi), getD_of_lt _ _ (by rw [hb.1]; exact hi)]

theorem mget_Augment {a b : gmatrix} {n c1 c2 : Nat} (ha : WF a n c1)
    (hb : WF b n c2) {i : Nat} (hi : i < n) (k : Nat) :
    mget (Augment a b) i k =
      if k < c1 then mget a i k else mget b i (k - c1) := by
  rw [mget, rowD_Augment ha hb hi, getD_append, ha.row_len hi]
  split
  · rfl
  · rfl

theorem WF_SubMatrix_right {red : gmatrix} {n : Nat} (h : WF red n (2 * n)) :
    WF (SubMatrix red 0 n n (2 * n)) n n := by
  constructor
  · rw [SubMatrix]
    simp [h.1]
  · intro row hrow
    rw [SubMatrix] at hrow
    simp only [List.drop_zero, List.mem_map] at hrow
    obtain ⟨row0, hmem, rfl⟩ := hrow
    have h0 : row0 ∈ red := List.mem_of_mem_take hmem
    have hlen : row0.length = 2 * n := h.2 row0 h0
    rw [List.length_take, List.length_drop, hlen]
    omega

theorem mget_SubMatrix_right {red : gmatrix} {n : Nat} (h : WF red n (2 * n))
    {i j : Nat} (hi : i < n) (hj : j < n) :
    mget (SubMatrix red 0 n n (2 * n)) i j = mget red i (n + j) := by
  have hired : i < red.length := by rw [h.1]; exact hi
  have hrow : (red[i]).length = 2 * n := h.2 _ (List.getElem_mem hired)
  rw [SubMatrix]
  simp only [Nat.sub_zero, List.drop_zero]
  have hrowD : (List.map (fun row => List.take (2 * n - n) (List.drop n row))
      (red.take n)).getD i [] = List.take (2 * n - n) (List.drop n red[i]) := by
    rw [getD_of_lt _ _ (by
        rw [List.length_map, List.length_take, h.1]
        omega),
      List.getElem_map, List.getElem_take]
  rw [mget, hrowD, getD_of_lt _ _ (by
      rw [List.length_take, List.length_drop, hrow]
      omega),
    List.getElem_take, List.getElem_drop]
  rw [mget, getD_of_lt red [] hired, getD_of_lt _ _ (by rw [hrow]; omega)]

theorem toMat_eq_subCols_zero (m : gmatrix) (n : Nat) :
    toMat m n n = subCols m n 0 := by
  apply Matrix.ext
  intro i j
  rw [toMat_apply, subCols_zero_apply]

theorem initial_ElimInv {m : gmatrix} {n : Nat} (hWF : WF m n n) :
    ElimInv n (toMat m n n) 0 (Augment m (identityMatrix n)) := by
  have hWFaug : WF (Augment m (identityMatrix n)) n (2 * n) := by
    rw [two_mul]
    exact WF_Augment hWF (WF_identityMatrix n)
  have hL : subCols (Augment m (identityMatrix n)) n 0 = toMat m n n := by
    apply Matrix.ext
    intro i j
    rw [subCols_zero_apply, mget_Augment hWF (WF_identityMatrix n) i.2,
      if_pos j.2, toMat_apply]
  have hR : subCols (Augment m (identityMatrix n)) n n = 1 := by
    apply Matrix.ext
    intro i j
    rw [subCols_apply, mget_Augment hWF (WF_identityMatrix n) i.2,
      if_neg (by omega), Nat.add_sub_cancel_left,
      mget_identityMatrix i.2 j.2, Matrix.one_apply]
    by_cases hij : i.1 = j.1
    · rw [if_pos hij, if_pos (Fin.ext hij)]
    · rw [if_neg hij, if_neg (fun hh => hij (congrArg Fin.val hh))]
  refine ⟨hWFaug, ?_, ?_, ?_⟩
  · rw [hR, hL, one_mul]
  · rw [hR]
    exact isUnit_one
  · intro j hj
    omega

theorem gaussJordan_spec {n : Nat} {A : Matrix (Fin n) (Fin n) GF} {w : gmatrix}
    (hinv : ElimInv n A 0 w) :
    (∀ w2, gaussJordan n w = .ok w2 → ElimInv n A n w2) ∧
      (IsUnit A → ∃ w2, gaussJordan n w = .ok w2) := by
  have h := gaussJordan_aux (A := A) n 0 w (Nat.zero_add n) hinv
  rw [gaussJordan, List.range_eq_range']
  exact h

/-- Soundness of the modelled Invert: a returned matrix is a left inverse. -/
theorem Invert_sound {m : gmatrix} {n : Nat} (hn : 0 < n) (hWF : WF m n n)
    {B : gmatrix} (hB : Invert m = .ok B) :
    WF B n n ∧ toMat B n n * toMat m n n = 1 := by
  have hall : (m.all fun row => row.length = m.length) = true := by
    rw [List.all_eq_true]
    intro row hr
    simp [hWF.2 row hr, hWF.1]
  rw [Invert] at hB
  simp only [hWF.1] at hB
  rw [if_neg (by
    rw [hWF.1] at hall
    simp [hall]
    omega)] at hB
  cases hgj : gaussJordan n (Augment m (identityMatrix n)) with
  | error e =>
    rw [hgj] at hB
    exact absurd (hB : (Except.error e : Except Err gmatrix) = Except.ok B)
      (fun hh => Except.noConfusion hh)
  | ok red =>
    rw [hgj] at hB
    obtain rfl : SubMatrix red 0 n n (2 * n) = B := by
      have hB2 : (Except.ok (SubMatrix red 0 n n (2 * n)) : Except Err gmatrix) =
          Except.ok B := hB
      simpa using hB2
    have hfinal := (gaussJordan_spec (initial_ElimInv hWF)).1 red hgj
    have hL1 : subCols red n 0 = 1 := by
      apply Matrix.ext
      intro i j
      rw [hfinal.idc j j.2 i, Matrix.one_apply]
    have hBmat : toMat (SubMatrix red 0 n n (2 * n)) n n = subCols red n n := by
      apply Matrix.ext
      intro i j
      rw [toMat_apply, mget_SubMatrix_right hfinal.wf i.2 j.2, subCols_apply]
    refine ⟨WF_SubMatrix_right hfinal.wf, ?_⟩
    rw [hBmat, hfinal.eq, hL1]

/-- Completeness of the modelled Invert: it succeeds on invertible input. -/
theorem Invert_complete {m : gmatrix} {n : Nat} (hn : 0 < n) (hWF : WF m n n)
    (hA : IsUnit (toMat m n n)) : ∃ B, Invert m = .ok B := by
  obtain ⟨red, hred⟩ := (gaussJordan_spec (initial_ElimInv hWF)).2 hA
  refine ⟨SubMatrix red 0 n n (2 * n), ?_⟩
  have hall : (m.all fun row => row.length = m.length) = true := by
    rw [List.all_eq_true]
    intro row hr
    simp [hWF.2 row hr, hWF.1]
  rw [Invert]
  simp only [hWF.1]
  rw [if_neg (by
    rw [hWF.1] at hall
    simp [hall]
    omega)]
  rw [hred]
  rfl

/-! ## Matrix construction (reedsolomon.go) -/

/-- buildMatrix (reedsolomon.go): a Vandermonde matrix times the inverse of
its own top square, so the top square becomes the identity while every
square subset of rows stays invertible. -/
def buildMatrix (dataShards totalShards : Nat) : Except Err gmatrix := do
  let vm ← vandermonde totalShards dataShards
  let topInv ← Invert (SubMatrix vm 0 0 dataShards dataShards)
  Multiply vm topInv

/-- buildMatrixPAR1 (reedsolomon.go): identity on the top `dataShards` rows;
below, `result[r][c] = galExp(byte(c+1), r-dataShards)` with `r` the full row
index.  The in-place loop over the zero matrix from `newMatrix` is written
as a direct row-major construction of the same entries. -/
def buildMatrixPAR1 (dataShards totalShards : Nat) : Except Err gmatrix := do
  let _ ← newMatrix totalShards dataShards
  Except.ok ((List.range totalShards).map fun r =>
    (List.range dataShards).map fun c =>
      if r < dataShards then (if r = c then 1 else 0)
      else galExp (gf (c + 1)) (r - dataShards))

/-- buildMatrixCauchy (reedsolomon.go): identity on the top `dataShards`
rows; below, `result[r][c] = invTable[byte(r ^ c)]` with `r` the FULL row
index (not the row index within the parity block).  `invTable` is the
GF(2^8) inverse table of `galois.go`, modelled by `ginv`; `byte(·)` is the
Go truncation to 8 bits. -/
def buildMatrixCauchy (dataShards totalShards : Nat) : Except Err gmatrix := do
  let _ ← newMatrix totalShards dataShards
  Except.ok ((List.range totalShards).map fun r =>
    (List.range dataShards).map fun c =>
      if r < dataShards then (if r = c then 1 else 0)
      else gf (ginv ((r ^^^ c) % 256)))

/-! ## The inversion tree

Modelled from the spec: `inversion_tree.go` is not under `src/`.  The trie
keyed by sorted invalid-index lists is modelled as an association list; the
root (empty invalid set) holds the identity matrix.  Insertion validates the
indices and rejects sets larger than the parity count. -/

/-- Modelled from the spec: the cached-inversion trie, as an association
list from invalid-index lists to decode matrices. -/
structure inversionTree where
  dataShards : Nat
  parityShards : Nat
  cache : List (List Nat × gmatrix)
  deriving DecidableEq, Repr

/-- Modelled from the spec: a fresh tree whose root conceptually stores the
identity matrix for the empty invalid set. -/
def newInversionTree (dataShards parityShards : Nat) : inversionTree :=
  ⟨dataShards, parityShards, []⟩

/-- Modelled from the spec: lookup; the empty invalid set yields the
identity, any other set yields the cached inverse or a miss. -/
def getInvertedMatrix (t : inversionTree) (invalidIndices : List Nat) :
    Option gmatrix :=
  if invalidIndices.isEmpty then some (identityMatrix t.dataShards)
  else (t.cache.find? fun e => decide (e.1 = invalidIndices)).map Prod.snd

/-- Modelled from the spec: insertion requires a non-empty invalid set with
all indices below the shard count and at most `parityShards` entries. -/
def insertInvertedMatrix (t : inversionTree) (invalidIndices : List Nat)
    (m : gmatrix) (shards : Nat) : Except Err inversionTree :=
  if invalidIndices.isEmpty then .error .invalidInput
  else if ¬ invalidIndices.all (fun i => i < shards) then .error .invalidInput
  else if t.parityShards < invalidIndices.length then .error .treeBound
  else .ok ⟨t.dataShards, t.parityShards, (invalidIndices, m) :: t.cache⟩

/-! ## The coder (reedsolomon.go)

A shard is a byte slice, modelled as a list of field elements.  Go's `nil`
and zero-length shards are both modelled as the empty list, matching the
package's convention that a missing shard is "nil or zero-length".  The
parallel kernels (`codeSomeShardsP`, `checkSomeShardsP`) split the byte
range across goroutines but compute bytewise-identical results, so they are
modelled by their sequential counterparts. -/

/-- A shard: one byte slice. -/
abbrev shard := List GF

/-- The ReedSolomon coder: shard counts, coding matrix, inversion tree, and
the parity rows of the matrix. -/
structure RS where
  dataShards : Nat
  parityShards : Nat
  shards : Nat
  m : gmatrix
  tree : inversionTree
  parity : gmatrix
  deriving DecidableEq, Repr

/-- Modelled from the spec: which matrix construction the options select
(`options.go` is not under `src/`); default, Cauchy and PAR1 are mutually
exclusive. -/
inductive MatrixKind where
  | default
  | cauchy
  | par1
  deriving DecidableEq, Repr

/-- The `switch` of New (reedsolomon.go) selecting the matrix builder. -/
def buildSelected (kind : MatrixKind) (dataShards totalShards : Nat) :
    Except Err gmatrix :=
  match kind with
  | .cauchy => buildMatrixCauchy dataShards totalShards
  | .par1 => buildMatrixPAR1 dataShards totalShards
  | .default => buildMatrix dataShards totalShards

/-- New (reedsolomon.go): validates the shard counts, builds the selected
coding matrix, and records its parity rows. -/
def New (dataShards parityShards : Nat) (kind : MatrixKind) : Except Err RS :=
  if dataShards = 0 ∨ parityShards = 0 then .error .invShardNum
  else if 256 < dataShards + parityShards then .error .maxShardNum
  else do
    let m ← buildSelected kind dataShards (dataShards + parityShards)
    Except.ok
      { dataShards := dataShards
        parityShards := parityShards
        shards := dataShards + parityShards
        m := m
        tree := newInversionTree dataShards parityShards
        parity := (List.range parityShards).map fun i => m.getD (dataShards + i) [] }

/-- shardSize (reedsolomon.go): the length of the first non-empty shard, or
0 when all shards are empty. -/
def shardSize (shards : List shard) : Nat :=
  match shards.find? (fun s => decide (s.length ≠ 0)) with
  | some s => s.length
  | none => 0

/-- checkShards (reedsolomon.go): every shard must have the common non-zero
size, except that a zero-length shard is tolerated when `nilok`. -/
def checkShards (shards : List shard) (nilok : Bool) : Except Err Unit :=
  let size := shardSize shards
  if size = 0 then .error .shardNoData
  else if shards.all (fun s => decide (s.length = size) ||
      (decide (s.length = 0) && nilok)) then .ok ()
  else .error .shardSize

/-- Modelled from the spec: galMulSlice of `galois.go`, `out[i] = c·in[i]`
for `i < len(in)`; bytes of `out` beyond `len(in)` are untouched (all call
sites use equal lengths). -/
def galMulSlice (c : GF) (input out : shard) : shard :=
  input.map (fun b => c * b) ++ out.drop input.length

/-- Modelled from the spec: galMulSliceXor of `galois.go`,
`out[i] ^= c·in[i]` for `i < len(in)`. -/
def galMulSliceXor (c : GF) (input out : shard) : shard :=
  List.zipWith (fun b o => o + c * b) input out ++ out.drop input.length

/-- codeSomeShards (reedsolomon.go): for each input column c, multiply
`inputs[c]` by `matrixRows[iRow][c]` into each output row, overwriting at
c = 0 and XOR-accumulating afterwards. -/
def codeSomeShards (dataShards : Nat) (matrixRows inputs outputs : List shard)
    (outputCount : Nat) : List shard :=
  (List.range dataShards).foldl (fun outs c =>
    (List.range outputCount).foldl (fun outs2 iRow =>
      outs2.set iRow (if c = 0
        then galMulSlice (mget matrixRows iRow c) (inputs.getD c []) (outs2.getD iRow [])
        else galMulSliceXor (mget matrixRows iRow c) (inputs.getD c []) (outs2.getD iRow [])))
      outs) outputs

/-- checkSomeShards (reedsolomon.go): recompute the parity into zeroed
scratch buffers (always XOR-accumulating) and compare each with `toCheck`. -/
def checkSomeShards (dataShards : Nat) (matrixRows inputs toCheck : List shard)
    (outputCount byteCount : Nat) : Bool :=
  let outputs0 : List shard :=
    List.replicate toCheck.length (List.replicate byteCount 0)
  let outputs := (List.range dataShards).foldl (fun outs c =>
    (List.range outputCount).foldl (fun outs2 iRow =>
      outs2.set iRow (galMulSliceXor (mget matrixRows iRow c) (inputs.getD c [])
        (outs2.getD iRow []))) outs) outputs0
  (List.range toCheck.length).all fun i =>
    decide (outputs.getD i [] = toCheck.getD i [])

/-- Encode (reedsolomon.go): validates the count and sizes, then overwrites
the parity block with `codeSomeShardsP(r.parity, shards[0:D], shards[D:])`.
The in-place write into `shards[D:]` is returned as an updated list. -/
def Encode (r : RS) (shards : List shard) : Except Err (List shard) :=
  if shards.length ≠ r.shards then .error .tooFewShards
  else do
    let _ ← checkShards shards false
    Except.ok (shards.take r.dataShards ++
      codeSomeShards r.dataShards r.parity (shards.take r.dataShards)
        (shards.drop r.dataShards) r.parityShards)

/-- Verify (reedsolomon.go): validates the count and sizes, then checks the
parity block against freshly computed parity. -/
def Verify (r : RS) (shards : List shard) : Except Err Bool :=
  if shards.length ≠ r.shards then .error .tooFewShards
  else do
    let _ ← checkShards shards false
    Except.ok (checkSomeShards r.dataShards r.parity (shards.take r.dataShards)
      (shards.drop r.dataShards) r.parityShards (shards.getD 0 []).length)

/-- The index-collection loop of reconstruct (reedsolomon.go): scan rows
0..S while fewer than D valid rows were found, appending present indices to
`validIndices` and absent ones to `invalidIndices`. -/
def gatherIndices (shards : List shard) (s d : Nat) : List Nat × List Nat :=
  (List.range s).foldl (fun acc i =>
    if acc.1.length < d then
      if (shards.getD i []).length ≠ 0 then (acc.1 ++ [i], acc.2)
      else (acc.1, acc.2 ++ [i])
    else acc) ([], [])

/-- The in-place output writes of reconstruct: store each computed row at
its shard index. -/
def writeBack (shards : List shard) (idxs : List Nat) (vals : List shard) :
    List shard :=
  (idxs.zip vals).foldl (fun sh p => sh.set p.1 p.2) shards

/-- The decode-matrix step of reconstruct (reedsolomon.go): look the
invalid-index set up in the inversion tree; on a miss, build the square
sub-matrix from the rows of the coding matrix indexed by the valid indices,
invert it, and cache it (the cache write mutates the Go receiver; its error
is propagated as in the source). -/
def decodeMatrixFor (r : RS) (valid invalid : List Nat) : Except Err gmatrix :=
  match getInvertedMatrix r.tree invalid with
  | some dm => Except.ok dm
  | none =>
      Invert (valid.map fun v =>
        (List.range r.dataShards).map fun c => mget r.m v c) >>= fun dm =>
      insertInvertedMatrix r.tree invalid dm r.shards >>= fun _ =>
      Except.ok dm

/-- The data-shard loop of reconstruct (reedsolomon.go): every missing data
shard (zero length, index < D) gets a fresh `size`-byte buffer and is
computed by the kernel from the surviving shards with its decode-matrix
row.  Go's buffer reuse (`shards[i][0:shardSize]` versus a fresh
allocation) is modelled by fresh zero buffers: every output byte is
overwritten by the kernel's c = 0 pass. -/
def dataPhase (r : RS) (shards subShards : List shard) (dm : gmatrix)
    (size : Nat) : List shard :=
  writeBack shards
    ((List.range r.dataShards).filter fun i => (shards.getD i []).length = 0)
    (codeSomeShards r.dataShards
      (((List.range r.dataShards).filter fun i =>
        (shards.getD i []).length = 0).map fun i => dm.getD i [])
      subShards
      (((List.range r.dataShards).filter fun i =>
        (shards.getD i []).length = 0).map fun _ => List.replicate size 0)
      ((List.range r.dataShards).filter fun i =>
        (shards.getD i []).length = 0).length)

/-- The parity loop of reconstruct (reedsolomon.go): every missing parity
shard (zero length, D ≤ index < S) is recomputed from the completed data
shards with its row of r.parity. -/
def parityPhase (r : RS) (shards2 : List shard) (size : Nat) : List shard :=
  writeBack shards2
    ((List.range' r.dataShards r.parityShards).filter fun i =>
      (shards2.getD i []).length = 0)
    (codeSomeShards r.dataShards
      (((List.range' r.dataShards r.parityShards).filter fun i =>
        (shards2.getD i []).length = 0).map fun i =>
          r.parity.getD (i - r.dataShards) [])
      (shards2.take r.dataShards)
      (((List.range' r.dataShards r.parityShards).filter fun i =>
        (shards2.getD i []).length = 0).map fun _ => List.replicate size 0)
      ((List.range' r.dataShards r.parityShards).filter fun i =>
        (shards2.getD i []).length = 0).length)

/-- reconstruct (reedsolomon.go): validates, takes the fast path when
nothing is missing, errors when fewer than D shards are present, and
otherwise decodes missing data shards with the (possibly cached) inverse of
the surviving sub-matrix, then — unless `dataOnly` — recomputes missing
parity from the completed data shards.  The source's single function body
is split here into `decodeMatrixFor`, `dataPhase` and `parityPhase`,
mirroring its three commented sections. -/
def reconstruct (r : RS) (shards : List shard) (dataOnly : Bool) :
    Except Err (List shard) :=
  if shards.length ≠ r.shards then .error .tooFewShards
  else
    checkShards shards true >>= fun _ =>
    if ((List.range r.shards).filter fun i =>
          (shards.getD i []).length ≠ 0).length = r.shards ∨
        (dataOnly ∧ ((List.range r.dataShards).filter fun i =>
          (shards.getD i []).length ≠ 0).length = r.dataShards) then
      Except.ok shards
    else if ((List.range r.shards).filter fun i =>
        (shards.getD i []).length ≠ 0).length < r.dataShards then
      .error .tooFewShards
    else
      decodeMatrixFor r (gatherIndices shards r.shards r.dataShards).1
        (gatherIndices shards r.shards r.dataShards).2 >>= fun dataDecodeMatrix =>
      if dataOnly then
        Except.ok (dataPhase r shards
          ((gatherIndices shards r.shards r.dataShards).1.map fun i =>
            shards.getD i [])
          dataDecodeMatrix (shardSize shards))
      else
        Except.ok (parityPhase r
          (dataPhase r shards
            ((gatherIndices shards r.shards r.dataShards).1.map fun i =>
              shards.getD i [])
            dataDecodeMatrix (shardSize shards))
          (shardSize shards))

/-- Reconstruct (reedsolomon.go): recreate all missing shards. -/
def Reconstruct (r : RS) (shards : List shard) : Except Err (List shard) :=
  reconstruct r shards false

/-- ReconstructData (reedsolomon.go): recreate only missing data shards. -/
def ReconstructData (r : RS) (shards : List shard) : Except Err (List shard) :=
  reconstruct r shards true

/-- The working buffer of Split (reedsolomon.go): the input extended by its
spare capacity (`data[:cap(data)]`, modelled by the explicit `spare`
suffix), then zero-padded up to `S·perShard` when still shorter. -/
def splitBuffer (r : RS) (data spare : List GF) : List GF :=
  if (data ++ spare).length <
      r.shards * ((data.length + r.dataShards - 1) / r.dataShards)
  then (data ++ spare) ++ List.replicate
    (r.shards * ((data.length + r.dataShards - 1) / r.dataShards) -
      (data ++ spare).length) 0
  else data ++ spare

/-- Split (reedsolomon.go): `perShard = ⌈len(data)/D⌉`; the padded buffer is
sliced into S consecutive `perShard`-byte shards. -/
def Split (r : RS) (data spare : List GF) : Except Err (List shard) :=
  if data.length = 0 then .error .shortData
  else
    Except.ok ((List.range r.shards).map fun i =>
      ((splitBuffer r data spare).drop
        (i * ((data.length + r.dataShards - 1) / r.dataShards))).take
        ((data.length + r.dataShards - 1) / r.dataShards))

/-- SplitMulti (reedsolomon.go): each shard's backing capacity is modelled
as its list length; shards are truncated to `numChunks·subsize` and
consecutive `subsize`-byte chunks of `data` are interleaved across the
first D shards, round `t` writing chunk `t·D + i` into shard `i` at offset
`t·subsize` (Go's `copy` clamps at the destination length, and an exhausted
buffer yields empty chunks).  The capacity error is the anonymous
`errors.New("each shard must have capacity of at least len(data)/m")`,
modelled as `shardCapacity`.  `subsize = 0` makes the Go loop divide by
zero; the model is total but mirrors the source only for `subsize > 0`. -/
def SplitMulti (r : RS) (data : List GF) (shards : List shard) (subsize : Nat) :
    Except Err (List shard) :=
  let chunkSize := r.dataShards * subsize
  let numChunks := data.length / chunkSize +
    (if data.length % chunkSize ≠ 0 then 1 else 0)
  let shardLen := numChunks * subsize
  if ¬ shards.all (fun s => shardLen ≤ s.length) then .error .shardCapacity
  else
    let resliced := shards.map fun s => s.take shardLen
    Except.ok ((List.range resliced.length).map fun i =>
      if i < r.dataShards then
        (List.range numChunks).foldl (fun s t =>
          let chunk := ((data.drop ((t * r.dataShards + i) * subsize)).take
            subsize).take (s.length - t * subsize)
          (s.take (t * subsize)) ++ chunk ++ s.drop (t * subsize + chunk.length))
          (resliced.getD i [])
      else resliced.getD i [])

/-- The size-scan loop of Join (reedsolomon.go): each of the first D shards
must be non-nil, accumulating lengths and breaking out as soon as `outSize`
is covered; a shortfall after the loop is ShortData. -/
def joinScan (outSize : Nat) : List shard → Nat → Except Err Unit
  | [], size => if size < outSize then .error .shortData else .ok ()
  | s :: rest, size =>
    if s.length = 0 then .error .reconstructRequired
    else if outSize ≤ size + s.length then .ok ()
    else joinScan outSize rest (size + s.length)

/-- The copy loop of Join (reedsolomon.go): write whole shards until the
remaining budget is smaller than the next shard, which is truncated. -/
def joinCopy : List shard → Nat → List GF
  | [], _ => []
  | s :: rest, write =>
    if write < s.length then s.take write
    else s ++ joinCopy rest (write - s.length)

/-- Join (reedsolomon.go): concatenate the first D shards into exactly
`outSize` bytes.  The `io.Writer` destination is modelled as the returned
byte list (a sink that never fails). -/
def Join (r : RS) (shards : List shard) (outSize : Nat) : Except Err (List GF) :=
  if shards.length < r.dataShards then .error .tooFewShards
  else do
    let _ ← joinScan outSize (shards.take r.dataShards) 0
    Except.ok (joinCopy (shards.take r.dataShards) outSize)

/-- One update of the coding loop: the value stored into output row `i`
while processing input column `c`. -/
def csStep (matrixRows inputs : List shard) (c i : Nat) (row : shard) : shard :=
  if c = 0 then galMulSlice (mget matrixRows i c) (inputs.getD c []) row
  else galMulSliceXor (mget matrixRows i c) (inputs.getD c []) row

/-- The coding loop's closed form: output row r, byte b is the GF(2^8) sum
over input columns c of `matrixRows[r][c] · inputs[c][b]`. -/
def rowEnc (matrixRows inputs : List shard) (D r L : Nat) : shard :=
  (List.range L).map fun b =>
    xorSum ((List.range D).map fun c => mget matrixRows r c * mget inputs c b)

/-! ### The coding loops, in closed form -/

theorem getD_set_list {α : Type} (l : List α) (i : Nat) (x : α) (r : Nat) (d : α) :
    (l.set i x).getD r d = if i = r ∧ i < l.length then x else l.getD r d := by
  by_cases hr : r < l.length
  · rw [getD_of_lt _ _ (by simpa using hr), List.getElem_set, getD_of_lt _ _ hr]
    by_cases hir : i = r
    · subst hir
      rw [if_pos rfl, if_pos ⟨rfl, hr⟩]
    · rw [if_neg hir, if_neg (by intro h; exact hir h.1)]
  · rw [getD_of_ge _ _ (by simpa using Nat.le_of_not_lt hr),
      getD_of_ge _ _ (Nat.le_of_not_lt hr),
      if_neg (by intro h; exact hr (by omega))]

theorem foldl_set_length (g : Nat → shard → shard) (l : List Nat) (outs : List shard) :
    (l.foldl (fun o i => o.set i (g i (o.getD i []))) outs).length = outs.length := by
  induction l generalizing outs with
  | nil => rfl
  | cons a l ih => rw [List.foldl_cons, ih, List.length_set]

theorem foldl_range_set (g : Nat → shard → shard) (k : Nat) :
    ∀ (outs : List shard) (r : Nat),
      ((List.range k).foldl (fun o i => o.set i (g i (o.getD i []))) outs).getD r [] =
        if r < k ∧ r < outs.length then g r (outs.getD r []) else outs.getD r [] := by
  induction k with
  | zero => intro outs r; simp
  | succ k ih =>
    intro outs r
    rw [List.range_succ, List.foldl_append, List.foldl_cons, List.foldl_nil,
      getD_set_list, foldl_set_length]
    simp only [ih]
    rw [if_neg (by omega : ¬ (k < k ∧ k < outs.length))]
    by_cases hrk : k = r
    · subst hrk
      by_cases hlen : k < outs.length
      · rw [if_pos ⟨rfl, hlen⟩, if_pos ⟨by omega, hlen⟩]
      · rw [if_neg (by tauto), if_neg (by tauto), if_neg (by tauto)]
    · rw [if_neg (by tauto)]
      by_cases hr2 : r < k ∧ r < outs.length
      · rw [if_pos hr2, if_pos ⟨by omega, hr2.2⟩]
      · rw [if_neg hr2, if_neg (by omega)]

theorem foldl_outer_length (f : Nat → Nat → shard → shard) (oc : Nat) :
    ∀ (l : List Nat) (outputs : List shard),
      (l.foldl (fun o c => (List.range oc).foldl
        (fun o2 i => o2.set i (f c i (o2.getD i []))) o) outputs).length =
        outputs.length := by
  intro l
  induction l with
  | nil => intro outputs; rfl
  | cons a l ih =>
    intro outputs
    rw [List.foldl_cons, ih, foldl_set_length]

theorem foldl_outer_getD (f : Nat → Nat → shard → shard) (oc : Nat) :
    ∀ (l : List Nat) (outputs : List shard) (r : Nat), r < oc → r < outputs.length →
      (l.foldl (fun o c => (List.range oc).foldl
        (fun o2 i => o2.set i (f c i (o2.getD i []))) o) outputs).getD r [] =
        l.foldl (fun row c => f c r row) (outputs.getD r []) := by
  intro l
  induction l with
  | nil => intro outputs r _ _; rfl
  | cons a l ih =>
    intro outputs r hr hlen
    rw [List.foldl_cons, List.foldl_cons,
      ih _ r hr (by rw [foldl_set_length]; exact hlen),
      foldl_range_set, if_pos ⟨hr, hlen⟩]

theorem map_eq_range_map {α β : Type} (f : α → β) (d : α) (l : List α) :
    l.map f = (List.range l.length).map fun b => f (l.getD b d) := by
  apply List.ext_getElem
  · simp
  · intro i h1 h2
    rw [List.getElem_map, List.getElem_map, List.getElem_range,
      getD_of_lt _ _ (by simpa using h1)]

theorem range_map_zero_eq_replicate (L : Nat) :
    ((List.range L).map fun _ => (0 : GF)) = List.replicate L 0 := by
  apply List.ext_getElem
  · simp
  · intro i h1 h2
    simp

theorem rowEnc_length (matrixRows inputs : List shard) (D r L : Nat) :
    (rowEnc matrixRows inputs D r L).length = L := by
  simp [rowEnc]

theorem rowEnc_getD (matrixRows inputs : List shard) (D r L : Nat) {b : Nat}
    (hb : b < L) :
    (rowEnc matrixRows inputs D r L).getD b 0 =
      xorSum ((List.range D).map fun c => mget matrixRows r c * mget inputs c b) := by
  rw [rowEnc, getD_of_lt _ _ (by simpa using hb), List.getElem_map, List.getElem_range]

theorem csRowFold (mrows inputs : List shard) (r L : Nat) (row0 : shard)
    (hrow0 : row0.length ≤ L) :
    ∀ D, 0 < D → (∀ c, c < D → (inputs.getD c []).length = L) →
      (List.range D).foldl (fun row c => csStep mrows inputs c r row) row0 =
        rowEnc mrows inputs D r L := by
  intro D
  induction D with
  | zero => intro h; exact absurd h (by omega)
  | succ D ih =>
    intro _ hin
    rw [List.range_succ, List.foldl_append, List.foldl_cons, List.foldl_nil]
    by_cases hD : D = 0
    · subst hD
      simp only [List.range_zero, List.foldl_nil]
      rw [csStep, if_pos rfl, galMulSlice]
      have hlen0 : (inputs.getD 0 []).length = L := hin 0 (by omega)
      rw [List.drop_eq_nil_of_le (by omega), List.append_nil,
        map_eq_range_map _ 0, hlen0, rowEnc]
      refine List.map_congr_left fun b hb => ?_
      rw [show List.range 1 = [0] from rfl, List.map_cons, List.map_nil,
        xorSum_cons, xorSum_nil, add_zero]
      rfl
    · have hD' : 0 < D := Nat.pos_of_ne_zero hD
      rw [ih hD' (fun c hc => hin c (by omega)), csStep, if_neg hD, galMulSliceXor]
      have hlenD : (inputs.getD D []).length = L := hin D (by omega)
      rw [List.drop_eq_nil_of_le (by rw [rowEnc_length]; omega), List.append_nil,
        zipWith_eq_map_range _ 0 0 hlenD (rowEnc_length mrows inputs D r L)]
      conv_rhs => rw [rowEnc]
      refine List.map_congr_left fun b hb => ?_
      have hbL : b < L := List.mem_range.mp hb
      rw [rowEnc_getD _ _ _ _ _ hbL, List.range_succ, List.map_append,
        xorSum_append, List.map_cons, List.map_nil, xorSum_cons, xorSum_nil,
        add_zero]
      rfl

theorem ccRowFold (mrows inputs : List shard) (r L : Nat) :
    ∀ D, (∀ c, c < D → (inputs.getD c []).length = L) →
      (List.range D).foldl
        (fun row c => galMulSliceXor (mget mrows r c) (inputs.getD c []) row)
        (List.replicate L 0) = rowEnc mrows inputs D r L := by
  intro D
  induction D with
  | zero =>
    intro _
    rw [List.range_zero, List.foldl_nil, rowEnc]
    rw [show ((List.range L).map fun b =>
      xorSum ((List.range 0).map fun c => mget mrows r c * mget inputs c b)) =
      (List.range L).map fun _ => (0 : GF) from
      List.map_congr_left fun b _ => by rw [List.range_zero, List.map_nil, xorSum_nil]]
    rw [range_map_zero_eq_replicate]
  | succ D ih =>
    intro hin
    rw [List.range_succ, List.foldl_append, List.foldl_cons, List.foldl_nil,
      ih (fun c hc => hin c (by omega)), galMulSliceXor]
    have hlenD : (inputs.getD D []).length = L := hin D (by omega)
    rw [List.drop_eq_nil_of_le (by rw [rowEnc_length]; omega), List.append_nil,
      zipWith_eq_map_range _ 0 0 hlenD (rowEnc_length mrows inputs D r L)]
    conv_rhs => rw [rowEnc]
    refine List.map_congr_left fun b hb => ?_
    have hbL : b < L := List.mem_range.mp hb
    rw [rowEnc_getD _ _ _ _ _ hbL, List.range_succ, List.map_append,
      xorSum_append, List.map_cons, List.map_nil, xorSum_cons, xorSum_nil,
      add_zero]
    rfl

theorem codeSomeShards_length (D : Nat) (mrows inputs outputs : List shard)
    (oc : Nat) :
    (codeSomeShards D mrows inputs outputs oc).length = outputs.length :=
  foldl_outer_length (csStep mrows inputs) oc (List.range D) outputs

theorem codeSomeShards_getD {D : Nat} (hD : 0 < D) (mrows inputs : List shard)
    {L : Nat} (hin : ∀ c, c < D → (inputs.getD c []).length = L)
    {outputs : List shard} {oc r : Nat} (hr : r < oc) (hlen : r < outputs.length)
    (hout : (outputs.getD r []).length ≤ L) :
    (codeSomeShards D mrows inputs outputs oc).getD r [] =
      rowEnc mrows inputs D r L := by
  rw [show codeSomeShards D mrows inputs outputs oc =
      (List.range D).foldl (fun o c => (List.range oc).foldl
        (fun o2 i => o2.set i (csStep mrows inputs c i (o2.getD i []))) o) outputs
      from rfl,
    foldl_outer_getD (csStep mrows inputs) oc (List.range D) outputs r hr hlen]
  exact csRowFold mrows inputs r L _ hout D hD hin

/-! ### Shard bookkeeping -/

theorem getD_replicate {α : Type} (a d : α) {n i : Nat} (h : i < n) :
    (List.replicate n a).getD i d = a := by
  rw [getD_of_lt _ _ (by simpa using h), List.getElem_replicate]

theorem getD_take {α : Type} (l : List α) (d : α) {n i : Nat} (h : i < n) :
    (l.take n).getD i d = l.getD i d := by
  by_cases hl : i < l.length
  · rw [getD_of_lt _ _ (by simp; omega), getD_of_lt _ _ hl, List.getElem_take]
  · rw [getD_of_ge _ _ (by simp; omega), getD_of_ge _ _ (by omega)]

theorem getD_drop {α : Type} (l : List α) (d : α) (n i : Nat) :
    (l.drop n).getD i d = l.getD (n + i) d := by
  by_cases hl : n + i < l.length
  · rw [getD_of_lt _ _ (by simp; omega), getD_of_lt _ _ hl, List.getElem_drop]
  · rw [getD_of_ge _ _ (by simp; omega), getD_of_ge _ _ (by omega)]

theorem getD_append_left {α : Type} (l1 l2 : List α) (d : α) {i : Nat}
    (h : i < l1.length) :
    (l1 ++ l2).getD i d = l1.getD i d := by
  rw [getD_of_lt _ _ (by simp; omega), getD_of_lt _ _ h,
    List.getElem_append_left h]

theorem getD_append_right {α : Type} (l1 l2 : List α) (d : α) (i : Nat) :
    (l1 ++ l2).getD (l1.length + i) d = l2.getD i d := by
  by_cases hl : i < l2.length
  · rw [getD_of_lt _ _ (by simp; omega), getD_of_lt _ _ hl]
    rw [List.getElem_append_right (by omega)]
    congr 1
    omega
  · rw [getD_of_ge _ _ (by simp; omega), getD_of_ge _ _ (by omega)]

theorem list_ext_getD {α : Type} (l1 l2 : List α) (d : α)
    (hlen : l1.length = l2.length)
    (h : ∀ i, i < l1.length → l1.getD i d = l2.getD i d) : l1 = l2 := by
  apply List.ext_getElem hlen
  intro i h1 h2
  rw [← getD_of_lt _ d h1, ← getD_of_lt _ d h2, h i h1]

theorem rowEnc_congr_inputs (mr inputs inputs' : List shard)
    (D r L : Nat) (h : ∀ c, c < D → inputs.getD c [] = inputs'.getD c []) :
    rowEnc mr inputs D r L = rowEnc mr inputs' D r L := by
  rw [rowEnc, rowEnc]
  refine List.map_congr_left fun b _ => ?_
  congr 1
  refine List.map_congr_left fun c hc => ?_
  simp only [mget, h c (List.mem_range.mp hc)]

theorem shardSize_cons_ne (s : shard) (rest : List shard) (hs : s.length ≠ 0) :
    shardSize (s :: rest) = s.length := by
  have hfind : List.find? (fun t : shard => decide (t.length ≠ 0)) (s :: rest) =
      some s := List.find?_cons_of_pos _ (by simpa using hs)
  simp only [shardSize, hfind]

theorem shardSize_cons_zero (s : shard) (rest : List shard) (hs : s.length = 0) :
    shardSize (s :: rest) = shardSize rest := by
  have hfind : List.find? (fun t : shard => decide (t.length ≠ 0)) (s :: rest) =
      List.find? (fun t : shard => decide (t.length ≠ 0)) rest :=
    List.find?_cons_of_neg _ (by simp [hs])
  simp only [shardSize, hfind]

theorem shardSize_eq {L : Nat} (hL : 0 < L) :
    ∀ {shards : List shard}, (∀ s ∈ shards, s.length = 0 ∨ s.length = L) →
      (∃ s ∈ shards, s.length ≠ 0) → shardSize shards = L := by
  intro shards
  induction shards with
  | nil => intro _ hex; simp at hex
  | cons s rest ih =>
    intro h hex
    by_cases hs : s.length = 0
    · rw [shardSize_cons_zero s rest hs]
      refine ih (fun t ht => h t (by simp [ht])) ?_
      rcases hex with ⟨t, ht, hne⟩
      rcases List.mem_cons.mp ht with rfl | htr
      · exact absurd hs hne
      · exact ⟨t, htr, hne⟩
    · rw [shardSize_cons_ne s rest hs]
      rcases h s (by simp) with h0 | hsL
      · exact absurd h0 hs
      · exact hsL

theorem shardSize_uniform {shards : List shard} {L : Nat} (hL : 0 < L)
    (hne : shards ≠ []) (h : ∀ s ∈ shards, s.length = L) : shardSize shards = L := by
  refine shardSize_eq hL (fun s hs => Or.inr (h s hs)) ?_
  rcases shards with _ | ⟨s, rest⟩
  · exact absurd rfl hne
  · exact ⟨s, by simp, by rw [h s (by simp)]; omega⟩

theorem checkShards_ok {shards : List shard} {L : Nat} {nilok : Bool}
    (hL : 0 < L) (hsz : shardSize shards = L)
    (h : ∀ s ∈ shards, s.length = L ∨ (s.length = 0 ∧ nilok = true)) :
    checkShards shards nilok = .ok () := by
  rw [checkShards]
  simp only [hsz]
  rw [if_neg (by omega), if_pos]
  rw [List.all_eq_true]
  intro s hs
  rcases h s hs with hsL | ⟨h0, hok⟩
  · simp [hsL]
  · simp [h0, hok]

theorem checkShards_uniform {shards : List shard} {L : Nat} (hL : 0 < L)
    (hne : shards ≠ []) (h : ∀ s ∈ shards, s.length = L) (nilok : Bool) :
    checkShards shards nilok = .ok () :=
  checkShards_ok hL (shardSize_uniform hL hne h) (fun s hs => Or.inl (h s hs))

theorem checkSomeShards_spec (D : Nat) (mrows inputs toCheck : List shard)
    (oc L : Nat) (hoc : toCheck.length = oc)
    (hin : ∀ c, c < D → (inputs.getD c []).length = L) :
    checkSomeShards D mrows inputs toCheck oc L = true ↔
      ∀ r, r < oc → toCheck.getD r [] = rowEnc mrows inputs D r L := by
  have hrow : ∀ r, r < oc →
      ((List.range D).foldl (fun outs c => (List.range oc).foldl
        (fun outs2 iRow => outs2.set iRow (galMulSliceXor (mget mrows iRow c)
          (inputs.getD c []) (outs2.getD iRow []))) outs)
        (List.replicate toCheck.length (List.replicate L 0))).getD r [] =
      rowEnc mrows inputs D r L := by
    intro r hr
    rw [foldl_outer_getD
      (fun c i row => galMulSliceXor (mget mrows i c) (inputs.getD c []) row)
      oc (List.range D) _ r hr (by rw [List.length_replicate]; omega),
      getD_replicate _ _ (by omega)]
    exact ccRowFold mrows inputs r L D hin
  simp only [checkSomeShards]
  rw [List.all_eq_true]
  constructor
  · intro h r hr
    have h2 := of_decide_eq_true (h r (List.mem_range.mpr (by omega)))
    rw [hrow r hr] at h2
    exact h2.symm
  · intro h i hi
    have hio : i < oc := by rw [← hoc]; exact List.mem_range.mp hi
    exact decide_eq_true (by rw [hrow i hio, h i hio])

/-! ### Encode and Verify, in closed form -/

theorem uniform_getD_len {shards : List shard} {L : Nat}
    (hall : ∀ s ∈ shards, s.length = L) {i : Nat} (hi : i < shards.length) :
    (shards.getD i []).length = L := by
  rw [getD_of_lt _ _ hi]
  exact hall _ (List.getElem_mem hi)

theorem take_inputs_len {shards : List shard} {L : Nat}
    (hall : ∀ s ∈ shards, s.length = L) {D : Nat} (hD : D ≤ shards.length) :
    ∀ c, c < D → ((shards.take D).getD c []).length = L := by
  intro c hc
  rw [getD_take _ _ hc]
  exact uniform_getD_len hall (by omega)

theorem Encode_ok {r : RS} {shards : List shard} {L : Nat}
    (hD : 0 < r.dataShards) (hS : r.shards = r.dataShards + r.parityShards)
    (hlen : shards.length = r.shards) (hL : 0 < L)
    (hall : ∀ s ∈ shards, s.length = L) :
    Encode r shards = .ok (shards.take r.dataShards ++
      (List.range r.parityShards).map fun p =>
        rowEnc r.parity (shards.take r.dataShards) r.dataShards p L) := by
  have hne : shards ≠ [] := by
    intro h0
    rw [h0] at hlen
    simp at hlen
    omega
  have hchk : checkShards shards false = .ok () :=
    checkShards_uniform hL hne hall false
  have hin := take_inputs_len hall (show r.dataShards ≤ shards.length by omega)
  have hsuf : codeSomeShards r.dataShards r.parity (shards.take r.dataShards)
      (shards.drop r.dataShards) r.parityShards =
      (List.range r.parityShards).map fun p =>
        rowEnc r.parity (shards.take r.dataShards) r.dataShards p L := by
    apply list_ext_getD _ _ []
    · rw [codeSomeShards_length, List.length_drop, hlen, hS, List.length_map,
        List.length_range]
      omega
    · intro p hp
      have hplen : (codeSomeShards r.dataShards r.parity (shards.take r.dataShards)
          (shards.drop r.dataShards) r.parityShards).length = r.parityShards := by
        rw [codeSomeShards_length, List.length_drop, hlen, hS]
        omega
      rw [hplen] at hp
      rw [codeSomeShards_getD hD _ _ hin hp
        (by rw [List.length_drop, hlen, hS]; omega)
        (by rw [getD_drop, uniform_getD_len hall (by omega)])]
      rw [getD_of_lt _ _ (by simpa using hp), List.getElem_map, List.getElem_range]
  rw [Encode, if_neg (by omega), hchk, hsuf]
  rfl

theorem Verify_ok {r : RS} {shards : List shard} {L : Nat}
    (hS : r.shards = r.dataShards + r.parityShards) (hSpos : 0 < r.shards)
    (hlen : shards.length = r.shards) (hL : 0 < L)
    (hall : ∀ s ∈ shards, s.length = L) :
    Verify r shards = .ok (checkSomeShards r.dataShards r.parity
      (shards.take r.dataShards) (shards.drop r.dataShards) r.parityShards L) := by
  have hne : shards ≠ [] := by
    intro h0
    rw [h0] at hlen
    simp at hlen
    omega
  have hchk : checkShards shards false = .ok () :=
    checkShards_uniform hL hne hall false
  have hbyte : (shards.getD 0 []).length = L := uniform_getD_len hall (by omega)
  rw [Verify, if_neg (by omega), hchk, hbyte]
  rfl

theorem Verify_iff {r : RS} {shards : List shard} {L : Nat}
    (hS : r.shards = r.dataShards + r.parityShards) (hSpos : 0 < r.shards)
    (hlen : shards.length = r.shards) (hL : 0 < L)
    (hall : ∀ s ∈ shards, s.length = L) :
    (Verify r shards = .ok true ↔
      ∀ p, p < r.parityShards → shards.getD (r.dataShards + p) [] =
        rowEnc r.parity (shards.take r.dataShards) r.dataShards p L) := by
  rw [Verify_ok hS hSpos hlen hL hall]
  have hin := take_inputs_len hall (show r.dataShards ≤ shards.length by omega)
  have hspec := checkSomeShards_spec r.dataShards r.parity
    (shards.take r.dataShards) (shards.drop r.dataShards) r.parityShards L
    (by rw [List.length_drop, hlen, hS]; omega) hin
  constructor
  · intro h p hp
    have hb : checkSomeShards r.dataShards r.parity (shards.take r.dataShards)
        (shards.drop r.dataShards) r.parityShards L = true := by
      cases hok : checkSomeShards r.dataShards r.parity (shards.take r.dataShards)
        (shards.drop r.dataShards) r.parityShards L
      · rw [hok] at h
        exact absurd (by simpa using h) Bool.false_ne_true
      · rfl
    have := hspec.mp hb p hp
    rw [getD_drop] at this
    exact this
  · intro h
    have hb := hspec.mpr (fun p hp => by rw [getD_drop]; exact h p hp)
    rw [hb]

/-! ### The default coding matrix: identity top and the MDS property -/

theorem except_bind_ok {α β : Type} (a : α) (f : α → Except Err β) :
    (Except.ok a >>= f) = f a := rfl

theorem gf_val_of_lt {n : Nat} (h : n < 256) : (gf n).1 = n := by
  rw [gf]
  exact Nat.mod_eq_of_lt h

theorem gf_inj {m n : Nat} (hm : m < 256) (hn : n < 256) (h : gf m = gf n) :
    m = n := by
  have := congrArg Subtype.val h
  rwa [gf_val_of_lt hm, gf_val_of_lt hn] at this

theorem WF_SubMatrix_topleft {m : gmatrix} {r c rmax cmax : Nat} (h : WF m r c)
    (hr : rmax ≤ r) (hc : cmax ≤ c) : WF (SubMatrix m 0 0 rmax cmax) rmax cmax := by
  constructor
  · rw [SubMatrix]
    simp only [List.drop_zero, Nat.sub_zero, List.length_map, List.length_take]
    rw [h.1]
    omega
  · intro row hrow
    rw [SubMatrix] at hrow
    simp only [List.drop_zero, Nat.sub_zero, List.mem_map] at hrow
    obtain ⟨row0, hrow0, rfl⟩ := hrow
    have : row0.length = c := h.2 row0 ((List.take_sublist _ _).subset hrow0)
    simp only [List.length_take, this]
    omega

theorem mget_SubMatrix_topleft {m : gmatrix} {rmax cmax i j : Nat}
    (hi : i < m.length) (hi2 : i < rmax) (hj : j < cmax) :
    mget (SubMatrix m 0 0 rmax cmax) i j = mget m i j := by
  have hrow : (SubMatrix m 0 0 rmax cmax).getD i [] =
      List.take cmax (m.getD i []) := by
    rw [SubMatrix]
    simp only [List.drop_zero, Nat.sub_zero]
    rw [getD_of_lt _ _ (by simp; omega), List.getElem_map, List.getElem_take,
      getD_of_lt _ _ hi]
  rw [mget, hrow, mget]
  exact getD_take _ _ hj

theorem parity_row_getD (M : gmatrix) (P D : Nat) {p : Nat} (hp : p < P) :
    ((List.range P).map fun i => M.getD (D + i) []).getD p [] =
      M.getD (D + p) [] := by
  rw [getD_of_lt _ _ (by simpa using hp), List.getElem_map, List.getElem_range]

theorem buildMatrix_ok {D S : Nat} (hD : 0 < D) (hDS : D ≤ S) (hS256 : S ≤ 256) :
    ∃ M, buildMatrix D S = .ok M ∧ WF M S D ∧
      (∀ i j, i < D → j < D → mget M i j = if i = j then 1 else 0) ∧
      (∀ f : Fin D → Fin S, Function.Injective f →
        IsUnit (Matrix.of fun i j : Fin D => mget M (f i).1 j.1)) := by
  obtain ⟨V, hVok, hVWF, hVmat⟩ := vandermonde_ok (r := S) (c := D)
    (by omega) (by omega)
  have hVget : ∀ i j, i < S → j < D → mget V i j = galExp (gf i) j := by
    intro i j hi hj
    have := congrFun (congrFun hVmat ⟨i, hi⟩) ⟨j, hj⟩
    rwa [toMat_apply, Matrix.of_apply] at this
  have htopWF : WF (SubMatrix V 0 0 D D) D D :=
    WF_SubMatrix_topleft hVWF hDS le_rfl
  have htopget : ∀ i j, i < D → j < D →
      mget (SubMatrix V 0 0 D D) i j = galExp (gf i) j := by
    intro i j hi hj
    rw [mget_SubMatrix_topleft (by rw [hVWF.1]; omega) hi hj]
    exact hVget i j (by omega) hj
  have htopMat : toMat (SubMatrix V 0 0 D D) D D =
      Matrix.vandermonde (fun i : Fin D => gf i.1) := by
    apply Matrix.ext
    intro i j
    rw [toMat_apply, htopget _ _ i.2 j.2, Matrix.vandermonde_apply, galExp]
  have hgfinj : Function.Injective (fun i : Fin D => gf i.1) := by
    intro a b hab
    exact Fin.ext (gf_inj (by omega) (by omega) hab)
  have htopUnit : IsUnit (toMat (SubMatrix V 0 0 D D) D D) := by
    rw [Matrix.isUnit_iff_isUnit_det, isUnit_iff_ne_zero, htopMat]
    exact Matrix.det_vandermonde_ne_zero_iff.mpr hgfinj
  obtain ⟨B, hBok⟩ := Invert_complete hD htopWF htopUnit
  obtain ⟨hBWF, hBTop⟩ := Invert_sound hD htopWF hBok
  have hBUnit : IsUnit (toMat B D D) := by
    rw [Matrix.isUnit_iff_isUnit_det]
    exact isUnit_of_mul_eq_one _ _
      (by rw [← Matrix.det_mul, hBTop, Matrix.det_one])
  obtain ⟨M, hMok, hMWF, hMmat⟩ := Multiply_ok hD hVWF hBWF
  have htopB : toMat (SubMatrix V 0 0 D D) D D * toMat B D D = 1 :=
    Matrix.mul_eq_one_comm.mp hBTop
  refine ⟨M, ?_, hMWF, ?_, ?_⟩
  · rw [buildMatrix, hVok, except_bind_ok, hBok, except_bind_ok, hMok]
  · intro i j hi hj
    have hiS : i < S := by
      omega
    have hentry := congrFun (congrFun hMmat ⟨i, hiS⟩) ⟨j, hj⟩
    rw [toMat_apply, Matrix.mul_apply] at hentry
    have hsum : ∑ k : Fin D, toMat V S D ⟨i, hiS⟩ k * toMat B D D k ⟨j, hj⟩ =
        (toMat (SubMatrix V 0 0 D D) D D * toMat B D D) ⟨i, hi⟩ ⟨j, hj⟩ := by
      rw [Matrix.mul_apply]
      refine Finset.sum_congr rfl fun k _ => ?_
      simp only [toMat_apply]
      rw [htopget _ _ hi k.2, hVget _ _ hiS k.2]
    rw [hsum, htopB, Matrix.one_apply] at hentry
    rw [hentry]
    simp [Fin.ext_iff]
  · intro f hf
    have hsel : (Matrix.of fun i j : Fin D => mget M (f i).1 j.1) =
        (Matrix.of fun i j : Fin D => mget V (f i).1 j.1) * toMat B D D := by
      apply Matrix.ext
      intro i j
      have hentry := congrFun (congrFun hMmat (f i)) j
      rw [toMat_apply] at hentry
      rw [Matrix.of_apply, hentry, Matrix.mul_apply, Matrix.mul_apply]
      refine Finset.sum_congr rfl fun k _ => ?_
      rw [toMat_apply, Matrix.of_apply]
    have hVsel : (Matrix.of fun i j : Fin D => mget V (f i).1 j.1) =
        Matrix.vandermonde (fun i : Fin D => gf (f i).1) := by
      apply Matrix.ext
      intro i j
      rw [Matrix.of_apply, hVget _ _ (f i).2 j.2, Matrix.vandermonde_apply, galExp]
    have hVselUnit : IsUnit (Matrix.of fun i j : Fin D => mget V (f i).1 j.1) := by
      rw [Matrix.isUnit_iff_isUnit_det, isUnit_iff_ne_zero, hVsel]
      refine Matrix.det_vandermonde_ne_zero_iff.mpr ?_
      intro a b hab
      exact hf (Fin.ext (gf_inj (by omega) (by omega) hab))
    rw [hsel]
    exact hVselUnit.mul hBUnit

theorem gmatrix_ext {a b : gmatrix} {r c : Nat} (ha : WF a r c) (hb : WF b r c)
    (h : ∀ i j, i < r → j < c → mget a i j = mget b i j) : a = b := by
  apply list_ext_getD _ _ [] (by rw [ha.1, hb.1])
  intro i hi
  have hir : i < r := by rw [← ha.1]; exact hi
  apply list_ext_getD _ _ 0 (by rw [ha.row_len hir, hb.row_len hir])
  intro j hj
  have hjc : j < c := by
    have := ha.row_len hir
    omega
  exact h i j hir hjc

theorem buildMatrixCauchy_ok {D S : Nat} (hD : 0 < D) (hS : 0 < S) (hDS : D ≤ S) :
    ∃ M, buildMatrixCauchy D S = .ok M ∧ WF M S D ∧
      (∀ i j, i < D → j < D → mget M i j = if i = j then 1 else 0) ∧
      (∀ i j, D ≤ i → i < S → j < D →
        mget M i j = gf (ginv ((i ^^^ j) % 256))) := by
  have hnew : newMatrix S D = .ok (List.replicate S (List.replicate D 0)) := by
    rw [newMatrix, if_neg (by omega)]
  refine ⟨_, by rw [buildMatrixCauchy, hnew, except_bind_ok], ⟨?_, ?_⟩, ?_, ?_⟩
  · simp
  · intro row hrow
    simp only [List.mem_map] at hrow
    obtain ⟨i, _, rfl⟩ := hrow
    simp
  · intro i j hi hj
    rw [mget_of_range_map S D _ (by omega) hj, if_pos hi]
  · intro i j hDi hi hj
    rw [mget_of_range_map S D _ hi hj, if_neg (by omega)]

theorem New_default_ok {D P : Nat} (hD : 0 < D) (hP : 0 < P) (h256 : D + P ≤ 256) :
    ∃ M, buildMatrix D (D + P) = .ok M ∧ WF M (D + P) D ∧
      (∀ i j, i < D → j < D → mget M i j = if i = j then 1 else 0) ∧
      (∀ f : Fin D → Fin (D + P), Function.Injective f →
        IsUnit (Matrix.of fun i j : Fin D => mget M (f i).1 j.1)) ∧
      New D P .default = .ok
        { dataShards := D, parityShards := P, shards := D + P, m := M,
          tree := newInversionTree D P,
          parity := (List.range P).map fun i => M.getD (D + i) [] } := by
  obtain ⟨M, hMok, hWF, hId, hMDS⟩ := buildMatrix_ok hD (by omega) h256
  refine ⟨M, hMok, hWF, hId, hMDS, ?_⟩
  rw [New, if_neg (by omega), if_neg (by omega),
    show buildSelected MatrixKind.default D (D + P) = buildMatrix D (D + P)
      from rfl,
    hMok, except_bind_ok]

/-! ### Reconstruction: index gathering, write-back, and the decode identity -/

theorem bind_ok_elim {α β : Type} {e : Except Err α} {f : α → Except Err β}
    {v : β} (h : (e >>= f) = .ok v) : ∃ a, e = .ok a ∧ f a = .ok v := by
  cases e with
  | error err => exact absurd h (by simp [Bind.bind, Except.bind])
  | ok a => exact ⟨a, rfl, by simpa [Bind.bind, Except.bind] using h⟩

theorem getD_map_lt {α β : Type} (f : α → β) (l : List α) (d : β) {k : Nat}
    (h : k < l.length) : (l.map f).getD k d = f l[k] := by
  rw [getD_of_lt _ _ (by simpa using h), List.getElem_map]

theorem eq_range_map (l : List GF) :
    l = (List.range l.length).map fun b => l.getD b 0 := by
  have := map_eq_range_map id 0 l
  simpa using this

theorem rowEnc_congr_row (mr mr' inputs : List shard) (D r r' L : Nat)
    (h : mr.getD r [] = mr'.getD r' []) :
    rowEnc mr inputs D r L = rowEnc mr' inputs D r' L := by
  rw [rowEnc, rowEnc]
  refine List.map_congr_left fun b _ => ?_
  congr 1
  refine List.map_congr_left fun c _ => ?_
  simp only [mget, h]

theorem writeBack_cons (shards : List shard) (a : Nat) (v : shard)
    (idxs : List Nat) (vals : List shard) :
    writeBack shards (a :: idxs) (v :: vals) =
      writeBack (shards.set a v) idxs vals := rfl

theorem writeBack_nil_left (shards : List shard) (vals : List shard) :
    writeBack shards [] vals = shards := rfl

theorem writeBack_length (idxs : List Nat) :
    ∀ (vals : List shard) (shards : List shard),
      (writeBack shards idxs vals).length = shards.length := by
  induction idxs with
  | nil => intro vals shards; rfl
  | cons a idxs ih =>
    intro vals shards
    cases vals with
    | nil => rw [writeBack, List.zip_nil_right, List.foldl_nil]
    | cons v vals => rw [writeBack_cons, ih, List.length_set]

theorem writeBack_getD_not_mem (idxs : List Nat) :
    ∀ (vals : List shard) (shards : List shard) {i : Nat}, i ∉ idxs →
      (writeBack shards idxs vals).getD i [] = shards.getD i [] := by
  induction idxs with
  | nil => intro vals shards i _; rfl
  | cons a idxs ih =>
    intro vals shards i hi
    cases vals with
    | nil => rfl
    | cons v vals =>
      rw [writeBack_cons, ih _ _ (by intro h; exact hi (List.mem_cons_of_mem _ h)),
        getD_set_list, if_neg (by intro h; exact hi (h.1 ▸ List.mem_cons_self a idxs))]

theorem writeBack_getD_mem (idxs : List Nat) :
    ∀ (vals : List shard) (shards : List shard) {k : Nat}
      (hk : k < idxs.length), idxs.Nodup → k < vals.length →
      idxs[k] < shards.length →
      (writeBack shards idxs vals).getD idxs[k] [] = vals.getD k [] := by
  induction idxs with
  | nil => intro vals shards k hk; simp at hk
  | cons a idxs ih =>
    intro vals shards k hk hnd hkv hlt
    cases vals with
    | nil => simp at hkv
    | cons v vals =>
      rw [writeBack_cons]
      cases k with
      | zero =>
        have ha : a ∉ idxs := (List.nodup_cons.mp hnd).1
        rw [show (a :: idxs)[0] = a from rfl] at hlt ⊢
        rw [writeBack_getD_not_mem idxs vals _ ha,
          getD_set_list, if_pos ⟨rfl, hlt⟩]
        rfl
      | succ k =>
        have hk' : k < idxs.length := by simpa using hk
        rw [show (a :: idxs)[k + 1] = idxs[k] from rfl] at hlt ⊢
        rw [ih vals _ hk' (List.nodup_cons.mp hnd).2 (by simpa using hkv)
          (by rw [List.length_set]; exact hlt)]
        rfl

/-- One step of the index-gathering fold. -/
def giStep (shards : List shard) (d : Nat) (acc : List Nat × List Nat)
    (i : Nat) : List Nat × List Nat :=
  if acc.1.length < d then
    if (shards.getD i []).length ≠ 0 then (acc.1 ++ [i], acc.2)
    else (acc.1, acc.2 ++ [i])
  else acc

theorem gatherIndices_eq (shards : List shard) (s d : Nat) :
    gatherIndices shards s d =
      (List.range s).foldl (giStep shards d) ([], []) := rfl

theorem gatherIndices_succ (shards : List shard) (k d : Nat) :
    gatherIndices shards (k + 1) d =
      giStep shards d (gatherIndices shards k d) k := by
  rw [gatherIndices_eq, gatherIndices_eq, List.range_succ, List.foldl_append,
    List.foldl_cons, List.foldl_nil]

theorem gatherIndices_spec (shards : List shard) (d : Nat) :
    ∀ k, (gatherIndices shards k d).1 =
        ((List.range k).filter fun i =>
          decide ((shards.getD i []).length ≠ 0)).take d ∧
      List.Pairwise (· < ·) (gatherIndices shards k d).2 ∧
      (∀ x ∈ (gatherIndices shards k d).2,
        x < k ∧ (shards.getD x []).length = 0) := by
  intro k
  induction k with
  | zero =>
    refine ⟨?_, List.Pairwise.nil, ?_⟩
    · rw [show (gatherIndices shards 0 d).1 = [] from rfl, List.range_zero,
        List.filter_nil, List.take_nil]
    · intro x hx
      exact absurd (show x ∈ ([] : List Nat) from hx) (List.not_mem_nil x)
  | succ k ih =>
    obtain ⟨ih1, ih2, ih3⟩ := ih
    rw [gatherIndices_succ, giStep]
    by_cases hguard : (gatherIndices shards k d).1.length < d
    · rw [if_pos hguard]
      have hflen :
          ((List.range k).filter fun i =>
            decide ((shards.getD i []).length ≠ 0)).length < d := by
        rw [ih1, List.length_take] at hguard
        omega
      by_cases hpres : (shards.getD k []).length ≠ 0
      · rw [if_pos hpres]
        refine ⟨?_, ih2, fun x hx => ⟨(ih3 x hx).1.trans (by omega), (ih3 x hx).2⟩⟩
        have hfk : List.filter (fun i => decide ((shards.getD i []).length ≠ 0))
            [k] = [k] := by
          rw [List.filter_cons, if_pos (by simpa using hpres), List.filter_nil]
        rw [ih1, List.take_of_length_le (by omega), List.range_succ,
          List.filter_append, hfk,
          List.take_of_length_le (by
            simp only [List.length_append, List.length_cons, List.length_nil]
            omega)]
      · rw [if_neg hpres]
        refine ⟨?_, ?_, ?_⟩
        · have hfk : List.filter (fun i => decide ((shards.getD i []).length ≠ 0))
              [k] = [] := by
            rw [List.filter_cons, if_neg (by simpa using hpres), List.filter_nil]
          rw [List.range_succ, List.filter_append, hfk, List.append_nil]
          exact ih1
        · rw [List.pairwise_append]
          refine ⟨ih2, List.pairwise_singleton _ _, fun a ha b hb => ?_⟩
          have hb' : b = k := by simpa using hb
          have := (ih3 a ha).1
          omega
        · intro x hx
          rcases List.mem_append.mp hx with hx1 | hx2
          · exact ⟨(ih3 x hx1).1.trans (by omega), (ih3 x hx1).2⟩
          · simp at hx2
            subst hx2
            exact ⟨by omega, by omega⟩
    · rw [if_neg hguard]
      refine ⟨?_, ih2, fun x hx => ⟨(ih3 x hx).1.trans (by omega), (ih3 x hx).2⟩⟩
      have hdle :
          d ≤ ((List.range k).filter fun i =>
            decide ((shards.getD i []).length ≠ 0)).length := by
        rw [ih1, List.length_take] at hguard
        omega
      rw [List.range_succ, List.filter_append, List.take_append_eq_append_take]
      have h0 : d - ((List.range k).filter fun i =>
          decide ((shards.getD i []).length ≠ 0)).length = 0 := by omega
      rw [h0, List.take_zero, List.append_nil, ← ih1]

theorem gatherIndices_fst_length {shards : List shard} {s d : Nat}
    (hnum : d ≤ ((List.range s).filter fun i =>
      decide ((shards.getD i []).length ≠ 0)).length) :
    (gatherIndices shards s d).1.length = d := by
  rw [(gatherIndices_spec shards d s).1, List.length_take]
  omega

theorem gatherIndices_fst_mem {shards : List shard} {s d v : Nat}
    (hv : v ∈ (gatherIndices shards s d).1) :
    v < s ∧ (shards.getD v []).length ≠ 0 := by
  rw [(gatherIndices_spec shards d s).1] at hv
  have hmemf := (List.take_sublist _ _).subset hv
  have h2 := List.of_mem_filter hmemf
  have h3 := List.mem_range.mp ((List.filter_sublist _).subset hmemf)
  exact ⟨h3, by simpa using h2⟩

theorem gatherIndices_fst_pairwise (shards : List shard) (s d : Nat) :
    List.Pairwise (· < ·) (gatherIndices shards s d).1 := by
  rw [(gatherIndices_spec shards d s).1]
  exact (List.pairwise_lt_range s).sublist
    ((List.take_sublist _ _).trans (List.filter_sublist _))

theorem gatherIndices_mem_snd (shards : List shard) (d : Nat) {x : Nat}
    (hxd : x < d) (hx0 : (shards.getD x []).length = 0) :
    ∀ k, x < k → x ∈ (gatherIndices shards k d).2 := by
  intro k
  induction k with
  | zero => intro h; omega
  | succ k ih =>
    intro hxk
    rw [gatherIndices_succ, giStep]
    by_cases hxk2 : x < k
    · have hmem := ih hxk2
      by_cases hguard : (gatherIndices shards k d).1.length < d
      · rw [if_pos hguard]
        by_cases hpres : (shards.getD k []).length ≠ 0
        · rw [if_pos hpres]
          exact hmem
        · rw [if_neg hpres]
          exact List.mem_append_left _ hmem
      · rw [if_neg hguard]
        exact hmem
    · have hxe : x = k := by omega
      subst hxe
      have hlen : (gatherIndices shards x d).1.length ≤ x := by
        rw [(gatherIndices_spec shards d x).1, List.length_take]
        have hfl := (List.filter_sublist (l := List.range x)
          (p := fun i => decide ((shards.getD i []).length ≠ 0))).length_le
        rw [List.length_range] at hfl
        omega
      rw [if_pos (by omega), if_neg (by omega)]
      exact List.mem_append_right _ (by simp)

theorem all_present_of_count {shards : List shard} {s : Nat}
    (h : ((List.range s).filter fun i =>
      decide ((shards.getD i []).length ≠ 0)).length = s) :
    ∀ i, i < s → (shards.getD i []).length ≠ 0 := by
  have hall := List.filter_length_eq_length.mp (by rw [h, List.length_range])
  intro i hi
  simpa using hall i (List.mem_range.mpr hi)

theorem encoded_entry {r : RS} {full : List shard} {L : Nat}
    (hS : r.shards = r.dataShards + r.parityShards)
    (hMId : ∀ i j, i < r.dataShards → j < r.dataShards →
      mget r.m i j = if i = j then 1 else 0)
    (hParity : ∀ p, p < r.parityShards →
      r.parity.getD p [] = r.m.getD (r.dataShards + p) [])
    (hfenc : ∀ p, p < r.parityShards → full.getD (r.dataShards + p) [] =
      rowEnc r.parity (full.take r.dataShards) r.dataShards p L)
    {i b : Nat} (hi : i < r.shards) (hb : b < L) :
    mget full i b =
      ∑ c : Fin r.dataShards, mget r.m i c.1 * mget full c.1 b := by
  by_cases hiD : i < r.dataShards
  · rw [Finset.sum_congr rfl (fun c (_ : c ∈ Finset.univ) => by
      rw [hMId i c.1 hiD c.2])]
    rw [Finset.sum_congr rfl (fun c (_ : c ∈ Finset.univ) => by
      show (if i = c.1 then (1 : GF) else 0) * mget full c.1 b =
        if (⟨i, hiD⟩ : Fin r.dataShards) = c then mget full c.1 b else 0
      rcases eq_or_ne (⟨i, hiD⟩ : Fin r.dataShards) c with heq | hne
      · rw [if_pos heq, if_pos (by rw [← heq]), one_mul]
      · rw [if_neg (by simpa [Fin.ext_iff] using hne), if_neg hne, zero_mul])]
    simp
  · have hp : i - r.dataShards < r.parityShards := by omega
    have hieq : i = r.dataShards + (i - r.dataShards) := by omega
    rw [mget, hieq, hfenc _ hp, rowEnc_getD _ _ _ _ _ hb, xorSum_univ]
    refine Finset.sum_congr rfl fun c _ => ?_
    rw [show mget r.parity (i - r.dataShards) c.1 =
        mget r.m (r.dataShards + (i - r.dataShards)) c.1 from by
      rw [mget, mget, hParity _ hp]]
    rw [show mget (full.take r.dataShards) c.1 b = mget full c.1 b from by
      rw [mget, mget, getD_take _ _ c.2]]

theorem decode_row {r : RS} {full : List shard} {L : Nat}
    (hS : r.shards = r.dataShards + r.parityShards)
    (hMId : ∀ i j, i < r.dataShards → j < r.dataShards →
      mget r.m i j = if i = j then 1 else 0)
    (hParity : ∀ p, p < r.parityShards →
      r.parity.getD p [] = r.m.getD (r.dataShards + p) [])
    (hfenc : ∀ p, p < r.parityShards → full.getD (r.dataShards + p) [] =
      rowEnc r.parity (full.take r.dataShards) r.dataShards p L)
    {valid : List Nat}
    (hvS : ∀ v ∈ valid, v < r.shards)
    (hvlen : r.dataShards ≤ valid.length)
    {dm : gmatrix}
    (hInv : toMat dm r.dataShards r.dataShards *
      (Matrix.of fun v c : Fin r.dataShards =>
        mget r.m (valid.getD v.1 0) c.1) = 1)
    {j b : Nat} (hj : j < r.dataShards) (hb : b < L) :
    xorSum ((List.range r.dataShards).map fun v =>
      mget dm j v * mget full (valid.getD v 0) b) = mget full j b := by
  have hvS' : ∀ v : Fin r.dataShards, valid.getD v.1 0 < r.shards := by
    intro v
    have hvl : v.1 < valid.length := by omega
    rw [getD_of_lt _ _ hvl]
    exact hvS _ (List.getElem_mem hvl)
  rw [xorSum_univ]
  have hstep : ∀ v : Fin r.dataShards,
      mget dm j v.1 * mget full (valid.getD v.1 0) b =
      toMat dm r.dataShards r.dataShards ⟨j, hj⟩ v *
        ((Matrix.of fun v c : Fin r.dataShards =>
          mget r.m (valid.getD v.1 0) c.1).mulVec
          (fun c => mget full c.1 b) v) := by
    intro v
    rw [toMat_apply]
    congr 1
    rw [encoded_entry hS hMId hParity hfenc (hvS' v) hb]
    simp [Matrix.mulVec, Matrix.dotProduct]
  rw [Finset.sum_congr rfl fun v _ => hstep v]
  have : ∑ v : Fin r.dataShards,
      toMat dm r.dataShards r.dataShards ⟨j, hj⟩ v *
        ((Matrix.of fun v c : Fin r.dataShards =>
          mget r.m (valid.getD v.1 0) c.1).mulVec
          (fun c => mget full c.1 b) v) =
      (toMat dm r.dataShards r.dataShards *
        (Matrix.of fun v c : Fin r.dataShards =>
          mget r.m (valid.getD v.1 0) c.1)).mulVec
        (fun c => mget full c.1 b) ⟨j, hj⟩ := by
    rw [← Matrix.mulVec_mulVec]
    simp [Matrix.mulVec, Matrix.dotProduct]
  rw [this, hInv, Matrix.one_mulVec]

theorem parityPhase_restores {r : RS} {full shards2 : List shard} {L : Nat}
    (hD : 0 < r.dataShards)
    (hS : r.shards = r.dataShards + r.parityShards)
    (hL : 0 < L)
    (hflen : full.length = r.shards)
    (hfall : ∀ s ∈ full, s.length = L)
    (hfenc : ∀ p, p < r.parityShards → full.getD (r.dataShards + p) [] =
      rowEnc r.parity (full.take r.dataShards) r.dataShards p L)
    (hlen2 : shards2.length = r.shards)
    (hdata2 : ∀ i, i < r.dataShards → shards2.getD i [] = full.getD i [])
    (hpar2 : ∀ i, r.dataShards ≤ i → i < r.shards →
      (shards2.getD i []).length ≠ 0 → shards2.getD i [] = full.getD i []) :
    parityPhase r shards2 L = full := by
  rw [parityPhase]
  have hfL : ∀ i, i < r.shards → (full.getD i []).length = L :=
    fun i hi => uniform_getD_len hfall (by omega)
  set mp := (List.range' r.dataShards r.parityShards).filter fun i =>
    decide ((shards2.getD i []).length = 0) with hmp
  have hmp_mem : ∀ x ∈ mp, r.dataShards ≤ x ∧ x < r.shards ∧
      (shards2.getD x []).length = 0 := by
    intro x hx
    rw [hmp] at hx
    have h1 := List.mem_range'_1.mp (List.mem_of_mem_filter hx)
    have h2 := List.of_mem_filter hx
    exact ⟨h1.1, by omega, by simpa using h2⟩
  have hmp_nd : mp.Nodup := by
    have hpw : mp.Pairwise (· < ·) :=
      (List.pairwise_lt_range' _ _ 1 (by omega)).sublist (List.filter_sublist _)
    exact hpw.imp Nat.ne_of_lt
  have hin2 : ∀ c, c < r.dataShards →
      ((shards2.take r.dataShards).getD c []).length = L := by
    intro c hc
    rw [getD_take _ _ hc, hdata2 c hc]
    exact hfL c (by omega)
  have houts_len : (codeSomeShards r.dataShards
      (mp.map fun i => r.parity.getD (i - r.dataShards) [])
      (shards2.take r.dataShards)
      (mp.map fun _ => List.replicate L (0 : GF)) mp.length).length = mp.length := by
    rw [codeSomeShards_length, List.length_map]
  have houts : ∀ k, (hk : k < mp.length) →
      (codeSomeShards r.dataShards
        (mp.map fun i => r.parity.getD (i - r.dataShards) [])
        (shards2.take r.dataShards)
        (mp.map fun _ => List.replicate L (0 : GF)) mp.length).getD k [] =
      full.getD mp[k] [] := by
    intro k hk
    have hkmem : mp[k] ∈ mp := List.getElem_mem hk
    obtain ⟨hge, hlt, _⟩ := hmp_mem _ hkmem
    have hp : mp[k] - r.dataShards < r.parityShards := by omega
    rw [codeSomeShards_getD hD _ _ hin2 hk (by rw [List.length_map]; exact hk)
      (by rw [getD_map_lt _ _ _ hk, List.length_replicate])]
    rw [rowEnc_congr_row _ r.parity _ _ _ (mp[k] - r.dataShards) _
      (getD_map_lt _ _ _ hk)]
    rw [rowEnc_congr_inputs r.parity (shards2.take r.dataShards)
      (full.take r.dataShards) r.dataShards (mp[k] - r.dataShards) L
      (fun c hc => by rw [getD_take _ _ hc, getD_take _ _ hc, hdata2 c hc])]
    rw [← hfenc _ hp]
    congr 1
    omega
  apply list_ext_getD _ _ [] (by rw [writeBack_length, hlen2, hflen])
  intro i hi
  rw [writeBack_length, hlen2] at hi
  by_cases hmem : i ∈ mp
  · obtain ⟨k, hk, hEq⟩ := List.mem_iff_getElem.mp hmem
    rw [← hEq,
      writeBack_getD_mem mp _ _ hk hmp_nd (by rw [houts_len]; exact hk)
        (by rw [hlen2]; exact (hmp_mem _ (List.getElem_mem hk)).2.1)]
    exact houts k hk
  · rw [writeBack_getD_not_mem mp _ _ hmem]
    by_cases hiD : i < r.dataShards
    · exact hdata2 i hiD
    · have hne : (shards2.getD i []).length ≠ 0 := by
        intro h0
        exact hmem (List.mem_filter.mpr ⟨List.mem_range'_1.mpr ⟨by omega, by omega⟩,
          by simpa using h0⟩)
      exact hpar2 i (by omega) hi hne

theorem dataPhase_ok {r : RS} {full shards subShards : List shard}
    {dm : gmatrix} {L : Nat}
    (hD : 0 < r.dataShards)
    (hDS : r.dataShards ≤ r.shards)
    (hlen : shards.length = r.shards)
    (hpres_full : ∀ i, i < r.shards → (shards.getD i []).length ≠ 0 →
      shards.getD i [] = full.getD i [])
    (hin : ∀ c, c < r.dataShards → (subShards.getD c []).length = L)
    (hdec : ∀ j, j < r.dataShards → (shards.getD j []).length = 0 →
      rowEnc dm subShards r.dataShards j L = full.getD j []) :
    (dataPhase r shards subShards dm L).length = r.shards ∧
    (∀ i, i < r.dataShards →
      (dataPhase r shards subShards dm L).getD i [] = full.getD i []) ∧
    (∀ i, r.dataShards ≤ i →
      (dataPhase r shards subShards dm L).getD i [] = shards.getD i []) := by
  rw [dataPhase]
  set md := (List.range r.dataShards).filter fun i =>
    decide ((shards.getD i []).length = 0) with hmd
  have hmd_mem : ∀ x ∈ md, x < r.dataShards ∧ (shards.getD x []).length = 0 := by
    intro x hx
    rw [hmd] at hx
    exact ⟨List.mem_range.mp (List.mem_of_mem_filter hx),
      by simpa using List.of_mem_filter hx⟩
  have hmd_nd : md.Nodup :=
    ((List.pairwise_lt_range _).sublist (List.filter_sublist _)).imp Nat.ne_of_lt
  have houts_len : (codeSomeShards r.dataShards (md.map fun i => dm.getD i [])
      subShards (md.map fun _ => List.replicate L (0 : GF)) md.length).length =
      md.length := by
    rw [codeSomeShards_length, List.length_map]
  have houts : ∀ k, (hk : k < md.length) →
      (codeSomeShards r.dataShards (md.map fun i => dm.getD i [])
        subShards (md.map fun _ => List.replicate L (0 : GF)) md.length).getD k [] =
      full.getD md[k] [] := by
    intro k hk
    obtain ⟨hkD, hk0⟩ := hmd_mem _ (List.getElem_mem hk)
    rw [codeSomeShards_getD hD _ _ hin hk (by rw [List.length_map]; exact hk)
      (by rw [getD_map_lt _ _ _ hk, List.length_replicate]),
      rowEnc_congr_row _ dm _ _ _ md[k] _ (getD_map_lt _ _ _ hk)]
    exact hdec md[k] hkD hk0
  refine ⟨by rw [writeBack_length, hlen], ?_, ?_⟩
  · intro i hi
    by_cases hmem : i ∈ md
    · obtain ⟨k, hk, hEq⟩ := List.mem_iff_getElem.mp hmem
      rw [← hEq,
        writeBack_getD_mem md _ _ hk hmd_nd (by rw [houts_len]; exact hk)
          (by rw [hlen]; exact (hmd_mem _ (List.getElem_mem hk)).1.trans_le hDS)]
      exact houts k hk
    · rw [writeBack_getD_not_mem md _ _ hmem]
      have hne : (shards.getD i []).length ≠ 0 := by
        intro h0
        exact hmem (List.mem_filter.mpr
          ⟨List.mem_range.mpr hi, by simpa using h0⟩)
      exact hpres_full i (by omega) hne
  · intro i hi
    rw [writeBack_getD_not_mem md _ _ (fun hmem => by
      have := (hmd_mem _ hmem).1
      omega)]

theorem decodeMatrixFor_ok {r : RS} {full shards : List shard} {L : Nat}
    (hD : 0 < r.dataShards)
    (hS : r.shards = r.dataShards + r.parityShards)
    (hTree : r.tree = newInversionTree r.dataShards r.parityShards)
    (hMId : ∀ i j, i < r.dataShards → j < r.dataShards →
      mget r.m i j = if i = j then 1 else 0)
    (hMDS : ∀ f : Fin r.dataShards → Fin r.shards, Function.Injective f →
      IsUnit (Matrix.of fun i j : Fin r.dataShards => mget r.m (f i).1 j.1))
    (hParity : ∀ p, p < r.parityShards →
      r.parity.getD p [] = r.m.getD (r.dataShards + p) [])
    (hfall : ∀ s ∈ full, s.length = L)
    (hflen : full.length = r.shards)
    (hfenc : ∀ p, p < r.parityShards → full.getD (r.dataShards + p) [] =
      rowEnc r.parity (full.take r.dataShards) r.dataShards p L)
    (hlen : shards.length = r.shards)
    (hpres_full : ∀ i, i < r.shards → (shards.getD i []).length ≠ 0 →
      shards.getD i [] = full.getD i [])
    (hnum : r.dataShards ≤ ((List.range r.shards).filter fun i =>
      decide ((shards.getD i []).length ≠ 0)).length) :
    ∃ dm0, decodeMatrixFor r (gatherIndices shards r.shards r.dataShards).1
        (gatherIndices shards r.shards r.dataShards).2 = .ok dm0 ∧
      ∀ j, j < r.dataShards → (shards.getD j []).length = 0 →
        rowEnc dm0 ((gatherIndices shards r.shards r.dataShards).1.map fun i =>
          shards.getD i []) r.dataShards j L = full.getD j [] := by
  have hfL : ∀ i, i < r.shards → (full.getD i []).length = L :=
    fun i hi => uniform_getD_len hfall (by omega)
  have hvlen : (gatherIndices shards r.shards r.dataShards).1.length =
      r.dataShards := gatherIndices_fst_length hnum
  have hvmem : ∀ v ∈ (gatherIndices shards r.shards r.dataShards).1,
      v < r.shards ∧ (shards.getD v []).length ≠ 0 :=
    fun v hv => gatherIndices_fst_mem hv
  have hsub_full : ∀ v, v < r.dataShards →
      (((gatherIndices shards r.shards r.dataShards).1.map fun i =>
        shards.getD i []).getD v []) =
      full.getD ((gatherIndices shards r.shards r.dataShards).1.getD v 0) [] := by
    intro v hv
    have hvl : v < (gatherIndices shards r.shards r.dataShards).1.length := by omega
    rw [getD_map_lt _ _ _ hvl, getD_of_lt _ _ hvl]
    have hm := hvmem _ (List.getElem_mem hvl)
    exact hpres_full _ hm.1 hm.2
  by_cases hinv : (gatherIndices shards r.shards r.dataShards).2 = []
  · refine ⟨identityMatrix r.dataShards, ?_, ?_⟩
    · have hGet : getInvertedMatrix r.tree
          (gatherIndices shards r.shards r.dataShards).2 =
          some (identityMatrix r.dataShards) := by
        rw [hTree, hinv]
        rfl
      rw [decodeMatrixFor, hGet]
    · intro j hj h0
      exact absurd (gatherIndices_mem_snd shards r.dataShards hj h0 r.shards
        (by omega)) (by rw [hinv]; exact List.not_mem_nil j)
  · have hGet : getInvertedMatrix r.tree
        (gatherIndices shards r.shards r.dataShards).2 = none := by
      rw [hTree, getInvertedMatrix,
        if_neg (by simpa [List.isEmpty_iff] using hinv)]
      rfl
    have hSubWF : WF ((gatherIndices shards r.shards r.dataShards).1.map fun v =>
        (List.range r.dataShards).map fun c => mget r.m v c)
        r.dataShards r.dataShards := by
      constructor
      · rw [List.length_map, hvlen]
      · intro row hrow
        obtain ⟨v, _, rfl⟩ := List.mem_map.mp hrow
        simp
    have hSubMat : toMat ((gatherIndices shards r.shards r.dataShards).1.map
        fun v => (List.range r.dataShards).map fun c => mget r.m v c)
        r.dataShards r.dataShards =
        Matrix.of fun v c : Fin r.dataShards =>
          mget r.m ((gatherIndices shards r.shards r.dataShards).1.getD v.1 0)
            c.1 := by
      apply Matrix.ext
      intro v c
      rw [toMat_apply, Matrix.of_apply,
        mget_of_map_range _ _ _ (by rw [hvlen]; exact v.2) c.2,
        getD_of_lt _ _ (by rw [hvlen]; exact v.2)]
    have hpw := gatherIndices_fst_pairwise shards r.shards r.dataShards
    have hget_mono := List.pairwise_iff_getElem.mp hpw
    have hUnit : IsUnit (toMat
        ((gatherIndices shards r.shards r.dataShards).1.map fun v =>
          (List.range r.dataShards).map fun c => mget r.m v c)
        r.dataShards r.dataShards) := by
      rw [hSubMat]
      refine hMDS (fun v => ⟨(gatherIndices shards r.shards r.dataShards).1.getD
        v.1 0, ?_⟩) ?_
      · have hvl : v.1 < (gatherIndices shards r.shards r.dataShards).1.length :=
          by omega
        rw [getD_of_lt _ _ hvl]
        exact (hvmem _ (List.getElem_mem hvl)).1
      · intro a b hab
        have hval : (gatherIndices shards r.shards r.dataShards).1.getD a.1 0 =
            (gatherIndices shards r.shards r.dataShards).1.getD b.1 0 := by
          rw [Fin.ext_iff] at hab
          exact hab
        have hal : a.1 < (gatherIndices shards r.shards r.dataShards).1.length :=
          by omega
        have hbl : b.1 < (gatherIndices shards r.shards r.dataShards).1.length :=
          by omega
        rw [getD_of_lt _ _ hal, getD_of_lt _ _ hbl] at hval
        rcases Nat.lt_trichotomy a.1 b.1 with hlt | heq | hgt
        · exact absurd hval (Nat.ne_of_lt (hget_mono _ _ hal hbl hlt))
        · exact Fin.ext heq
        · exact absurd hval.symm (Nat.ne_of_lt (hget_mono _ _ hbl hal hgt))
    obtain ⟨dm, hdmok⟩ := Invert_complete hD hSubWF hUnit
    obtain ⟨hdmWF, hdmInv⟩ := Invert_sound hD hSubWF hdmok
    have hsnd := (gatherIndices_spec shards r.dataShards r.shards).2
    have hsnd_nd : (gatherIndices shards r.shards r.dataShards).2.Nodup :=
      hsnd.1.imp Nat.ne_of_lt
    have hIns : insertInvertedMatrix r.tree
        (gatherIndices shards r.shards r.dataShards).2 dm r.shards =
        .ok ⟨r.tree.dataShards, r.tree.parityShards,
          ((gatherIndices shards r.shards r.dataShards).2, dm) ::
            r.tree.cache⟩ := by
      rw [insertInvertedMatrix,
        if_neg (by simpa [List.isEmpty_iff] using hinv),
        if_neg (not_not_intro (List.all_eq_true.mpr fun x hx =>
          decide_eq_true (hsnd.2 x hx).1)),
        if_neg ?hlenb]
      case hlenb =>
        have hnd_app : ((gatherIndices shards r.shards r.dataShards).2 ++
            ((List.range r.shards).filter fun i =>
              decide ((shards.getD i []).length ≠ 0))).Nodup := by
          rw [List.nodup_append]
          refine ⟨hsnd_nd,
            ((List.pairwise_lt_range _).sublist
              (List.filter_sublist _)).imp Nat.ne_of_lt, ?_⟩
          intro x hx hx2
          have h0 := (hsnd.2 x hx).2
          have hp := List.of_mem_filter hx2
          rw [h0] at hp
          simp at hp
        have hsub_app : ((gatherIndices shards r.shards r.dataShards).2 ++
            ((List.range r.shards).filter fun i =>
              decide ((shards.getD i []).length ≠ 0))) ⊆
            List.range r.shards := by
          intro x hx
          rcases List.mem_append.mp hx with hx1 | hx2
          · exact List.mem_range.mpr (hsnd.2 x hx1).1
          · exact List.mem_of_mem_filter hx2
        have hle := (hnd_app.subperm hsub_app).length_le
        rw [List.length_append, List.length_range] at hle
        have htp : r.tree.parityShards = r.parityShards := by rw [hTree]; rfl
        rw [htp]
        omega
    refine ⟨dm, ?_, ?_⟩
    · rw [decodeMatrixFor, hGet]
      show (Invert ((gatherIndices shards r.shards r.dataShards).1.map fun v =>
          (List.range r.dataShards).map fun c => mget r.m v c) >>= fun dm =>
        insertInvertedMatrix r.tree
          (gatherIndices shards r.shards r.dataShards).2 dm r.shards >>=
          fun _ => Except.ok dm) = Except.ok dm
      simp only [hdmok, except_bind_ok, hIns]
    · intro j hj h0
      have hflj : (full.getD j []).length = L := hfL j (by omega)
      apply list_ext_getD _ _ 0 (by rw [rowEnc_length, hflj])
      intro b hb
      rw [rowEnc_length] at hb
      rw [rowEnc_getD _ _ _ _ _ hb]
      have hsum : ((List.range r.dataShards).map fun v =>
          mget dm j v * mget ((gatherIndices shards r.shards r.dataShards).1.map
            fun i => shards.getD i []) v b) =
          (List.range r.dataShards).map fun v =>
            mget dm j v * mget full
              ((gatherIndices shards r.shards r.dataShards).1.getD v 0) b := by
        refine List.map_congr_left fun v hv => ?_
        congr 1
        rw [mget, mget, hsub_full v (List.mem_range.mp hv)]
      rw [hsum, decode_row hS hMId hParity hfenc (fun v hv => (hvmem v hv).1)
        (by omega) (by rw [← hSubMat]; exact hdmInv) hj hb]
      rfl

theorem reconstruct_restores {r : RS} {full shards : List shard} {L : Nat}
    (hD : 0 < r.dataShards)
    (hS : r.shards = r.dataShards + r.parityShards)
    (hTree : r.tree = newInversionTree r.dataShards r.parityShards)
    (hMId : ∀ i j, i < r.dataShards → j < r.dataShards →
      mget r.m i j = if i = j then 1 else 0)
    (hMDS : ∀ f : Fin r.dataShards → Fin r.shards, Function.Injective f →
      IsUnit (Matrix.of fun i j : Fin r.dataShards => mget r.m (f i).1 j.1))
    (hParity : ∀ p, p < r.parityShards →
      r.parity.getD p [] = r.m.getD (r.dataShards + p) [])
    (hL : 0 < L)
    (hflen : full.length = r.shards)
    (hfall : ∀ s ∈ full, s.length = L)
    (hfenc : ∀ p, p < r.parityShards → full.getD (r.dataShards + p) [] =
      rowEnc r.parity (full.take r.dataShards) r.dataShards p L)
    (hlen : shards.length = r.shards)
    (herase : ∀ i, i < r.shards →
      shards.getD i [] = full.getD i [] ∨ shards.getD i [] = [])
    (hnum : r.dataShards ≤ ((List.range r.shards).filter fun i =>
      decide ((shards.getD i []).length ≠ 0)).length) :
    Reconstruct r shards = .ok full := by
  have hfL : ∀ i, i < r.shards → (full.getD i []).length = L :=
    fun i hi => uniform_getD_len hfall (by omega)
  have hpres_full : ∀ i, i < r.shards → (shards.getD i []).length ≠ 0 →
      shards.getD i [] = full.getD i [] := by
    intro i hi hne
    rcases herase i hi with h | h
    · exact h
    · rw [h] at hne
      simp at hne
  have hrows : ∀ s ∈ shards, s.length = 0 ∨ s.length = L := by
    intro s hs
    obtain ⟨i, hi, hEq⟩ := List.mem_iff_getElem.mp hs
    subst hEq
    have hiS : i < r.shards := by omega
    by_cases hne : (shards.getD i []).length ≠ 0
    · right
      rw [← getD_of_lt _ ([] : shard) hi, hpres_full i hiS hne]
      exact hfL i hiS
    · left
      rw [← getD_of_lt _ ([] : shard) hi]
      omega
  have hex : ∃ s ∈ shards, s.length ≠ 0 := by
    have hne : ((List.range r.shards).filter fun i =>
        decide ((shards.getD i []).length ≠ 0)) ≠ [] := by
      intro h0
      rw [h0] at hnum
      simp at hnum
      omega
    obtain ⟨x, hx⟩ := List.exists_mem_of_ne_nil _ hne
    have hxr := List.mem_range.mp (List.mem_of_mem_filter hx)
    have hxp := List.of_mem_filter hx
    refine ⟨shards.getD x [], ?_, by simpa using hxp⟩
    rw [getD_of_lt _ _ (by omega)]
    exact List.getElem_mem _
  have hsize : shardSize shards = L := shardSize_eq hL hrows hex
  have hchk : checkShards shards true = .ok () :=
    checkShards_ok hL hsize (fun s hs => (hrows s hs).elim
      (fun h0 => Or.inr ⟨h0, rfl⟩) Or.inl)
  rw [Reconstruct, reconstruct, if_neg (by omega), hchk, except_bind_ok]
  by_cases hfast : ((List.range r.shards).filter fun i =>
      decide ((shards.getD i []).length ≠ 0)).length = r.shards
  · have hsf : shards = full := by
      apply list_ext_getD _ _ [] (by rw [hlen, hflen])
      intro i hi
      rw [hlen] at hi
      exact hpres_full i hi (all_present_of_count hfast i hi)
    rw [if_pos (Or.inl hfast)]
    exact congrArg Except.ok hsf
  · rw [if_neg (fun hc => hc.elim hfast
      (fun hc2 => absurd hc2.1 (by simp))),
      if_neg (by omega)]
    obtain ⟨dm0, hdmok0, hdec0⟩ := decodeMatrixFor_ok hD hS hTree hMId hMDS
      hParity hfall hflen hfenc hlen hpres_full hnum
    rw [hdmok0, except_bind_ok, if_neg (by simp), hsize]
    have hin : ∀ c, c < r.dataShards →
        (((gatherIndices shards r.shards r.dataShards).1.map fun i =>
          shards.getD i []).getD c []).length = L := by
      intro c hc
      have hcl : c < (gatherIndices shards r.shards r.dataShards).1.length := by
        rw [gatherIndices_fst_length hnum]
        omega
      rw [getD_map_lt _ _ _ hcl]
      have hm := gatherIndices_fst_mem (List.getElem_mem hcl)
      rw [hpres_full _ hm.1 hm.2]
      exact hfL _ hm.1
    obtain ⟨hdp_len, hdp_data, hdp_frame⟩ := @dataPhase_ok _ full _ _ _ _ hD
      (by omega) hlen hpres_full hin hdec0
    refine congrArg Except.ok (parityPhase_restores hD hS hL hflen hfall hfenc
      hdp_len hdp_data ?_)
    intro i hge hi hne
    rw [hdp_frame i hge] at hne ⊢
    exact hpres_full i hi hne

/-! ### The data-only frame property -/

theorem reconstructData_frame {r : RS} {shards out : List shard}
    (h : ReconstructData r shards = .ok out) :
    out.length = shards.length ∧
    ∀ i, r.dataShards ≤ i → out.getD i [] = shards.getD i [] := by
  rw [ReconstructData, reconstruct] at h
  by_cases h1 : shards.length ≠ r.shards
  · rw [if_pos h1] at h
    exact Except.noConfusion h
  · rw [if_neg h1] at h
    obtain ⟨u, _, h⟩ := bind_ok_elim h
    by_cases h2 : ((List.range r.shards).filter fun i =>
        (shards.getD i []).length ≠ 0).length = r.shards ∨
        ((true : Bool) ∧ ((List.range r.dataShards).filter fun i =>
          (shards.getD i []).length ≠ 0).length = r.dataShards)
    · rw [if_pos h2] at h
      injection h with h3
      subst h3
      exact ⟨rfl, fun _ _ => rfl⟩
    · rw [if_neg h2] at h
      by_cases h3 : ((List.range r.shards).filter fun i =>
          (shards.getD i []).length ≠ 0).length < r.dataShards
      · rw [if_pos h3] at h
        exact Except.noConfusion h
      · rw [if_neg h3] at h
        obtain ⟨dm, _, h⟩ := bind_ok_elim h
        rw [if_pos rfl] at h
        injection h with h4
        subst h4
        refine ⟨by rw [dataPhase, writeBack_length], ?_⟩
        intro i hge
        rw [dataPhase, writeBack_getD_not_mem _ _ _ (fun hmem => ?_)]
        have := List.mem_range.mp (List.mem_of_mem_filter hmem)
        omega

/-! ### Split and Join -/

theorem joinScan_ok (outSize : Nat) : ∀ (ls : List shard) (size : Nat),
    (∀ s ∈ ls, s.length ≠ 0) →
    outSize ≤ size + (ls.map List.length).sum →
    joinScan outSize ls size = .ok () := by
  intro ls
  induction ls with
  | nil =>
    intro size _ hb
    simp only [List.map_nil, List.sum_nil] at hb
    simp only [joinScan]
    rw [if_neg (by omega)]
  | cons s rest ih =>
    intro size hne hb
    simp only [joinScan]
    rw [if_neg (hne s (by simp))]
    by_cases hbreak : outSize ≤ size + s.length
    · rw [if_pos hbreak]
    · rw [if_neg hbreak]
      refine ih _ (fun t ht => hne t (by simp [ht])) ?_
      simp only [List.map_cons, List.sum_cons] at hb
      omega

theorem joinScan_reconstructRequired (outSize : Nat) :
    ∀ (ls : List shard) (size k : Nat), k < ls.length →
    (∀ j, j < k → (ls.getD j []).length ≠ 0) →
    (ls.getD k []).length = 0 →
    size + ((ls.take k).map List.length).sum < outSize →
    joinScan outSize ls size = .error .reconstructRequired := by
  intro ls
  induction ls with
  | nil => intro size k hk; simp at hk
  | cons s rest ih =>
    intro size k hk hprev h0 hb
    simp only [joinScan]
    cases k with
    | zero =>
      rw [if_pos (by simpa using h0)]
    | succ k =>
      have hsne : s.length ≠ 0 := hprev 0 (by omega)
      rw [if_neg hsne]
      simp only [List.take_succ_cons, List.map_cons, List.sum_cons] at hb
      rw [if_neg (by omega)]
      refine ih (size + s.length) k (by simpa using hk)
        (fun j hj => hprev (j + 1) (by omega)) (by simpa using h0) (by omega)

theorem joinScan_shortData (outSize : Nat) : ∀ (ls : List shard) (size : Nat),
    (∀ s ∈ ls, s.length ≠ 0) →
    size + (ls.map List.length).sum < outSize →
    joinScan outSize ls size = .error .shortData := by
  intro ls
  induction ls with
  | nil =>
    intro size _ hb
    simp only [List.map_nil, List.sum_nil] at hb
    simp only [joinScan]
    rw [if_pos (by omega)]
  | cons s rest ih =>
    intro size hne hb
    simp only [List.map_cons, List.sum_cons] at hb
    simp only [joinScan]
    rw [if_neg (hne s (by simp)), if_neg (by omega)]
    exact ih _ (fun t ht => hne t (by simp [ht])) (by omega)

theorem joinCopy_slices : ∀ (n : Nat) (l : List GF) (per w : Nat), 0 < per →
    w ≤ n * per → n * per ≤ l.length →
    joinCopy ((List.range n).map fun i => (l.drop (i * per)).take per) w =
      l.take w := by
  intro n
  induction n with
  | zero =>
    intro l per w _ hw _
    obtain rfl : w = 0 := by omega
    rfl
  | succ n ih =>
    intro l per w hper hw hlen
    have hperlen : per ≤ l.length := by
      have : per ≤ (n + 1) * per := by
        calc per = 1 * per := (one_mul per).symm
        _ ≤ (n + 1) * per := Nat.mul_le_mul_right per (by omega)
      omega
    have hmap : ((List.range (n + 1)).map fun i => (l.drop (i * per)).take per) =
        l.take per :: ((List.range n).map fun i =>
          ((l.drop per).drop (i * per)).take per) := by
      rw [List.range_succ_eq_map, List.map_cons, List.map_map]
      congr 1
      · rw [Nat.zero_mul, List.drop_zero]
      · refine List.map_congr_left fun i _ => ?_
        show (l.drop (Nat.succ i * per)).take per =
          ((l.drop per).drop (i * per)).take per
        rw [List.drop_drop, Nat.succ_mul, Nat.add_comm]
    rw [hmap]
    simp only [joinCopy]
    have hslen : (l.take per).length = per := by
      rw [List.length_take]
      omega
    by_cases hwp : w < per
    · rw [if_pos (by rw [hslen]; exact hwp), List.take_take]
      congr 1
      omega
    · rw [if_neg (by rw [hslen]; omega), hslen,
        ih (l.drop per) per (w - per) hper
          (by rw [Nat.succ_mul] at hw; omega)
          (by rw [List.length_drop]; rw [Nat.succ_mul] at hlen; omega),
        ← List.take_add]
      congr 1
      omega

theorem splitBuffer_length {r : RS} (data spare : List GF) :
    r.shards * ((data.length + r.dataShards - 1) / r.dataShards) ≤
      (splitBuffer r data spare).length := by
  rw [splitBuffer]
  by_cases h : (data ++ spare).length <
      r.shards * ((data.length + r.dataShards - 1) / r.dataShards)
  · rw [if_pos h]
    rw [List.length_append, List.length_replicate]
    omega
  · rw [if_neg h]
    omega

theorem splitBuffer_eq_append {r : RS} (data spare : List GF) :
    ∃ rest, splitBuffer r data spare = data ++ rest := by
  rw [splitBuffer]
  by_cases h : (data ++ spare).length <
      r.shards * ((data.length + r.dataShards - 1) / r.dataShards)
  · rw [if_pos h]
    exact ⟨_, (List.append_assoc _ _ _)⟩
  · rw [if_neg h]
    exact ⟨spare, rfl⟩

theorem perShard_covers {len D : Nat} (hD : 0 < D) (hlen : 0 < len) :
    0 < (len + D - 1) / D ∧ len ≤ D * ((len + D - 1) / D) := by
  have hdm := Nat.div_add_mod (len + D - 1) D
  have hmod : (len + D - 1) % D ≤ D - 1 :=
    Nat.le_sub_one_of_lt (Nat.mod_lt _ hD)
  constructor
  · rcases Nat.eq_zero_or_pos ((len + D - 1) / D) with hq | hq
    · rw [hq, Nat.mul_zero, Nat.zero_add] at hdm
      omega
    · exact hq
  · have h1 : len + D - 1 ≤ D * ((len + D - 1) / D) + (D - 1) := by
      calc len + D - 1
          = D * ((len + D - 1) / D) + (len + D - 1) % D := hdm.symm
        _ ≤ D * ((len + D - 1) / D) + (D - 1) := Nat.add_le_add_left hmod _
    have h2 : len + (D - 1) = len + D - 1 := by omega
    have h3 : len + (D - 1) ≤ D * ((len + D - 1) / D) + (D - 1) := by
      rw [h2]
      exact h1
    exact Nat.le_of_add_le_add_right h3

theorem split_join {r : RS} {data spare : List GF}
    (hD : 0 < r.dataShards) (hDS : r.dataShards ≤ r.shards)
    (hne : 0 < data.length) :
    ∃ sh, Split r data spare = .ok sh ∧ sh.length = r.shards ∧
      Join r sh data.length = .ok data := by
  obtain ⟨hperpos, hcover⟩ := perShard_covers hD hne (D := r.dataShards)
  obtain ⟨rest, hbufeq⟩ := splitBuffer_eq_append (r := r) data spare
  have hbuflen := splitBuffer_length (r := r) data spare
  refine ⟨_, by rw [Split, if_neg (by omega)], by
    rw [List.length_map, List.length_range], ?_⟩
  rw [Join, if_neg (by rw [List.length_map, List.length_range]; omega)]
  have htake : ((List.range r.shards).map fun i =>
      ((splitBuffer r data spare).drop
        (i * ((data.length + r.dataShards - 1) / r.dataShards))).take
        ((data.length + r.dataShards - 1) / r.dataShards)).take r.dataShards =
      (List.range r.dataShards).map fun i =>
        ((splitBuffer r data spare).drop
          (i * ((data.length + r.dataShards - 1) / r.dataShards))).take
          ((data.length + r.dataShards - 1) / r.dataShards) := by
    rw [← List.map_take, List.take_range, Nat.min_eq_left hDS]
  rw [htake]
  have hlens : ∀ i, i < r.dataShards →
      (((splitBuffer r data spare).drop
        (i * ((data.length + r.dataShards - 1) / r.dataShards))).take
        ((data.length + r.dataShards - 1) / r.dataShards)).length =
      (data.length + r.dataShards - 1) / r.dataShards := by
    intro i hi
    rw [List.length_take, List.length_drop]
    have hmul : (i + 1) * ((data.length + r.dataShards - 1) / r.dataShards) ≤
        r.shards * ((data.length + r.dataShards - 1) / r.dataShards) :=
      Nat.mul_le_mul_right _ (by omega)
    rw [Nat.add_mul, Nat.one_mul] at hmul
    omega
  have hsum : (((List.range r.dataShards).map fun i =>
      ((splitBuffer r data spare).drop
        (i * ((data.length + r.dataShards - 1) / r.dataShards))).take
        ((data.length + r.dataShards - 1) / r.dataShards)).map List.length).sum =
      r.dataShards * ((data.length + r.dataShards - 1) / r.dataShards) := by
    rw [List.map_map]
    rw [show (List.map (List.length ∘ fun i =>
        ((splitBuffer r data spare).drop
          (i * ((data.length + r.dataShards - 1) / r.dataShards))).take
          ((data.length + r.dataShards - 1) / r.dataShards))
        (List.range r.dataShards)) =
      List.map (fun _ => (data.length + r.dataShards - 1) / r.dataShards)
        (List.range r.dataShards) from
      List.map_congr_left fun i hi => hlens i (List.mem_range.mp hi)]
    rw [List.map_const', List.sum_replicate, smul_eq_mul, List.length_range]
  have hscan : joinScan data.length ((List.range r.dataShards).map fun i =>
      ((splitBuffer r data spare).drop
        (i * ((data.length + r.dataShards - 1) / r.dataShards))).take
        ((data.length + r.dataShards - 1) / r.dataShards)) 0 = .ok () := by
    refine joinScan_ok _ _ 0 ?_ ?_
    · intro s hs
      obtain ⟨i, hi, rfl⟩ := List.mem_map.mp hs
      rw [hlens i (List.mem_range.mp hi)]
      omega
    · rw [hsum]
      omega
  rw [hscan, except_bind_ok,
    joinCopy_slices r.dataShards (splitBuffer r data spare) _ data.length
      hperpos (by omega)
      (by calc r.dataShards * ((data.length + r.dataShards - 1) / r.dataShards)
            ≤ r.shards * ((data.length + r.dataShards - 1) / r.dataShards) :=
            Nat.mul_le_mul_right _ hDS
          _ ≤ (splitBuffer r data spare).length := hbuflen),
    hbufeq, List.take_left]

/-! ### Error contracts of reconstruct and SplitMulti -/

theorem reconstruct_tooFew {r : RS} {shards : List shard} {L : Nat} (b : Bool)
    (hDS : r.dataShards ≤ r.shards)
    (hlen : shards.length = r.shards) (hL : 0 < L)
    (hrows : ∀ s ∈ shards, s.length = 0 ∨ s.length = L)
    (hex : ∃ s ∈ shards, s.length ≠ 0)
    (hcount : ((List.range r.shards).filter fun i =>
      decide ((shards.getD i []).length ≠ 0)).length < r.dataShards) :
    reconstruct r shards b = .error .tooFewShards := by
  have hsize := shardSize_eq hL hrows hex
  have hchk : checkShards shards true = .ok () :=
    checkShards_ok hL hsize (fun s hs => (hrows s hs).elim
      (fun h0 => Or.inr ⟨h0, rfl⟩) Or.inl)
  have hmono : ((List.range r.dataShards).filter fun i =>
      decide ((shards.getD i []).length ≠ 0)).length ≤
      ((List.range r.shards).filter fun i =>
        decide ((shards.getD i []).length ≠ 0)).length := by
    have hrng : List.range r.dataShards = (List.range r.shards).take r.dataShards := by
      rw [List.take_range, Nat.min_eq_left hDS]
    rw [hrng]
    exact ((List.take_sublist _ _).filter _).length_le
  rw [reconstruct, if_neg (by omega), hchk, except_bind_ok,
    if_neg ?hor, if_pos hcount]
  case hor =>
    rintro (hc | ⟨hb2, hc2⟩)
    · omega
    · omega

theorem splitMulti_capacity {r : RS} {data : List GF} {shards : List shard}
    {subsize : Nat}
    (h : ¬ ∀ s ∈ shards, (data.length / (r.dataShards * subsize) +
      (if data.length % (r.dataShards * subsize) ≠ 0 then 1 else 0)) *
        subsize ≤ s.length) :
    SplitMulti r data shards subsize = .error .shardCapacity := by
  simp only [SplitMulti]
  rw [if_pos]
  intro hall
  exact h fun s hs => of_decide_eq_true (List.all_eq_true.mp hall s hs)

theorem splitMulti_ok {r : RS} {data : List GF} {shards : List shard}
    {subsize : Nat}
    (h : ∀ s ∈ shards, (data.length / (r.dataShards * subsize) +
      (if data.length % (r.dataShards * subsize) ≠ 0 then 1 else 0)) *
        subsize ≤ s.length) :
    ∃ out, SplitMulti r data shards subsize = .ok out ∧
      out.length = shards.length := by
  simp only [SplitMulti]
  rw [if_neg (not_not_intro (List.all_eq_true.mpr fun s hs =>
    decide_eq_true (h s hs)))]
  exact ⟨_, rfl, by rw [List.length_map, List.length_range, List.length_map]⟩

/-! ### Erasing shards -/

/-- Replace the shards at the given indices by empty shards (the package's
convention for a missing shard). -/
def eraseShards (shards : List shard) (idxs : List Nat) : List shard :=
  idxs.foldl (fun sh i => sh.set i []) shards

theorem eraseShards_length (idxs : List Nat) :
    ∀ (shards : List shard), (eraseShards shards idxs).length = shards.length := by
  induction idxs with
  | nil => intro shards; rfl
  | cons a idxs ih =>
    intro shards
    show (eraseShards (shards.set a []) idxs).length = shards.length
    rw [ih, List.length_set]

theorem eraseShards_getD_not_mem (idxs : List Nat) :
    ∀ (shards : List shard) {i : Nat}, i ∉ idxs →
      (eraseShards shards idxs).getD i [] = shards.getD i [] := by
  induction idxs with
  | nil => intro shards i _; rfl
  | cons a idxs ih =>
    intro shards i hi
    show (eraseShards (shards.set a []) idxs).getD i [] = shards.getD i []
    rw [ih _ (fun hmem => hi (List.mem_cons_of_mem _ hmem)),
      getD_set_list, if_neg (by
        intro hc
        exact hi (hc.1 ▸ List.mem_cons_self a idxs))]

theorem eraseShards_getD_mem (idxs : List Nat) :
    ∀ (shards : List shard) {i : Nat}, i ∈ idxs → i < shards.length →
      (eraseShards shards idxs).getD i [] = [] := by
  induction idxs with
  | nil => intro shards i hi; simp at hi
  | cons a idxs ih =>
    intro shards i hi hlen
    show (eraseShards (shards.set a []) idxs).getD i [] = []
    by_cases hmem : i ∈ idxs
    · exact ih _ hmem (by rw [List.length_set]; exact hlen)
    · have hia : i = a := by
        rcases List.mem_cons.mp hi with h | h
        · exact h
        · exact absurd h hmem
      subst hia
      rw [eraseShards_getD_not_mem idxs _ hmem,
        getD_set_list, if_pos ⟨rfl, hlen⟩]

theorem erase_present_count {full : List shard} {E : List Nat} {L : Nat}
    (hL : 0 < L)
    (hrows : ∀ i, i < full.length → (full.getD i []).length = L) :
    full.length ≤ ((List.range full.length).filter fun i =>
      decide (((eraseShards full E).getD i []).length ≠ 0)).length +
      E.length := by
  have habs_sub : ((List.range full.length).filter fun i =>
      ! decide (((eraseShards full E).getD i []).length ≠ 0)) ⊆ E := by
    intro x hx
    have hxr := List.mem_range.mp (List.mem_of_mem_filter hx)
    have hxp := List.of_mem_filter hx
    by_contra hxE
    rw [eraseShards_getD_not_mem E _ hxE] at hxp
    rw [hrows x hxr] at hxp
    simp at hxp
    omega
  have habs_nd : ((List.range full.length).filter fun i =>
      ! decide (((eraseShards full E).getD i []).length ≠ 0)).Nodup :=
    ((List.pairwise_lt_range _).sublist (List.filter_sublist _)).imp
      Nat.ne_of_lt
  have habs_le := (habs_nd.subperm habs_sub).length_le
  have hcover : List.range full.length ⊆
      (((List.range full.length).filter fun i =>
        decide (((eraseShards full E).getD i []).length ≠ 0)) ++
        ((List.range full.length).filter fun i =>
          ! decide (((eraseShards full E).getD i []).length ≠ 0))) := by
    intro x hx
    by_cases hp : decide (((eraseShards full E).getD x []).length ≠ 0) = true
    · exact List.mem_append_left _ (List.mem_filter.mpr ⟨hx, hp⟩)
    · exact List.mem_append_right _ (List.mem_filter.mpr
        ⟨hx, by simpa using hp⟩)
  have hlen_le := ((List.nodup_range _).subperm hcover).length_le
  rw [List.length_range, List.length_append] at hlen_le
  omega

theorem count_present_eq (l : List shard) :
    ((List.range l.length).filter fun i =>
      decide ((l.getD i []).length ≠ 0)).length =
    (l.filter fun s => decide (s.length ≠ 0)).length := by
  induction l using List.reverseRecOn with
  | nil => rfl
  | append_singleton l a ih =>
    have hlen1 : (l ++ [a]).length = l.length + 1 := by simp
    rw [hlen1, List.range_succ, List.filter_append, List.filter_append,
      List.length_append, List.length_append]
    have hfirst : (List.range l.length).filter (fun i =>
        decide ((((l ++ [a]).getD i []).length ≠ 0))) =
        (List.range l.length).filter (fun i =>
          decide ((l.getD i []).length ≠ 0)) := by
      refine List.filter_congr fun x hx => ?_
      rw [getD_append_left _ _ _ (List.mem_range.mp hx)]
    rw [hfirst, ih]
    have hlast : ((l ++ [a]).getD l.length []) = a := by
      have := getD_append_right l [a] ([] : shard) 0
      rw [Nat.add_zero] at this
      rw [this]
      rfl
    congr 1
    by_cases ha : a.length = 0
    · simp only [List.filter_cons, hlast]
      have hae : a = [] := List.length_eq_zero.mp ha
      simp [hae]
    · simp only [List.filter_cons, hlast]
      have hae : a ≠ [] := fun h => ha (by rw [h]; rfl)
      simp [hae, List.length_eq_zero]

/-! ## The claims

`rs21` is the concrete coder `New 2 1 .default` used by the witnesses. -/

/-- The (2, 1) default coder, as `New` computes it. -/
def rs21 : RS :=
  { dataShards := 2, parityShards := 1, shards := 3,
    m := [[gf 1, gf 0], [gf 0, gf 1], [gf 3, gf 2]],
    tree := ⟨2, 1, []⟩,
    parity := [[gf 3, gf 2]] }

/-- C1: with the default matrix construction, for every valid (D, P), every
uniformly sized shard array whose parity was produced by Encode, and every
set E of at most P shard indices, erasing the shards at E and calling
Reconstruct restores every shard byte-for-byte, and Verify returns true. -/
theorem C1_reconstruct_roundtrip {D P : Nat} {r : RS} {shards0 : List shard}
    {L : Nat} {E : List Nat}
    (hD : 0 < D) (hP : 0 < P) (h256 : D + P ≤ 256)
    (hr : New D P .default = .ok r)
    (hlen0 : shards0.length = D + P) (hL : 0 < L)
    (hall : ∀ s ∈ shards0, s.length = L)
    (hE : E.length ≤ P) :
    ∃ full, Encode r shards0 = .ok full ∧
      Reconstruct r (eraseShards full E) = .ok full ∧
      Verify r full = .ok true := by
  obtain ⟨M, hMok, hWF, hId, hMDS, hNew⟩ := New_default_ok hD hP h256
  rw [hNew] at hr
  injection hr with hr2
  have hfd : r.dataShards = D := by rw [← hr2]
  have hfp : r.parityShards = P := by rw [← hr2]
  have hfs : r.shards = D + P := by rw [← hr2]
  have hfm : r.m = M := by rw [← hr2]
  have hftree : r.tree = newInversionTree r.dataShards r.parityShards := by
    rw [← hr2]
  have hfparity : r.parity = (List.range P).map fun i => M.getD (D + i) [] := by
    rw [← hr2]
  have hS : r.shards = r.dataShards + r.parityShards := by
    rw [hfs, hfd, hfp]
  have hD' : 0 < r.dataShards := by omega
  have hlen0' : shards0.length = r.shards := by rw [hfs]; exact hlen0
  have hEnc := Encode_ok hD' hS hlen0' hL hall
  set full := shards0.take r.dataShards ++
    (List.range r.parityShards).map fun p =>
      rowEnc r.parity (shards0.take r.dataShards) r.dataShards p L with hfull
  have htakelen : (shards0.take r.dataShards).length = r.dataShards := by
    rw [List.length_take]
    omega
  have hflen : full.length = r.shards := by
    rw [hfull, List.length_append, htakelen, List.length_map, List.length_range]
    omega
  have hfall : ∀ s ∈ full, s.length = L := by
    intro s hs
    rcases List.mem_append.mp hs with hs1 | hs2
    · exact hall s ((List.take_sublist _ _).subset hs1)
    · obtain ⟨p, _, rfl⟩ := List.mem_map.mp hs2
      exact rowEnc_length _ _ _ _ _
  have hftake : full.take r.dataShards = shards0.take r.dataShards := by
    rw [hfull, List.take_append_eq_append_take,
      List.take_of_length_le (by omega), htakelen, Nat.sub_self,
      List.take_zero, List.append_nil]
  have hfenc : ∀ p, p < r.parityShards → full.getD (r.dataShards + p) [] =
      rowEnc r.parity (full.take r.dataShards) r.dataShards p L := by
    intro p hp
    rw [hftake, hfull]
    rw [show r.dataShards + p = (shards0.take r.dataShards).length + p from by
      rw [htakelen]]
    rw [getD_append_right, getD_of_lt _ _ (by simpa using hp),
      List.getElem_map, List.getElem_range]
  have hfL : ∀ i, i < full.length → (full.getD i []).length = L :=
    fun i hi => uniform_getD_len hfall hi
  have hcnt := @erase_present_count full E L hL hfL
  rw [hflen] at hcnt
  have hnum : r.dataShards ≤ ((List.range r.shards).filter fun i =>
      decide (((eraseShards full E).getD i []).length ≠ 0)).length := by
    omega
  have hMId : ∀ i j, i < r.dataShards → j < r.dataShards →
      mget r.m i j = if i = j then 1 else 0 := by
    intro i j hi hj
    rw [hfm]
    exact hId i j (by omega) (by omega)
  have hMDS' : ∀ f : Fin r.dataShards → Fin r.shards, Function.Injective f →
      IsUnit (Matrix.of fun i j : Fin r.dataShards =>
        mget r.m (f i).1 j.1) := by
    rw [hfm, hfd, hfs]
    exact hMDS
  have hParity : ∀ p, p < r.parityShards →
      r.parity.getD p [] = r.m.getD (r.dataShards + p) [] := by
    intro p hp
    rw [hfparity, hfm, hfd, parity_row_getD M P D (by omega)]
  refine ⟨full, hEnc, ?_, ?_⟩
  · exact reconstruct_restores hD' hS hftree hMId hMDS' hParity hL hflen hfall
      hfenc (by rw [eraseShards_length, hflen])
      (fun i hi => by
        by_cases hmem : i ∈ E
        · exact Or.inr (eraseShards_getD_mem E _ hmem (by omega))
        · exact Or.inl (eraseShards_getD_not_mem E _ hmem))
      hnum
  · exact (Verify_iff hS (by omega) hflen hL hfall).mpr hfenc

/-- C1 witness: D = 2, P = 1, one-byte shards, erasing shard 0. -/
theorem C1_witness : ∃ full,
    Encode rs21 [[gf 1], [gf 2], [gf 0]] = .ok full ∧
    Reconstruct rs21 (eraseShards full [0]) = .ok full ∧
    Verify rs21 full = .ok true :=
  @C1_reconstruct_roundtrip 2 1 rs21 [[gf 1], [gf 2], [gf 0]] 1 [0]
    (by decide) (by decide) (by decide) (by decide) (by decide) (by decide)
    (by decide) (by decide)

/-- C2: for uniformly sized shard arrays, Verify returns true iff the rows
D..S hold exactly the parity the coding matrix's parity rows compute from
rows 0..D; in particular Verify accepts every output of Encode. -/
theorem C2_verify_characterization {r : RS} {shards : List shard} {L : Nat}
    (hD : 0 < r.dataShards)
    (hS : r.shards = r.dataShards + r.parityShards)
    (hlen : shards.length = r.shards) (hL : 0 < L)
    (hall : ∀ s ∈ shards, s.length = L) :
    (Verify r shards = .ok true ↔
      ∀ p, p < r.parityShards → shards.getD (r.dataShards + p) [] =
        rowEnc r.parity (shards.take r.dataShards) r.dataShards p L) ∧
    ∀ out, Encode r shards = .ok out → Verify r out = .ok true := by
  have hSpos : 0 < r.shards := by omega
  have htakelen : (shards.take r.dataShards).length = r.dataShards := by
    rw [List.length_take]
    omega
  refine ⟨Verify_iff hS hSpos hlen hL hall, ?_⟩
  intro out hout
  rw [Encode_ok hD hS hlen hL hall] at hout
  injection hout with hout2
  subst hout2
  have hlenA : (shards.take r.dataShards ++
      (List.range r.parityShards).map fun p =>
        rowEnc r.parity (shards.take r.dataShards) r.dataShards p L).length =
      r.shards := by
    rw [List.length_append, htakelen, List.length_map, List.length_range]
    omega
  have hallA : ∀ s ∈ shards.take r.dataShards ++
      (List.range r.parityShards).map fun p =>
        rowEnc r.parity (shards.take r.dataShards) r.dataShards p L,
      s.length = L := by
    intro s hs
    rcases List.mem_append.mp hs with hs1 | hs2
    · exact hall s ((List.take_sublist _ _).subset hs1)
    · obtain ⟨p, _, rfl⟩ := List.mem_map.mp hs2
      exact rowEnc_length _ _ _ _ _
  have htake2 : (shards.take r.dataShards ++
      (List.range r.parityShards).map fun p =>
        rowEnc r.parity (shards.take r.dataShards) r.dataShards p L).take
      r.dataShards = shards.take r.dataShards := by
    rw [List.take_append_eq_append_take, List.take_of_length_le (by omega),
      htakelen, Nat.sub_self, List.take_zero, List.append_nil]
  refine (Verify_iff hS hSpos hlenA hL hallA).mpr fun p hp => ?_
  rw [htake2, show r.dataShards + p = (shards.take r.dataShards).length + p from
    by rw [htakelen], getD_append_right, getD_of_lt _ _ (by simpa using hp),
    List.getElem_map, List.getElem_range]

/-- C2 witness: Verify accepts the correctly encoded (2, 1) array. -/
theorem C2_witness : Verify rs21 [[gf 1], [gf 2], [gf 7]] = .ok true :=
  (@C2_verify_characterization rs21 [[gf 1], [gf 2], [gf 7]] 1
    (by decide) (by decide) (by decide) (by decide) (by decide)).1.mpr
    (by decide)

/-- C3: a successful Encode keeps every data shard and fills each parity
shard so that row D+p, byte b is the XOR over c of parity[p][c]·shards[c][b]. -/
theorem C3_encode_parity {r : RS} {shards : List shard} {L : Nat}
    (hD : 0 < r.dataShards) (hS : r.shards = r.dataShards + r.parityShards)
    (hlen : shards.length = r.shards) (hL : 0 < L)
    (hall : ∀ s ∈ shards, s.length = L) :
    ∃ out, Encode r shards = .ok out ∧ out.length = r.shards ∧
      (∀ i, i < r.dataShards → out.getD i [] = shards.getD i []) ∧
      (∀ p, p < r.parityShards → (out.getD (r.dataShards + p) []).length = L) ∧
      (∀ p b, p < r.parityShards → b < L →
        mget out (r.dataShards + p) b =
          xorSum ((List.range r.dataShards).map fun c =>
            mget r.parity p c * mget shards c b)) := by
  have htakelen : (shards.take r.dataShards).length = r.dataShards := by
    rw [List.length_take]
    omega
  have hrowp : ∀ p, p < r.parityShards → (shards.take r.dataShards ++
      (List.range r.parityShards).map fun q =>
        rowEnc r.parity (shards.take r.dataShards) r.dataShards q L).getD
      (r.dataShards + p) [] =
      rowEnc r.parity (shards.take r.dataShards) r.dataShards p L := by
    intro p hp
    rw [show r.dataShards + p = (shards.take r.dataShards).length + p from by
      rw [htakelen], getD_append_right, getD_of_lt _ _ (by simpa using hp),
      List.getElem_map, List.getElem_range]
  refine ⟨_, Encode_ok hD hS hlen hL hall, ?_, ?_, ?_, ?_⟩
  · rw [List.length_append, htakelen, List.length_map, List.length_range]
    omega
  · intro i hi
    rw [getD_append_left _ _ _ (by rw [htakelen]; exact hi), getD_take _ _ hi]
  · intro p hp
    rw [hrowp p hp]
    exact rowEnc_length _ _ _ _ _
  · intro p b hp hb
    rw [mget, hrowp p hp, rowEnc_getD _ _ _ _ _ hb]
    refine congrArg xorSum (List.map_congr_left fun c hc => ?_)
    show mget r.parity p c * mget (shards.take r.dataShards) c b =
      mget r.parity p c * mget shards c b
    have hcell : mget (shards.take r.dataShards) c b = mget shards c b := by
      show ((shards.take r.dataShards).getD c []).getD b 0 =
        (shards.getD c []).getD b 0
      rw [getD_take _ _ (List.mem_range.mp hc)]
    rw [hcell]

/-- C3 witness: the (2, 1) coder at one-byte shards. -/
theorem C3_witness : ∃ out,
    Encode rs21 [[gf 1], [gf 2], [gf 0]] = .ok out ∧
    out.length = rs21.shards ∧
    (∀ i, i < rs21.dataShards →
      out.getD i [] = ([[gf 1], [gf 2], [gf 0]] : List shard).getD i []) ∧
    (∀ p, p < rs21.parityShards →
      (out.getD (rs21.dataShards + p) []).length = 1) ∧
    (∀ p b, p < rs21.parityShards → b < 1 →
      mget out (rs21.dataShards + p) b =
        xorSum ((List.range rs21.dataShards).map fun c =>
          mget rs21.parity p c * mget [[gf 1], [gf 2], [gf 0]] c b)) :=
  @C3_encode_parity rs21 [[gf 1], [gf 2], [gf 0]] 1
    (by decide) (by decide) (by decide) (by decide) (by decide)

/-- C4 (amended): the Cauchy matrix has the identity on top, and its entry
at row D+r, column c is the GF(2^8) inverse of (D+r) XOR c — the inverse of
the full row index XOR the column, not of r XOR c. -/
theorem C4_cauchy_entries {D P : Nat} (hD : 0 < D) (hP : 0 < P) :
    ∃ M, buildMatrixCauchy D (D + P) = .ok M ∧
      (∀ i j, i < D → j < D → mget M i j = if i = j then 1 else 0) ∧
      (∀ p c, p < P → c < D →
        mget M (D + p) c = gf (ginv (((D + p) ^^^ c) % 256))) := by
  obtain ⟨M, hMok, _, hIdf, hCau⟩ :=
    @buildMatrixCauchy_ok D (D + P) hD (by omega) (by omega)
  exact ⟨M, hMok, hIdf, fun p c hp hc => hCau (D + p) c (by omega) (by omega) hc⟩

/-- C4 witness: D = 2, P = 1. -/
theorem C4_witness : ∃ M, buildMatrixCauchy 2 3 = .ok M ∧
    (∀ i j, i < 2 → j < 2 → mget M i j = if i = j then 1 else 0) ∧
    (∀ p c, p < 1 → c < 2 →
      mget M (2 + p) c = gf (ginv (((2 + p) ^^^ c) % 256))) :=
  @C4_cauchy_entries 2 1 (by decide) (by decide)

/-- C4 counterexample: at D = 2 the parity entry at row 2 (r = 0), column 1
is 1/(2 XOR 1) = 244, not 1/(0 XOR 1) = 1 as the claim's formula gives. -/
theorem C4_counterexample :
    buildMatrixCauchy 2 3 =
      .ok [[gf 1, gf 0], [gf 0, gf 1], [gf 142, gf 244]] ∧
    mget [[gf 1, gf 0], [gf 0, gf 1], [gf 142, gf 244]] 2 1 ≠
      gf (ginv ((0 ^^^ 1) % 256)) := by decide

/-- C5: the default (Vandermonde-derived) matrix has the D×D identity as
its top D rows. -/
theorem C5_default_identity_top {D P : Nat} (hD : 0 < D) (hP : 0 < P)
    (h256 : D + P ≤ 256) :
    ∃ M, buildMatrix D (D + P) = .ok M ∧
      SubMatrix M 0 0 D D = identityMatrix D := by
  obtain ⟨M, hMok, hWF, hId, _⟩ := buildMatrix_ok hD (by omega) h256
  refine ⟨M, hMok, gmatrix_ext (WF_SubMatrix_topleft hWF (by omega) le_rfl)
    (WF_identityMatrix D) fun i j hi hj => ?_⟩
  rw [mget_SubMatrix_topleft (by rw [hWF.1]; omega) hi hj, hId i j hi hj,
    mget_identityMatrix hi hj]

/-- C5 witness: D = 2, P = 1. -/
theorem C5_witness : ∃ M, buildMatrix 2 3 = .ok M ∧
    SubMatrix M 0 0 2 2 = identityMatrix 2 :=
  @C5_default_identity_top 2 1 (by decide) (by decide) (by decide)

/-- C6: for non-empty data, Split followed by Join with outSize = len(data)
returns exactly the original bytes. -/
theorem C6_split_join {r : RS} {data spare : List GF}
    (hD : 0 < r.dataShards) (hDS : r.dataShards ≤ r.shards)
    (hne : 0 < data.length) :
    ∃ sh, Split r data spare = .ok sh ∧ Join r sh data.length = .ok data := by
  obtain ⟨sh, h1, _, h3⟩ := split_join hD hDS hne
  exact ⟨sh, h1, h3⟩

/-- C6 witness: three bytes through the (2, 1) coder. -/
theorem C6_witness : ∃ sh, Split rs21 [gf 5, gf 6, gf 7] [] = .ok sh ∧
    Join rs21 sh 3 = .ok [gf 5, gf 6, gf 7] :=
  @C6_split_join rs21 [gf 5, gf 6, gf 7] [] (by decide) (by decide) (by decide)

/-- C7 (amended): Join fails with TooFewShards when fewer than D shards
are supplied; with at least D shards it fails with ShortData when all of
the first D shards are non-empty but too short in total, and with
ReconstructRequired when it reaches an empty shard before the scanned
length covers outSize — an empty shard beyond that point is never seen,
because the size scan stops as soon as outSize is covered. -/
theorem C7_join_errors {r : RS} {shards : List shard} {outSize : Nat} :
    (shards.length < r.dataShards →
      Join r shards outSize = .error .tooFewShards) ∧
    (r.dataShards ≤ shards.length →
      (∀ s ∈ shards.take r.dataShards, s.length ≠ 0) →
      ((shards.take r.dataShards).map List.length).sum < outSize →
      Join r shards outSize = .error .shortData) ∧
    (r.dataShards ≤ shards.length → ∀ k, k < r.dataShards →
      (∀ j, j < k → ((shards.take r.dataShards).getD j []).length ≠ 0) →
      ((shards.take r.dataShards).getD k []).length = 0 →
      (((shards.take r.dataShards).take k).map List.length).sum < outSize →
      Join r shards outSize = .error .reconstructRequired) := by
  refine ⟨fun h => ?_, fun hle hne hb => ?_, fun hle k hk hprev h0 hb => ?_⟩
  · rw [Join, if_pos h]
  · rw [Join, if_neg (by omega),
      joinScan_shortData outSize (shards.take r.dataShards) 0 hne (by omega)]
    rfl
  · rw [Join, if_neg (by omega),
      joinScan_reconstructRequired outSize (shards.take r.dataShards) 0 k
        (by rw [List.length_take]; omega) hprev h0 (by omega)]
    rfl

/-- C7 counterexample: shard 1 — among the first D = 2 shards — is empty,
yet Join succeeds, because one shard already covers outSize = 1. -/
theorem C7_counterexample :
    Join rs21 [[gf 7], []] 1 = .ok [gf 7] ∧
    (([[gf 7], []] : List shard).getD 1 []).length = 0 ∧
    rs21.dataShards ≤ ([[gf 7], []] : List shard).length := by decide

/-- C8 (amended): when at least one shard is non-empty (so the common
shard size is defined) and fewer than D shards are non-empty, Reconstruct
and ReconstructData fail with TooFewShards; with every shard empty the
error is ShardNoData instead. -/
theorem C8_reconstruct_tooFew {r : RS} {shards : List shard} {L : Nat}
    (hDS : r.dataShards ≤ r.shards)
    (hlen : shards.length = r.shards) (hL : 0 < L)
    (hrows : ∀ s ∈ shards, s.length = 0 ∨ s.length = L)
    (hex : ∃ s ∈ shards, s.length ≠ 0)
    (hcount : (shards.filter fun s => decide (s.length ≠ 0)).length <
      r.dataShards) :
    Reconstruct r shards = .error .tooFewShards ∧
    ReconstructData r shards = .error .tooFewShards := by
  have hcount2 : ((List.range r.shards).filter fun i =>
      decide ((shards.getD i []).length ≠ 0)).length < r.dataShards := by
    rw [← hlen, count_present_eq]
    exact hcount
  exact ⟨reconstruct_tooFew false hDS hlen hL hrows hex hcount2,
    reconstruct_tooFew true hDS hlen hL hrows hex hcount2⟩

/-- C8 witness: one non-empty shard out of three, D = 2. -/
theorem C8_witness :
    Reconstruct rs21 [[gf 1], [], []] = .error .tooFewShards ∧
    ReconstructData rs21 [[gf 1], [], []] = .error .tooFewShards :=
  @C8_reconstruct_tooFew rs21 [[gf 1], [], []] 1 (by decide) (by decide)
    (by decide) (by decide) (by decide) (by decide)

/-- C8 counterexample: with every shard empty the error is ShardNoData,
not TooFewShards. -/
theorem C8_counterexample :
    Reconstruct rs21 [[], [], []] = .error .shardNoData ∧
    Err.shardNoData ≠ Err.tooFewShards := by decide

/-- C9 (amended): SplitMulti fails whenever some shard's capacity is below
⌈len(data)/(D·subsize)⌉·subsize and succeeds otherwise, but the failure is
the anonymous capacity error, not ErrInvalidInput. -/
theorem C9_splitMulti_contract {r : RS} {data : List GF} {shards : List shard}
    {subsize : Nat} :
    (¬ (∀ s ∈ shards, (data.length / (r.dataShards * subsize) +
        (if data.length % (r.dataShards * subsize) ≠ 0 then 1 else 0)) *
          subsize ≤ s.length) →
      SplitMulti r data shards subsize = .error .shardCapacity) ∧
    ((∀ s ∈ shards, (data.length / (r.dataShards * subsize) +
        (if data.length % (r.dataShards * subsize) ≠ 0 then 1 else 0)) *
          subsize ≤ s.length) →
      ∃ out, SplitMulti r data shards subsize = .ok out ∧
        out.length = shards.length) :=
  ⟨fun h => splitMulti_capacity h, fun h => splitMulti_ok h⟩

/-- C9 counterexample: an under-capacity SplitMulti returns the anonymous
capacity error, which is distinct from ErrInvalidInput. -/
theorem C9_counterexample :
    SplitMulti rs21 [gf 1, gf 2, gf 3, gf 4, gf 5] [[gf 0], [gf 0], [gf 0]] 2 =
      .error .shardCapacity ∧
    Err.shardCapacity ≠ Err.invalidInput := by decide

/-- C10: a successful ReconstructData keeps the shard count and leaves
every shard at index ≥ D exactly as supplied. -/
theorem C10_parity_frame {r : RS} {shards out : List shard}
    (h : ReconstructData r shards = .ok out) :
    out.length = shards.length ∧
    ∀ i, r.dataShards ≤ i → out.getD i [] = shards.getD i [] :=
  reconstructData_frame h

/-- C10 witness: reconstructing data shard 1 leaves the parity shard as
supplied. -/
theorem C10_witness :
    ([[gf 1], [gf 2], [gf 7]] : List shard).length =
      ([[gf 1], [], [gf 7]] : List shard).length ∧
    ∀ i, rs21.dataShards ≤ i →
      ([[gf 1], [gf 2], [gf 7]] : List shard).getD i [] =
        ([[gf 1], [], [gf 7]] : List shard).getD i [] :=
  @C10_parity_frame rs21 [[gf 1], [], [gf 7]] [[gf 1], [gf 2], [gf 7]]
    (by decide)

end RS
